import Mathlib

/-!
# Verification of `flow_accum_to_n`

A shallow embedding of `landlab/components/flow_accum/flow_accum_to_n.py`
(route-to-multiple flow accumulation) together with proofs about it.

Modelling conventions:
* numpy integer arrays are `List ℤ` (or `List ℕ` where the source only ever
  stores node indices), 2-D arrays are `List (List _)` in row-major order;
* numpy float arrays are modelled with exact rationals `List ℚ`;
* operations that can raise (`bincount` on negative input, broadcasting
  mismatches, out-of-range indexing) return `Except String _`;
* Python's unbounded `while` loop is modelled with an explicit fuel
  parameter; `none` means the fuel was exhausted;
* `numpy.argsort` is modelled as a stable sort (ties broken by index),
  matching numpy's behaviour on the small arrays considered here.
-/

namespace FlowAccumToN

instance exceptDecEq {ε α : Type} [DecidableEq ε] [DecidableEq α] :
    DecidableEq (Except ε α) := fun x y =>
  match x, y with
  | .error e, .error e' =>
      if h : e = e' then .isTrue (by rw [h])
      else .isFalse (by intro hc; cases hc; exact h rfl)
  | .error _, .ok _ => .isFalse (by intro hc; cases hc)
  | .ok _, .error _ => .isFalse (by intro hc; cases hc)
  | .ok a, .ok b =>
      if h : a = b then .isTrue (by rw [h])
      else .isFalse (by intro hc; cases hc; exact h rfl)

/-! ## Python / numpy primitives -/

/-- Python indexing into a 1-D sequence of length `n`: negative indices wrap
around once, anything still out of range raises `IndexError`. -/
def pyIdx (n : ℕ) (k : ℤ) : Except String ℕ :=
  if 0 ≤ k ∧ k < (n : ℤ) then .ok k.toNat
  else if -(n : ℤ) ≤ k ∧ k < 0 then .ok ((n : ℤ) + k).toNat
  else .error "IndexError: index out of bounds"

/-- `l[k]` with Python index semantics (`d` is the element default used to
totalise the successful in-range read). -/
def pyGetE (l : List α) (d : α) (k : ℤ) : Except String α :=
  (pyIdx l.length k).map (fun i => l.getD i d)

/-- `l[k] = x` with Python index semantics. -/
def pySetE (l : List α) (k : ℤ) (x : α) : Except String (List α) :=
  (pyIdx l.length k).map (fun i => l.set i x)

/-- Normalise one end of a Python slice for a sequence of length `n`. -/
def pySliceEnd (n : ℕ) (k : ℤ) : ℕ :=
  if k < 0 then ((n : ℤ) + k).toNat else min k.toNat n

/-- `l[a:b]` with Python slice semantics (clamping, negative wrap). -/
def pySliceList (l : List α) (a b : ℤ) : List α :=
  (l.take (pySliceEnd l.length b)).drop (pySliceEnd l.length a)

/-- `numpy.amax` of a 2-D array; raises on an empty array. -/
def npAmax (r : List (List ℤ)) : Except String ℤ :=
  match r.flatten with
  | [] => .error "ValueError: zero-size array to reduction operation"
  | x :: xs => .ok (xs.foldl max x)

/-- `numpy.bincount`: raises on negative entries, otherwise returns the
occurrence counts for `0, 1, ..., max x` (an empty array for empty input). -/
def npBincount (x : List ℤ) : Except String (List ℤ) :=
  if x.any (fun e => e < 0) then .error "ValueError: negative entry"
  else .ok ((List.range (x.foldl max (-1) + 1).toNat).map
      (fun k : ℕ => (x.count ((k : ℕ) : ℤ) : ℤ)))

/-- `dst[:stop] = src` for 1-D numpy arrays: the slice end is normalised the
Python way, then `src` must either match the slice length exactly or have
length one (in which case it broadcasts); otherwise `ValueError`. -/
def npSliceAssignPrefix (dst : List ℤ) (stop : ℤ) (src : List ℤ) :
    Except String (List ℤ) :=
  let e := pySliceEnd dst.length stop
  if src.length = e then .ok (src ++ dst.drop e)
  else if src.length = 1 then
    .ok (List.replicate e (src.getD 0 0) ++ dst.drop e)
  else .error "ValueError: could not broadcast"

/-- `x[m > 0]`: boolean-mask selection of the entries of `x` at positions
where the parallel list `m` is positive. -/
def maskFilter (x : List ℤ) (m : List ℚ) : List ℤ :=
  (x.zip m).filterMap (fun e => if 0 < e.2 then some e.1 else none)

/-- `r.shape == p.shape` for the two tables. -/
def sameShape (r : List (List ℤ)) (p : List (List ℚ)) : Bool :=
  r.length == p.length &&
    (r.zip p).all (fun e => e.1.length == e.2.length)

/-! ## The embedded source functions -/

/-- `_make_number_of_donors_array_to_n(r, p)`:

    nd = numpy.zeros(r.shape[0], dtype=int)
    max_index = numpy.amax(r)
    r_filter_flat = r.flatten()[p.flatten() > 0]
    nd[:(max_index + 1)] = numpy.bincount(r_filter_flat)
    return nd
-/
def _make_number_of_donors_array_to_n (r : List (List ℤ)) (p : List (List ℚ)) :
    Except String (List ℤ) := do
  let nd : List ℤ := List.replicate r.length 0
  let maxIndex ← npAmax r
  if r.flatten.length = p.flatten.length then do
    let bc ← npBincount (maskFilter r.flatten p.flatten)
    npSliceAssignPrefix nd (maxIndex + 1) bc
  else .error "IndexError: boolean index did not match array"

/-- `_make_delta_array_to_n(nd)`: `delta` is filled with `nt = sum(nd)` and
then `delta[-2::-1] -= numpy.cumsum(nd[::-1])`, i.e.
`delta[k] = nt - (nd[k] + ... + nd[N-1])` and `delta[N] = nt`. -/
def _make_delta_array_to_n (nd : List ℤ) : List ℤ :=
  (List.range (nd.length + 1)).map (fun k => nd.sum - (nd.drop k).sum)

/-- State of the donor-list builder: per-node write cursors `w`, the flat
donor array `D`, and (for specification purposes) the trace of performed
writes as `(receiver, flat index)` pairs in execution order. -/
structure DonorBuildState where
  w : List ℤ
  D : List ℕ
  tr : List (ℤ × ℤ)
  deriving Repr, DecidableEq

/-- One loop body iteration of `_make_array_of_donors_to_n`:

    ri = r[i, v]
    if p[i, v] > 0:
        ind = delta[ri]+w[ri]
        D[ind] = i
        w[ri] += 1
-/
def donorStep (r : List (List ℤ)) (p : List (List ℚ)) (delta : List ℤ)
    (st : DonorBuildState) (vi : ℕ × ℕ) : Except String DonorBuildState :=
  let ri := (r.getD vi.2 []).getD vi.1 0
  if 0 < (p.getD vi.2 []).getD vi.1 0 then do
    let dri ← pyGetE delta 0 ri
    let wri ← pyGetE st.w 0 ri
    let ind := dri + wri
    let D' ← pySetE st.D ind vi.2
    let w' ← pySetE st.w ri (wri + 1)
    .ok ⟨w', D', st.tr ++ [(ri, ind)]⟩
  else .ok st

/-- The iteration order of the builder's double loop
(`for v in range(q): for i in range(np)`). -/
def donorPairs (q np : ℕ) : List (ℕ × ℕ) :=
  (List.range q).product (List.range np)

/-- The full donor-list builder, keeping the final state (cursors, array,
write trace). `nt = delta[-1]`; `w = zeros(np)`; `D = zeros(nt)`. -/
def donorBuild (r : List (List ℤ)) (p : List (List ℚ)) (delta : List ℤ) :
    Except String DonorBuildState := do
  let np := r.length
  let q := (r.getD 0 []).length
  let nt ← pyGetE delta 0 (-1)
  if nt < 0 then .error "ValueError: negative dimension" else
  List.foldlM (donorStep r p delta)
    ⟨List.replicate np 0, List.replicate nt.toNat 0, []⟩ (donorPairs q np)

/-- `_make_array_of_donors_to_n(r, p, delta)` returns the flat donor array. -/
def _make_array_of_donors_to_n (r : List (List ℤ)) (p : List (List ℚ))
    (delta : List ℤ) : Except String (List ℕ) :=
  (donorBuild r p delta).map (fun st => st.D)

/-! ## The drainage stack (`_DrainageStack_to_n.construct__stack`) -/

/-- `self.D[self.delta[node_i]:self.delta[node_i+1]]` as a set: the donors
recorded for `node_i` in the CSR arrays. -/
def dnOf (delta : List ℤ) (D : List ℕ) (v : ℕ) : Finset ℕ :=
  (pySliceList D (delta.getD v 0) (delta.getD (v + 1) 0)).toFinset

/-- Union of the recorded donor sets of all nodes of `s` (the `upstream`
accumulation loop of the source). -/
def dnU (delta : List ℤ) (D : List ℕ) (s : Finset ℕ) : Finset ℕ :=
  s.biUnion (dnOf delta D)

/-- `visit_time[list(s)] = x`: fancy-index assignment of the constant `x`
at the positions of `s`. -/
def assignAt (vt : List ℤ) (s : Finset ℕ) (x : ℤ) : List ℤ :=
  List.zipWith (fun i old => if i ∈ s then x else old) (List.range vt.length) vt

/-- The loop state of `construct__stack`: iteration counter `i`, the
`visit_time` array, and the `base` and `upstream` sets. -/
structure StackState where
  i : ℤ
  visit_time : List ℤ
  base : Finset ℕ
  upstream : Finset ℕ
  deriving DecidableEq

/-- The state just before the `while` loop: `visit_time` is all `-1`s of
length `delta.size - 1`, the initial bases get visit time `0`, `upstream`
collects the donors of the bases, and `base` becomes `upstream - base`. -/
def stackInitState (delta : List ℤ) (D : List ℕ) (l : List ℕ) : StackState :=
  let base := l.toFinset
  let up := dnU delta D base
  { i := 0
    visit_time := assignAt (List.replicate (delta.length - 1) (-1)) base 0
    base := up \ base
    upstream := up }

/-- One iteration of the `while len(upstream) > 0` loop. -/
def stackStep (delta : List ℤ) (D : List ℕ) (st : StackState) : StackState :=
  let i' := st.i + 1
  let up := dnU delta D st.base
  let visited := st.base \ up
  { i := i'
    visit_time := assignAt st.visit_time visited i'
    base := (st.base \ visited) ∪ up
    upstream := up }

/-- Run the `while` loop with the given fuel; `none` models a run that does
not terminate within `fuel` iterations. Returns the final `visit_time`. -/
def stackRun (delta : List ℤ) (D : List ℕ) (fuel : ℕ) (st : StackState) :
    Option (List ℤ) :=
  if st.upstream = ∅ then some st.visit_time
  else
    match fuel with
    | 0 => none
    | fuel' + 1 => stackRun delta D fuel' (stackStep delta D st)

/-- The sorting key used to model `numpy.argsort a`: sort positions by value,
breaking ties by position (a stable argsort). -/
def argsortKey (a : List ℤ) (i j : ℕ) : Prop :=
  a.getD i 0 < a.getD j 0 ∨ (a.getD i 0 = a.getD j 0 ∧ i ≤ j)

instance (a : List ℤ) : DecidableRel (argsortKey a) := fun _ _ => by
  unfold argsortKey; infer_instance

/-- `numpy.argsort` modelled as a stable sort of the index range. -/
def argsort (a : List ℤ) : List ℕ :=
  List.insertionSort (argsortKey a) (List.range a.length)

/-- `construct__stack(l)` followed by reading off `self.s`. -/
def construct__stack (delta : List ℤ) (D : List ℕ) (fuel : ℕ) (l : List ℕ) :
    Option (List ℕ) :=
  (stackRun delta D fuel (stackInitState delta D l)).map argsort

/-- The base-level nodes: `numpy.where(node_id == receiver_nodes[:,0])[0]`. -/
def baselevelList (r : List (List ℤ)) : List ℕ :=
  (List.range r.length).filter (fun i => (r.getD i []).getD 0 0 == (i : ℤ))

/-- `make_ordered_node_array_to_n(receiver_nodes, receiver_proportion)`,
with an explicit fuel bound for the traversal loop. -/
def make_ordered_node_array_to_n (fuel : ℕ) (r : List (List ℤ))
    (p : List (List ℚ)) : Except String (List ℕ) := do
  let nd ← _make_number_of_donors_array_to_n r p
  let delta := _make_delta_array_to_n nd
  let D ← _make_array_of_donors_to_n r p delta
  match construct__stack delta D fuel (baselevelList r) with
  | some s => .ok s
  | none => .error "while loop did not terminate within fuel"

/-! ## The accumulator (`find_drainage_area_and_discharge_to_n`) -/

/-- `a[boundary_nodes] = 0`. -/
def zeroAt (l : List ℚ) (bl : List ℕ) : List ℚ :=
  List.zipWith (fun i x => if i ∈ bl then 0 else x) (List.range l.length) l

/-- Inner loop body over one receiver slot `(recvr, proportion)` of `donor`:

    if proportion > 0:
        if donor != recvr:
            drainage_area[recvr] += proportion*drainage_area[donor]
            discharge[recvr] += proportion*discharge[donor]
-/
def accumSlot (donor : ℕ) (st : List ℚ × List ℚ) (e : ℤ × ℚ) :
    Except String (List ℚ × List ℚ) :=
  if 0 < e.2 then
    if (donor : ℤ) ≠ e.1 then do
      let k ← pyIdx st.1.length e.1
      let k' ← pyIdx st.2.length e.1
      .ok (st.1.set k (st.1.getD k 0 + e.2 * st.1.getD donor 0),
        st.2.set k' (st.2.getD k' 0 + e.2 * st.2.getD donor 0))
    else .ok st
  else .ok st

/-- Outer loop body: process all receiver slots of one donor. Reading the
donor's row fails when `donor` is out of range, as `r[donor, v]` would. -/
def accumDonor (r : List (List ℤ)) (p : List (List ℚ))
    (st : List ℚ × List ℚ) (donor : ℕ) : Except String (List ℚ × List ℚ) :=
  if donor < r.length then
    List.foldlM (accumSlot donor) st ((r.getD donor []).zip (p.getD donor []))
  else .error "IndexError: donor out of bounds"

/-- `find_drainage_area_and_discharge_to_n(s, r, p, node_cell_area, runoff,
boundary_nodes)`. The scalar defaults of the source correspond to passing
constant lists. The loop `for i in range(np-1, -1, -1)` walks the first
`np` entries of `s` in reverse. -/
def find_drainage_area_and_discharge_to_n (s : List ℕ) (r : List (List ℤ))
    (p : List (List ℚ)) (node_cell_area runoff : List ℚ)
    (boundary_nodes : Option (List ℕ)) : Except String (List ℚ × List ℚ) :=
  let np := r.length
  let da0 := (List.range np).map (fun i => node_cell_area.getD i 0)
  let q0 := (List.range np).map
    (fun i => node_cell_area.getD i 0 * runoff.getD i 0)
  let start := match boundary_nodes with
    | none => (da0, q0)
    | some bl => (zeroAt da0 bl, zeroAt q0 bl)
  if np ≤ s.length then
    List.foldlM (accumDonor r p) start ((s.take np).reverse)
  else .error "IndexError: stack shorter than node count"

/-- The seeded start state of `find_drainage_area_and_discharge_to_n`. -/
def accumStart (np : ℕ) (node_cell_area runoff : List ℚ)
    (boundary_nodes : Option (List ℕ)) : List ℚ × List ℚ :=
  let da0 := (List.range np).map (fun i => node_cell_area.getD i 0)
  let q0 := (List.range np).map
    (fun i => node_cell_area.getD i 0 * runoff.getD i 0)
  match boundary_nodes with
  | none => (da0, q0)
  | some bl => (zeroAt da0 bl, zeroAt q0 bl)

/-- `flow_accumulation_to_n(receiver_nodes, receiver_proportions,
node_cell_area, runoff_rate, boundary_nodes)`: the public entry point. -/
def flow_accumulation_to_n (fuel : ℕ) (r : List (List ℤ))
    (p : List (List ℚ)) (node_cell_area runoff : List ℚ)
    (boundary_nodes : Option (List ℕ)) :
    Except String (List ℚ × List ℚ × List ℕ) := do
  if sameShape r p then do
    let s ← make_ordered_node_array_to_n fuel r p
    let aq ← find_drainage_area_and_discharge_to_n s r p node_cell_area
      runoff boundary_nodes
    .ok (aq.1, aq.2, s)
  else .error "AssertionError: r and p arrays are not the same shape"

/-! ## Graph-level definitions read off the receiver/proportion tables -/

/-- `u` occupies a positive-proportion receiver slot pointing at `v`:
some slot `j` of row `u` has receiver `v` and positive proportion.
(This includes the self-loops used to mark base-level nodes.) -/
def donorSlot (r : List (List ℤ)) (p : List (List ℚ)) (u v : ℕ) : Prop :=
  ∃ j, j < (r.getD u []).length ∧ j < (p.getD u []).length ∧
    (r.getD u []).getD j 0 = (v : ℤ) ∧ 0 < (p.getD u []).getD j 0

instance (r : List (List ℤ)) (p : List (List ℚ)) (u v : ℕ) :
    Decidable (donorSlot r p u v) := by
  unfold donorSlot; infer_instance

/-- A positive-proportion flow edge between distinct nodes: `u` sends part
of its flow directly to `v` (so `u` is a direct donor of `v`). -/
def edgeTo (r : List (List ℤ)) (p : List (List ℚ)) (u v : ℕ) : Prop :=
  u ≠ v ∧ donorSlot r p u v

instance (r : List (List ℤ)) (p : List (List ℚ)) (u v : ℕ) :
    Decidable (edgeTo r p u v) := by
  unfold edgeTo; infer_instance

/-- `i` is a base-level node: its first receiver slot is itself. -/
def isBase (r : List (List ℤ)) (i : ℕ) : Prop :=
  i < r.length ∧ (r.getD i []).getD 0 0 = (i : ℤ)

instance (r : List (List ℤ)) (i : ℕ) : Decidable (isBase r i) := by
  unfold isBase; infer_instance

/-- `u` is a donor of `v`, directly or transitively, via positive-proportion
edges between distinct nodes. -/
def donorTrans (r : List (List ℤ)) (p : List (List ℚ)) (u v : ℕ) : Prop :=
  Relation.TransGen (edgeTo r p) u v

/-- The strict positive-proportion flow graph is acyclic (self-loops are
already excluded from `edgeTo`; under `selfOnlyBase` the only self-loops
are the markers at base-level nodes). -/
def Acyclic (r : List (List ℤ)) (p : List (List ℚ)) : Prop :=
  ∀ x, ¬ Relation.TransGen (edgeTo r p) x x

/-- `v` drains (directly or transitively) to some base-level node. -/
def DrainsToBase (r : List (List ℤ)) (p : List (List ℚ)) (v : ℕ) : Prop :=
  ∃ b, isBase r b ∧ Relation.ReflTransGen (edgeTo r p) v b

/-- `v` is a node with no path of positive-proportion edges down to any
base-level node (in particular `v` is not base-level itself). -/
def NoDrain (r : List (List ℤ)) (p : List (List ℚ)) (v : ℕ) : Prop :=
  v < r.length ∧ ∀ b, isBase r b → ¬ Relation.ReflTransGen (edgeTo r p) v b

/-- `s` lists every node downstream-before-upstream: along every positive
flow edge the receiver appears strictly earlier than the donor. -/
def IsDownUpOrder (r : List (List ℤ)) (p : List (List ℚ)) (s : List ℕ) : Prop :=
  ∀ u v, edgeTo r p u v → s.indexOf v < s.indexOf u

/-- Number of positive-proportion `(node, slot)` pairs whose receiver entry
is `v` — the specified donor count of `v`. -/
def donorCountSpec (r : List (List ℤ)) (p : List (List ℚ)) (v : ℕ) : ℕ :=
  (r.flatten.zip p.flatten).countP
    (fun e => decide (0 < e.2) && (e.1 == (v : ℤ)))

/-- The donors of `t` contributed by a list of `(slot, node)` pairs, in
that order. -/
def donorsListOn (r : List (List ℤ)) (p : List (List ℚ)) (t : ℕ)
    (l : List (ℕ × ℕ)) : List ℕ :=
  l.filterMap
    (fun vi => if 0 < (p.getD vi.2 []).getD vi.1 0 ∧
        (r.getD vi.2 []).getD vi.1 0 = (t : ℤ) then some vi.2 else none)

/-- The list of donors of `t` in the builder's processing order
(slot-major, as in `for v in range(q): for i in range(np)`). -/
def donorsListSpec (r : List (List ℤ)) (p : List (List ℚ)) (t : ℕ) : List ℕ :=
  donorsListOn r p t (donorPairs (r.getD 0 []).length r.length)

/-- Structural well-formedness of the input tables, following the module's
documented conventions: non-empty rectangular tables of equal shape, every
positive-proportion receiver a valid node ID, and every inert
(proportion ≤ 0) slot holding the `-1` sentinel. -/
structure ValidTables (r : List (List ℤ)) (p : List (List ℚ)) : Prop where
  nrows : 0 < r.length
  ncols : 0 < (r.getD 0 []).length
  shape : sameShape r p = true
  rect : ∀ i < r.length, (r.getD i []).length = (r.getD 0 []).length
  posInRange : ∀ i < r.length, ∀ j < (r.getD i []).length,
    0 < (p.getD i []).getD j 0 →
      0 ≤ (r.getD i []).getD j 0 ∧ (r.getD i []).getD j 0 < (r.length : ℤ)
  inertSentinel : ∀ i < r.length, ∀ j < (r.getD i []).length,
    ¬ 0 < (p.getD i []).getD j 0 → (r.getD i []).getD j 0 = -1

/-- Validity of the flow graph for the traversal: well-formed tables,
positive self-loops only at base-level nodes, base-level nodes sending
positive flow only to themselves, and the strict flow graph acyclic. -/
structure StackValid (r : List (List ℤ)) (p : List (List ℚ))
    extends ValidTables r p : Prop where
  selfOnlyBase : ∀ i, donorSlot r p i i → isBase r i
  baseOnlySelf : ∀ i, isBase r i → ∀ j < (r.getD i []).length,
    0 < (p.getD i []).getD j 0 → (r.getD i []).getD j 0 = (i : ℤ)
  acyclic : Acyclic r p

/-! ## Round-indexed description of the traversal loop -/

/-- The `base` set at the end of round `k` of the `while` loop (round `0` is
the state just before the loop).  Because the loop sets
`base = (base - visited) ∪ upstream = upstream`, each later `base` is just
the union of donor sets of the previous one. -/
def Bseq (delta : List ℤ) (D : List ℕ) (l : List ℕ) : ℕ → Finset ℕ
  | 0 => dnU delta D l.toFinset \ l.toFinset
  | i + 1 => dnU delta D (Bseq delta D l i)

/-- The `upstream` set at the end of round `k` (round `0` is the state just
before the loop). -/
def Useq (delta : List ℤ) (D : List ℕ) (l : List ℕ) : ℕ → Finset ℕ
  | 0 => dnU delta D l.toFinset
  | i + 1 => dnU delta D (Bseq delta D l i)

/-- The `visit_time` array at the end of round `k`. -/
def vtSeq (delta : List ℤ) (D : List ℕ) (l : List ℕ) : ℕ → List ℤ
  | 0 => assignAt (List.replicate (delta.length - 1) (-1)) l.toFinset 0
  | k + 1 => assignAt (vtSeq delta D l k)
      (Bseq delta D l k \ Bseq delta D l (k + 1)) (k + 1)

/-- The full loop state at the end of round `k`. -/
def stateAt (delta : List ℤ) (D : List ℕ) (l : List ℕ) (k : ℕ) : StackState :=
  { i := (k : ℤ)
    visit_time := vtSeq delta D l k
    base := Bseq delta D l k
    upstream := Useq delta D l k }

/-- Iterated upstream reachability towards the base-level set, used as an
executable witness for the `DrainsToBase` side condition: `reachIter k` is
the set of nodes that reach a base-level node in at most `k` edges. -/
def reachIter (r : List (List ℤ)) (p : List (List ℚ)) : ℕ → Finset ℕ
  | 0 => (baselevelList r).toFinset
  | k + 1 => reachIter r p k ∪
      (Finset.range r.length).filter
        (fun u => ∃ w ∈ reachIter r p k, edgeTo r p u w)

/-- Sum of the values of `a` over a list of node IDs. -/
def sumOn (a : List ℚ) (ns : List ℕ) : ℚ :=
  (ns.map (fun v => a.getD v 0)).sum

/-- The seed contribution of node `v`: its cell area, or `0` when `v` is
boundary-masked. -/
def seedOf (node_cell_area : List ℚ) (boundary_nodes : Option (List ℕ))
    (v : ℕ) : ℚ :=
  match boundary_nodes with
  | none => node_cell_area.getD v 0
  | some bl => if v ∈ bl then 0 else node_cell_area.getD v 0

/-- Sum of the positive proportions of row `i` of `p`. -/
def posRowSum (p : List (List ℚ)) (i : ℕ) : ℚ :=
  ((p.getD i []).filter (fun x => decide (0 < x))).sum

/-- Total proportion sent to `v` by the `(receiver, proportion)` slot list
`l`, counting only positive-proportion slots. -/
def rowCoefOn (l : List (ℤ × ℚ)) (v : ℕ) : ℚ :=
  ((l.filter (fun e => decide (0 < e.2) && (e.1 == (v : ℤ)))).map Prod.snd).sum

/-- Total proportion sent by donor `d` to node `v`. -/
def rowCoef (r : List (List ℤ)) (p : List (List ℚ)) (d v : ℕ) : ℚ :=
  rowCoefOn ((r.getD d []).zip (p.getD d [])) v

/-- The base-level nodes as a finite set. -/
def baseSet (r : List (List ℤ)) : Finset ℕ :=
  (Finset.range r.length).filter (fun i => isBase r i)

/-! ## Concrete inputs -/

/-- The 10-node reference receiver table of the module's doctests. -/
def rEx : List (List ℤ) :=
  [[1, 2], [4, 5], [1, 5], [6, 2], [4, -1], [4, -1], [5, 7], [4, 5], [6, 7],
    [7, 8]]

/-- The matching row-stochastic proportion table. -/
def pEx : List (List ℚ) :=
  [[6/10, 4/10], [85/100, 15/100], [65/100, 35/100], [9/10, 1/10], [1, 0],
    [1, 0], [75/100, 25/100], [55/100, 45/100], [8/10, 2/10], [95/100, 5/100]]

/-- Two-node input with no base-level node: `0` drains into `1`, `1` has no
positive receiver.  The flow graph is acyclic and all positive receivers are
in range, yet no traversal happens. -/
def rNoBase : List (List ℤ) := [[1, -1], [-1, -1]]

/-- Proportions for `rNoBase`. -/
def pNoBase : List (List ℚ) := [[1, 0], [0, 0]]

/-- Receiver table whose only irregularity is an inert (zero-proportion)
slot holding the valid node ID `1` instead of the `-1` sentinel. -/
def rInert : List (List ℤ) := [[0, 1], [0, -1]]

/-- The same table with the conventional `-1` sentinel in that slot. -/
def rInertConv : List (List ℤ) := [[0, -1], [0, -1]]

/-- Proportions shared by `rInert` and `rInertConv`: only the first slot of
each row is positive. -/
def pInert : List (List ℚ) := [[1, 0], [1, 0]]

/-- One-row table referencing the out-of-range node `5`. -/
def rOut : List (List ℤ) := [[5, -1]]

/-- Proportions for `rOut`. -/
def pOut : List (List ℚ) := [[1, 0]]

/-- Three-node input in which base-level node `0` keeps a positive
self-loop *and* sends positive flow to node `1`, which drains into the
other base-level node `2`.  Acyclic apart from base-level self-loops. -/
def rBaseOut : List (List ℤ) := [[0, 1], [2, -1], [2, -1]]

/-- Proportions for `rBaseOut`; every row's positive proportions sum to 1. -/
def pBaseOut : List (List ℚ) := [[1/2, 1/2], [1, 0], [1, 0]]

/-- Donor counts of the 10-node reference input. -/
def ndEx : List ℤ := [0, 2, 2, 0, 4, 4, 2, 3, 1, 0]

/-- Flat donor array of the 10-node reference input. -/
def DEx : List ℕ := [0, 2, 0, 3, 1, 4, 5, 7, 6, 1, 2, 7, 3, 8, 9, 6, 8, 9]

/-- Traversal order of the 10-node reference input. -/
def sEx : List ℕ := [4, 5, 1, 7, 2, 6, 0, 3, 8, 9]

/-- Exact drainage areas of the 10-node reference input under unit cell
area and unit runoff. -/
def areaEx : List ℚ :=
  [1, 2575/1000, 15/10, 1, 10, 52465/10000, 274/100, 2845/1000, 105/100, 1]

/-- Two-node input with base-level node `0` and an isolated node `1` that
has no positive receiver at all (hence no path to any base). -/
def rIso : List (List ℤ) := [[0, -1], [-1, -1]]

/-- Proportions for `rIso`. -/
def pIso : List (List ℚ) := [[1, 0], [0, 0]]

/-! ## Basic lemmas about the primitives -/

theorem pyIdx_ok {n : ℕ} {k : ℤ} (h0 : 0 ≤ k) (h1 : k < (n : ℤ)) :
    pyIdx n k = .ok k.toNat := by
  unfold pyIdx
  rw [if_pos ⟨h0, h1⟩]

theorem pyGetE_ok {α : Type} {l : List α} {d : α} {k : ℤ} (h0 : 0 ≤ k)
    (h1 : k < (l.length : ℤ)) : pyGetE l d k = .ok (l.getD k.toNat d) := by
  unfold pyGetE
  rw [pyIdx_ok h0 h1]
  rfl

theorem pySetE_ok {α : Type} {l : List α} {x : α} {k : ℤ} (h0 : 0 ≤ k)
    (h1 : k < (l.length : ℤ)) : pySetE l k x = .ok (l.set k.toNat x) := by
  unfold pySetE
  rw [pyIdx_ok h0 h1]
  rfl

theorem except_bind_ok {α β : Type} (a : α) (f : α → Except String β) :
    (Except.ok a >>= f) = f a := rfl

theorem assignAt_length (vt : List ℤ) (s : Finset ℕ) (x : ℤ) :
    (assignAt vt s x).length = vt.length := by
  simp [assignAt]

theorem assignAt_getD (vt : List ℤ) (s : Finset ℕ) (x : ℤ) {k : ℕ}
    (h : k < vt.length) :
    (assignAt vt s x).getD k 0 = if k ∈ s then x else vt.getD k 0 := by
  have hk : k < (assignAt vt s x).length := by rw [assignAt_length]; exact h
  rw [List.getD_eq_getElem _ _ hk, List.getD_eq_getElem _ _ h]
  simp only [assignAt]
  rw [List.getElem_zipWith]
  simp [h]

theorem assignAt_empty (vt : List ℤ) (x : ℤ) : assignAt vt ∅ x = vt := by
  apply List.ext_getElem (assignAt_length vt ∅ x)
  intro k h1 h2
  have h3 := assignAt_getD vt ∅ x h2
  simp only [Finset.not_mem_empty, if_false] at h3
  rw [List.getD_eq_getElem _ _ h1, List.getD_eq_getElem _ _ h2] at h3
  exact h3

theorem le_foldl_max (xs : List ℤ) (a : ℤ) : a ≤ xs.foldl max a := by
  induction xs generalizing a with
  | nil => simp
  | cons x t ih => exact le_trans (le_max_left a x) (ih (max a x))

theorem foldl_max_le_of_mem {xs : List ℤ} {e : ℤ} (h : e ∈ xs) (a : ℤ) :
    e ≤ xs.foldl max a := by
  induction xs generalizing a with
  | nil => cases h
  | cons x t ih =>
    rcases List.mem_cons.mp h with rfl | h'
    · exact le_trans (le_max_right a e) (le_foldl_max t _)
    · exact ih h' _

theorem foldl_max_cases (xs : List ℤ) (a : ℤ) :
    xs.foldl max a = a ∨ xs.foldl max a ∈ xs := by
  induction xs generalizing a with
  | nil => exact Or.inl rfl
  | cons x t ih =>
    rcases ih (max a x) with h | h
    · rcases max_cases a x with ⟨hm, _⟩ | ⟨hm, _⟩
      · exact Or.inl (by rw [List.foldl_cons, h, hm])
      · exact Or.inr (by rw [List.foldl_cons, h, hm]; exact List.mem_cons_self x t)
    · exact Or.inr (List.mem_cons_of_mem x h)

theorem foldl_max_le {xs : List ℤ} {a c : ℤ} (h : a ≤ c)
    (h2 : ∀ e ∈ xs, e ≤ c) : xs.foldl max a ≤ c := by
  rcases foldl_max_cases xs a with he | he
  · rw [he]; exact h
  · exact h2 _ he

theorem mem_zip_idx {α β : Type} {x : List α} {y : List β} {ab : α × β}
    (h : ab ∈ x.zip y) :
    ∃ i, i < x.length ∧ i < y.length ∧ x[i]? = some ab.1 ∧ y[i]? = some ab.2 := by
  induction x generalizing y with
  | nil => simp [List.zip] at h
  | cons a t ih =>
    cases y with
    | nil => simp [List.zip] at h
    | cons b u =>
      rw [List.zip_cons_cons, List.mem_cons] at h
      rcases h with rfl | h'
      · exact ⟨0, by simp, by simp, by simp, by simp⟩
      · obtain ⟨i, hi1, hi2, hi3, hi4⟩ := ih h'
        exact ⟨i + 1, by simpa using hi1, by simpa using hi2, by simpa using hi3,
          by simpa using hi4⟩

theorem maskFilter_mem {x : List ℤ} {m : List ℚ} {e : ℤ}
    (h : e ∈ maskFilter x m) : ∃ pr ∈ x.zip m, 0 < pr.2 ∧ pr.1 = e := by
  unfold maskFilter at h
  rw [List.mem_filterMap] at h
  obtain ⟨pr, hpr, hsome⟩ := h
  by_cases hc : 0 < pr.2
  · rw [if_pos hc] at hsome
    exact ⟨pr, hpr, hc, Option.some.inj hsome⟩
  · rw [if_neg hc] at hsome
    cases hsome

theorem maskFilter_mem_of {x : List ℤ} {m : List ℚ} {pr : ℤ × ℚ}
    (h : pr ∈ x.zip m) (hpos : 0 < pr.2) : pr.1 ∈ maskFilter x m := by
  unfold maskFilter
  rw [List.mem_filterMap]
  exact ⟨pr, h, by rw [if_pos hpos]⟩

theorem maskFilter_append {x1 x2 : List ℤ} {m1 m2 : List ℚ}
    (h : x1.length = m1.length) :
    maskFilter (x1 ++ x2) (m1 ++ m2) = maskFilter x1 m1 ++ maskFilter x2 m2 := by
  unfold maskFilter
  rw [List.zip_append h, List.filterMap_append]

/-! ## Shape and flattening lemmas -/

theorem sameShape_length {r : List (List ℤ)} {p : List (List ℚ)}
    (h : sameShape r p = true) : r.length = p.length := by
  unfold sameShape at h
  rw [Bool.and_eq_true] at h
  exact eq_of_beq h.1

theorem sameShape_rows {r : List (List ℤ)} {p : List (List ℚ)}
    (h : sameShape r p = true) :
    ∀ i < r.length, (r.getD i []).length = (p.getD i []).length := by
  intro i hi
  have hlen0 := sameShape_length h
  unfold sameShape at h
  rw [Bool.and_eq_true] at h
  have hall := h.2
  rw [List.all_eq_true] at hall
  have hip : i < p.length := hlen0 ▸ hi
  have hmem : (r.getD i [], p.getD i []) ∈ r.zip p := by
    have hz : i < (r.zip p).length := by
      rw [List.length_zip]; omega
    have : (r.zip p)[i] = (r[i], p[i]) := List.getElem_zip
    have hm := List.getElem_mem hz
    rw [this] at hm
    rwa [List.getD_eq_getElem _ _ hi, List.getD_eq_getElem _ _ hip]
  exact eq_of_beq (hall _ hmem)

theorem flatten_length_eq {r : List (List ℤ)} {p : List (List ℚ)}
    (hlen : r.length = p.length)
    (hrows : ∀ i < r.length, (r.getD i []).length = (p.getD i []).length) :
    r.flatten.length = p.flatten.length := by
  induction r generalizing p with
  | nil =>
    cases p with
    | nil => rfl
    | cons b q => cases hlen
  | cons a t ih =>
    cases p with
    | nil => cases hlen
    | cons b q =>
      simp only [List.flatten_cons, List.length_append]
      have h0 := hrows 0 (by simp)
      simp only [List.getD_cons_zero] at h0
      have ht : t.flatten.length = q.flatten.length := by
        apply ih (by simpa using hlen)
        intro i hi
        have := hrows (i + 1) (by simpa using hi)
        simpa using this
      omega

theorem zip_flatten_of_shape {r : List (List ℤ)} {p : List (List ℚ)}
    (hlen : r.length = p.length)
    (hrows : ∀ i < r.length, (r.getD i []).length = (p.getD i []).length) :
    r.flatten.zip p.flatten =
      ((r.zip p).map (fun e => e.1.zip e.2)).flatten := by
  induction r generalizing p with
  | nil =>
    cases p with
    | nil => rfl
    | cons b q => cases hlen
  | cons a t ih =>
    cases p with
    | nil => cases hlen
    | cons b q =>
      have h0 := hrows 0 (by simp)
      simp only [List.getD_cons_zero] at h0
      simp only [List.flatten_cons, List.zip_cons_cons, List.map_cons]
      rw [List.zip_append h0]
      congr 1
      apply ih (by simpa using hlen)
      intro i hi
      have := hrows (i + 1) (by simpa using hi)
      simpa using this

theorem mem_zip_flatten_of_idx {r : List (List ℤ)} {p : List (List ℚ)}
    (hlen : r.length = p.length)
    (hrows : ∀ i < r.length, (r.getD i []).length = (p.getD i []).length)
    {i j : ℕ} (hi : i < r.length) (hj : j < (r.getD i []).length) :
    ((r.getD i []).getD j 0, (p.getD i []).getD j 0) ∈
      r.flatten.zip p.flatten := by
  rw [zip_flatten_of_shape hlen hrows]
  rw [List.mem_flatten]
  refine ⟨(r.getD i []).zip (p.getD i []), ?_, ?_⟩
  · rw [List.mem_map]
    refine ⟨(r.getD i [], p.getD i []), ?_, rfl⟩
    have hip : i < p.length := hlen ▸ hi
    have hz : i < (r.zip p).length := by rw [List.length_zip]; omega
    have hg : (r.zip p)[i] = (r[i], p[i]) := List.getElem_zip
    have hm := List.getElem_mem hz
    rw [hg] at hm
    rwa [List.getD_eq_getElem _ _ hi, List.getD_eq_getElem _ _ hip]
  · have hjp : j < (p.getD i []).length := hrows i hi ▸ hj
    have hz : j < ((r.getD i []).zip (p.getD i [])).length := by
      rw [List.length_zip]; omega
    have hg : ((r.getD i []).zip (p.getD i []))[j] =
        ((r.getD i [])[j], (p.getD i [])[j]) := List.getElem_zip
    have hm := List.getElem_mem hz
    rw [hg] at hm
    rwa [List.getD_eq_getElem _ _ hj, List.getD_eq_getElem _ _ hjp]

theorem mem_zip_flatten_elim {r : List (List ℤ)} {p : List (List ℚ)}
    (hlen : r.length = p.length)
    (hrows : ∀ i < r.length, (r.getD i []).length = (p.getD i []).length)
    {pr : ℤ × ℚ} (h : pr ∈ r.flatten.zip p.flatten) :
    ∃ i j, i < r.length ∧ j < (r.getD i []).length ∧
      (r.getD i []).getD j 0 = pr.1 ∧ (p.getD i []).getD j 0 = pr.2 := by
  rw [zip_flatten_of_shape hlen hrows, List.mem_flatten] at h
  obtain ⟨l, hl, hpr⟩ := h
  rw [List.mem_map] at hl
  obtain ⟨rowpair, hrp, rfl⟩ := hl
  obtain ⟨i, hi1, hi2, hg1, hg2⟩ := mem_zip_idx hrp
  obtain ⟨j, hj1, hj2, hh1, hh2⟩ := mem_zip_idx hpr
  have e1 : r.getD i [] = rowpair.1 := by
    rw [List.getD_eq_getElem _ _ hi1]
    exact Option.some.inj (by rw [← List.getElem?_eq_getElem hi1, hg1])
  have e2 : p.getD i [] = rowpair.2 := by
    rw [List.getD_eq_getElem _ _ hi2]
    exact Option.some.inj (by rw [← List.getElem?_eq_getElem hi2, hg2])
  refine ⟨i, j, hi1, ?_, ?_, ?_⟩
  · rw [e1]; exact hj1
  · rw [e1, List.getD_eq_getElem _ _ (e1 ▸ hj1)]
    exact Option.some.inj (by rw [← List.getElem?_eq_getElem, hh1])
  · rw [e2, List.getD_eq_getElem _ _ (e2 ▸ hj2)]
    exact Option.some.inj (by rw [← List.getElem?_eq_getElem, hh2])

/-! ## A generic invariant rule for `Except`-valued folds -/

theorem foldlM_except_inv {σ α : Type} (step : σ → α → Except String σ)
    (P : σ → List α → Prop) :
    ∀ (l : List α) (st : σ), P st l →
      (∀ st' a rest, (a :: rest) <:+ l → P st' (a :: rest) →
        ∃ st'', step st' a = .ok st'' ∧ P st'' rest) →
      ∃ stf, List.foldlM step st l = .ok stf ∧ P stf [] := by
  intro l
  induction l with
  | nil => intro st h _; exact ⟨st, rfl, h⟩
  | cons a t ih =>
    intro st h hstep
    obtain ⟨st'', hok, hP⟩ := hstep st a t List.suffix_rfl h
    have : List.foldlM step st (a :: t) = List.foldlM step st'' t := by
      rw [List.foldlM_cons, hok]
      rfl
    rw [this]
    exact ih st'' hP (fun st' b rest hsuf hP' =>
      hstep st' b rest (hsuf.trans (List.suffix_cons a t)) hP')

/-! ## The donor-count stage -/

theorem npAmax_ok {r : List (List ℤ)} {m : ℤ} (h : npAmax r = .ok m) :
    m ∈ r.flatten ∧ ∀ e ∈ r.flatten, e ≤ m := by
  unfold npAmax at h
  cases hf : r.flatten with
  | nil => rw [hf] at h; cases h
  | cons x xs =>
    rw [hf] at h
    have hm : m = xs.foldl max x := (Except.ok.inj h).symm
    constructor
    · rcases foldl_max_cases xs x with hc | hc
      · rw [hm, hc]; exact List.mem_cons_self x xs
      · rw [hm]; exact List.mem_cons_of_mem x hc
    · intro e he
      rcases List.mem_cons.mp he with rfl | he'
      · rw [hm]; exact le_foldl_max xs e
      · rw [hm]; exact foldl_max_le_of_mem he' x

theorem npAmax_ok_of_ne {r : List (List ℤ)} (h : r.flatten ≠ []) :
    ∃ m, npAmax r = .ok m := by
  unfold npAmax
  cases hf : r.flatten with
  | nil => exact absurd hf h
  | cons x xs => exact ⟨xs.foldl max x, rfl⟩

theorem npBincount_ok {x : List ℤ} (h : ∀ e ∈ x, 0 ≤ e) :
    npBincount x = .ok ((List.range (x.foldl max (-1) + 1).toNat).map
      (fun k : ℕ => (x.count ((k : ℕ) : ℤ) : ℤ))) := by
  unfold npBincount
  rw [if_neg]
  intro hc
  rw [List.any_eq_true] at hc
  obtain ⟨e, he, hlt⟩ := hc
  exact absurd (h e he) (by simpa using hlt)

theorem npBincount_error {x : List ℤ} {e : ℤ} (he : e ∈ x) (hneg : e < 0) :
    ∃ msg, npBincount x = .error msg := by
  unfold npBincount
  rw [if_pos]
  · exact ⟨_, rfl⟩
  · rw [List.any_eq_true]
    exact ⟨e, he, by simpa using hneg⟩

theorem count_maskFilter (x : List ℤ) (m : List ℚ) (v : ℤ) :
    (maskFilter x m).count v = (x.zip m).countP
      (fun e => decide (0 < e.2) && (e.1 == v)) := by
  unfold maskFilter
  generalize x.zip m = l
  induction l with
  | nil => simp
  | cons a t ih =>
    rw [List.filterMap_cons]
    by_cases hc : 0 < a.2
    · rw [if_pos hc, List.countP_cons, List.count_cons, ih]
      by_cases hv : a.1 = v
      · simp [hv, hc]
      · simp [hv, hc]
    · rw [if_neg hc, List.countP_cons, ih]
      simp [hc]

theorem donorCountSpec_eq_count {r : List (List ℤ)} {p : List (List ℚ)}
    (v : ℕ) : donorCountSpec r p v =
      (maskFilter r.flatten p.flatten).count ((v : ℕ) : ℤ) := by
  unfold donorCountSpec
  rw [count_maskFilter]

/-- Under the sentinel convention, every aligned `(receiver, proportion)`
pair of the flattened tables is either a valid positive edge or the `-1`
sentinel. -/
theorem flat_entry_classify {r : List (List ℤ)} {p : List (List ℚ)}
    (valid : ValidTables r p) {pr : ℤ × ℚ}
    (h : pr ∈ r.flatten.zip p.flatten) :
    (0 < pr.2 → 0 ≤ pr.1 ∧ pr.1 < (r.length : ℤ)) ∧
      (¬ 0 < pr.2 → pr.1 = -1) := by
  obtain ⟨i, j, hi, hj, h1, h2⟩ := mem_zip_flatten_elim
    (sameShape_length valid.shape) (sameShape_rows valid.shape) h
  constructor
  · intro hpos
    rw [← h1]
    exact valid.posInRange i hi j hj (by rw [h2]; exact hpos)
  · intro hneg
    rw [← h1]
    exact valid.inertSentinel i hi j hj (by rw [h2]; exact hneg)

/-- Entries selected by the positivity mask are valid node IDs. -/
theorem maskFilter_entry_range {r : List (List ℤ)} {p : List (List ℚ)}
    (valid : ValidTables r p) {e : ℤ}
    (h : e ∈ maskFilter r.flatten p.flatten) :
    0 ≤ e ∧ e < (r.length : ℤ) := by
  obtain ⟨pr, hpr, hpos, rfl⟩ := maskFilter_mem h
  exact (flat_entry_classify valid hpr).1 hpos

theorem flatten_ne_nil {r : List (List ℤ)} {p : List (List ℚ)}
    (valid : ValidTables r p) : r.flatten ≠ [] := by
  intro hc
  have hmem : (r.getD 0 []).getD 0 0 ∈ r.flatten := by
    rw [List.mem_flatten]
    refine ⟨r.getD 0 [], ?_, ?_⟩
    · rw [List.getD_eq_getElem _ _ valid.nrows]
      exact List.getElem_mem _
    · rw [List.getD_eq_getElem _ _ valid.ncols]
      exact List.getElem_mem _
  rw [hc] at hmem
  cases hmem

/-- Exactness of the donor-count stage under the sentinel convention: the
computation succeeds, yields an array of length `N`, and entry `v` is the
number of positive-proportion `(node, slot)` pairs whose receiver is `v`. -/
theorem nd_exact {r : List (List ℤ)} {p : List (List ℚ)}
    (valid : ValidTables r p) :
    ∃ nd, _make_number_of_donors_array_to_n r p = .ok nd ∧
      nd.length = r.length ∧
      ∀ v < r.length, nd.getD v 0 = ((donorCountSpec r p v : ℕ) : ℤ) := by
  obtain ⟨m, hm⟩ := npAmax_ok_of_ne (flatten_ne_nil valid)
  obtain ⟨hm_mem, hm_ub⟩ := npAmax_ok hm
  have hlenf : r.flatten.length = p.flatten.length :=
    flatten_length_eq (sameShape_length valid.shape) (sameShape_rows valid.shape)
  have hF_range : ∀ e ∈ maskFilter r.flatten p.flatten,
      0 ≤ e ∧ e < (r.length : ℤ) := fun e he => maskFilter_entry_range valid he
  have hbc := npBincount_ok (fun e he => (hF_range e he).1)
  set F := maskFilter r.flatten p.flatten with hFdef
  set mF := F.foldl max (-1) with hmFdef
  -- the computation in `do`-normal form
  have hrun : _make_number_of_donors_array_to_n r p =
      npSliceAssignPrefix (List.replicate r.length 0) (m + 1)
        ((List.range (mF + 1).toNat).map
          (fun k : ℕ => (F.count ((k : ℕ) : ℤ) : ℤ))) := by
    unfold _make_number_of_donors_array_to_n
    rw [← hFdef]
    simp only [hm, hbc, if_pos hlenf, except_bind_ok]
  by_cases hFnil : F = []
  · -- no positive entries at all: every entry is the sentinel `-1`
    have hall : ∀ e ∈ r.flatten, e = -1 := by
      intro e he
      have hzf : r.flatten = (r.flatten.zip p.flatten).map Prod.fst :=
        (List.map_fst_zip _ _ (le_of_eq hlenf)).symm
      rw [hzf, List.mem_map] at he
      obtain ⟨pr, hpr, rfl⟩ := he
      rcases lt_or_ge 0 pr.2 with hpos | hneg
      · exact absurd (maskFilter_mem_of hpr hpos) (by rw [← hFdef, hFnil]; simp)
      · exact (flat_entry_classify valid hpr).2 (not_lt.mpr hneg)
    have hm1 : m = -1 := hall m hm_mem
    have hmF1 : mF = -1 := by rw [hmFdef, hFnil]; rfl
    refine ⟨List.replicate r.length 0, ?_, by simp, ?_⟩
    · rw [hrun, hm1, hmF1]
      unfold npSliceAssignPrefix pySliceEnd
      norm_num
    · intro v hv
      have hcount : F.count ((v : ℕ) : ℤ) = 0 := by rw [hFnil]; rfl
      rw [donorCountSpec_eq_count, ← hFdef, hcount]
      simp
  · -- at least one positive entry
    have hmF_mem : mF ∈ F := by
      rcases foldl_max_cases F (-1) with hc | hc
      · exfalso
        obtain ⟨e, he⟩ := List.exists_mem_of_ne_nil F hFnil
        have h1 := (hF_range e he).1
        have h2 := foldl_max_le_of_mem he (-1)
        rw [← hmFdef] at h2
        omega
      · exact hc
    have hmF_range := hF_range mF hmF_mem
    -- the overall max equals the max over the positive entries
    have hmax_eq : m = mF := by
      apply le_antisymm
      · -- m is an entry: either sentinel -1 ≤ mF, or positive hence ≤ mF
        have hzf : r.flatten = (r.flatten.zip p.flatten).map Prod.fst :=
          (List.map_fst_zip _ _ (le_of_eq hlenf)).symm
        have hm_mem' := hm_mem
        rw [hzf, List.mem_map] at hm_mem'
        obtain ⟨pr, hpr, rfl⟩ := hm_mem'
        rcases lt_or_ge 0 pr.2 with hpos | hneg
        · exact foldl_max_le_of_mem (maskFilter_mem_of hpr hpos) (-1)
        · have := (flat_entry_classify valid hpr).2 (not_lt.mpr hneg)
          rw [this]
          omega
      · -- mF is among the entries, so ≤ m
        apply hm_ub
        obtain ⟨pr, hpr, _, hpr1⟩ := maskFilter_mem (x := r.flatten)
          (m := p.flatten) (by rw [← hFdef]; exact hmF_mem)
        rw [← hpr1]
        exact (List.of_mem_zip hpr).1
    have hE : pySliceEnd (List.replicate r.length (0 : ℤ)).length (m + 1) =
        (mF + 1).toNat := by
      unfold pySliceEnd
      rw [if_neg (by omega), List.length_replicate]
      have h1 : (m + 1).toNat ≤ r.length := by omega
      rw [hmax_eq]
      omega
    have hlen_bc : ((List.range (mF + 1).toNat).map
        (fun k : ℕ => (F.count ((k : ℕ) : ℤ) : ℤ))).length = (mF + 1).toNat := by
      simp
    refine ⟨(List.range (mF + 1).toNat).map
        (fun k : ℕ => (F.count ((k : ℕ) : ℤ) : ℤ)) ++
        (List.replicate r.length 0).drop (mF + 1).toNat, ?_, ?_, ?_⟩
    · rw [hrun]
      unfold npSliceAssignPrefix
      rw [hE, if_pos hlen_bc]
    · rw [List.length_append, hlen_bc, List.length_drop, List.length_replicate]
      omega
    · intro v hv
      rw [donorCountSpec_eq_count, ← hFdef]
      by_cases hvlt : v < (mF + 1).toNat
      · rw [List.getD_append _ _ _ _ (by rw [hlen_bc]; exact hvlt)]
        rw [List.getD_eq_getElem _ _ (by rw [hlen_bc]; exact hvlt)]
        simp
      · have hvz : mF < (v : ℤ) := by omega
        have hcount : F.count ((v : ℕ) : ℤ) = 0 := by
          rw [List.count_eq_zero]
          intro hc
          have := foldl_max_le_of_mem hc (-1)
          rw [← hmFdef] at this
          omega
        rw [hcount]
        have hvge : ((List.range (mF + 1).toNat).map
            (fun k : ℕ => (F.count ((k : ℕ) : ℤ) : ℤ))).length ≤ v := by
          rw [hlen_bc]; omega
        rw [List.getD_eq_getElem?_getD, List.getElem?_append_right hvge]
        rw [hlen_bc]
        rcases lt_or_ge (v - (mF + 1).toNat)
            ((List.replicate r.length (0 : ℤ)).drop (mF + 1).toNat).length with hlt | hge
        · rw [List.getElem?_eq_getElem hlt]
          have : ((List.replicate r.length (0 : ℤ)).drop (mF + 1).toNat) =
              List.replicate (r.length - (mF + 1).toNat) 0 := List.drop_replicate _ _ _
          simp [this]
        · rw [List.getElem?_eq_none hge]
          rfl

/-! ## Counting lemmas -/

theorem length_filterMap_eq_countP {α β : Type} (f : α → Option β)
    (l : List α) : (l.filterMap f).length = l.countP (fun a => (f a).isSome) := by
  induction l with
  | nil => rfl
  | cons a t ih =>
    rw [List.filterMap_cons, List.countP_cons]
    cases hf : f a with
    | none => simp [hf, ih]
    | some b => simp [hf, ih]

theorem countP_flatten {α : Type} (pred : α → Bool) (L : List (List α)) :
    L.flatten.countP pred = (L.map (fun l => l.countP pred)).sum := by
  induction L with
  | nil => rfl
  | cons a t ih => rw [List.flatten_cons, List.countP_append, List.map_cons,
      List.sum_cons, ih]

theorem countP_eq_sum_getD {α : Type} (pred : α → Bool) (l : List α) (d : α) :
    l.countP pred = ∑ i ∈ Finset.range l.length,
      (if pred (l.getD i d) then 1 else 0) := by
  induction l with
  | nil => rfl
  | cons a t ih =>
    rw [List.countP_cons, List.length_cons, Finset.sum_range_succ']
    simp only [List.getD_cons_succ, List.getD_cons_zero]
    rw [← ih]

theorem map_sum_eq_sum_getD {α β : Type} [AddCommMonoid β] (g : α → β)
    (l : List α) (d : α) :
    (l.map g).sum = ∑ i ∈ Finset.range l.length, g (l.getD i d) := by
  induction l with
  | nil => rfl
  | cons a t ih =>
    rw [List.map_cons, List.sum_cons, List.length_cons, Finset.sum_range_succ']
    simp only [List.getD_cons_succ, List.getD_cons_zero]
    rw [← ih, add_comm]

theorem range_getD {n i : ℕ} (h : i < n) (d : ℕ) :
    (List.range n).getD i d = i := by
  rw [List.getD_eq_getElem (List.range n) d (by simpa using h),
    List.getElem_range]

theorem countP_product {α β : Type} (pred : α × β → Bool) (l1 : List α)
    (l2 : List β) : (l1.product l2).countP pred =
      (l1.map (fun a => l2.countP (fun b => pred (a, b)))).sum := by
  induction l1 with
  | nil => rfl
  | cons a t ih =>
    have hcons : (a :: t).product l2 = l2.map (Prod.mk a) ++ t.product l2 := rfl
    rw [hcons, List.countP_append, List.map_cons, List.sum_cons, ih,
      List.countP_map]
    rfl

/-- Aligning the two counting schemes: counting positive pairs with a given
receiver over the flattened tables agrees with counting them over the
builder's `(slot, node)` iteration order. -/
theorem donorCount_eq_length {r : List (List ℤ)} {p : List (List ℚ)}
    (hlen : r.length = p.length)
    (hrows : ∀ i < r.length, (r.getD i []).length = (p.getD i []).length)
    (hrect : ∀ i < r.length, (r.getD i []).length = (r.getD 0 []).length)
    (t : ℕ) : donorCountSpec r p t = (donorsListSpec r p t).length := by
  -- both sides as a double sum of indicators over (node, slot)
  have ind_def : ∀ i j : ℕ,
      (if (decide (0 < (p.getD i []).getD j 0) &&
          ((r.getD i []).getD j 0 == (t : ℤ))) = true then 1 else 0) =
      (if (0 < (p.getD i []).getD j 0 ∧
          (r.getD i []).getD j 0 = (t : ℤ)) then 1 else 0) := by
    intro i j
    by_cases h1 : 0 < (p.getD i []).getD j 0
    · by_cases h2 : (r.getD i []).getD j 0 = (t : ℤ)
      · simp [h1, h2]
      · simp [h1, h2]
    · simp [h1]
  have lhs_eq : donorCountSpec r p t =
      ∑ i ∈ Finset.range r.length, ∑ j ∈ Finset.range (r.getD 0 []).length,
        (if (0 < (p.getD i []).getD j 0 ∧
          (r.getD i []).getD j 0 = (t : ℤ)) then 1 else 0) := by
    unfold donorCountSpec
    rw [zip_flatten_of_shape hlen hrows, countP_flatten, List.map_map,
      map_sum_eq_sum_getD _ _ (([] : List ℤ), ([] : List ℚ))]
    rw [List.length_zip, ← hlen, min_self]
    apply Finset.sum_congr rfl
    intro i hi
    rw [Finset.mem_range] at hi
    have hip : i < p.length := by omega
    have hzi : i < (r.zip p).length := by rw [List.length_zip]; omega
    have hgz : (r.zip p).getD i ([], []) = (r.getD i [], p.getD i []) := by
      rw [List.getD_eq_getElem (r.zip p) ([], []) hzi, List.getElem_zip,
        List.getD_eq_getElem r [] hi, List.getD_eq_getElem p [] hip]
    simp only [Function.comp_apply, hgz]
    rw [countP_eq_sum_getD _ _ ((0 : ℤ), (0 : ℚ))]
    rw [List.length_zip, hrows i hi, min_self, ← hrows i hi, hrect i hi]
    apply Finset.sum_congr rfl
    intro j hj
    rw [Finset.mem_range] at hj
    have hjr : j < (r.getD i []).length := by rw [hrect i hi]; exact hj
    have hjp : j < (p.getD i []).length := by rw [← hrows i hi]; exact hjr
    have hzj : j < ((r.getD i []).zip (p.getD i [])).length := by
      rw [List.length_zip]; omega
    have hgzj : ((r.getD i []).zip (p.getD i [])).getD j (0, 0) =
        ((r.getD i []).getD j 0, (p.getD i []).getD j 0) := by
      rw [List.getD_eq_getElem ((r.getD i []).zip (p.getD i [])) (0, 0) hzj,
        List.getElem_zip, List.getD_eq_getElem (r.getD i []) 0 hjr,
        List.getD_eq_getElem (p.getD i []) 0 hjp]
    rw [hgzj]
    exact ind_def i j
  have rhs_eq : (donorsListSpec r p t).length =
      ∑ j ∈ Finset.range (r.getD 0 []).length, ∑ i ∈ Finset.range r.length,
        (if (0 < (p.getD i []).getD j 0 ∧
          (r.getD i []).getD j 0 = (t : ℤ)) then 1 else 0) := by
    unfold donorsListSpec donorsListOn donorPairs
    rw [length_filterMap_eq_countP, countP_product,
      map_sum_eq_sum_getD _ _ 0, List.length_range]
    apply Finset.sum_congr rfl
    intro j hj
    rw [Finset.mem_range] at hj
    rw [range_getD hj 0]
    rw [countP_eq_sum_getD _ _ 0, List.length_range]
    apply Finset.sum_congr rfl
    intro i hi
    rw [Finset.mem_range] at hi
    rw [range_getD hi 0]
    by_cases hc : 0 < (p.getD i []).getD j 0 ∧
        (r.getD i []).getD j 0 = (t : ℤ)
    · simp [hc]
    · simp [hc]
  rw [lhs_eq, rhs_eq, Finset.sum_comm]

/-! ## The offset table -/

theorem delta_length (nd : List ℤ) :
    (_make_delta_array_to_n nd).length = nd.length + 1 := by
  unfold _make_delta_array_to_n
  simp

theorem delta_getD (nd : List ℤ) {k : ℕ} (h : k ≤ nd.length) :
    (_make_delta_array_to_n nd).getD k 0 = (nd.take k).sum := by
  unfold _make_delta_array_to_n
  have hk : k < nd.length + 1 := by omega
  rw [List.getD_eq_getElem _ _ (by simpa using hk)]
  rw [List.getElem_map, List.getElem_range]
  have : nd.sum = (nd.take k).sum + (nd.drop k).sum := by
    rw [← List.sum_append, List.take_append_drop]
  omega

theorem delta_last (nd : List ℤ) :
    (_make_delta_array_to_n nd).getD nd.length 0 = nd.sum := by
  rw [delta_getD nd (le_refl _), List.take_length]

theorem take_sum_nonneg {nd : List ℤ} (h : ∀ e ∈ nd, 0 ≤ e) (k : ℕ) :
    0 ≤ (nd.take k).sum := by
  apply List.sum_nonneg
  intro e he
  exact h e (List.mem_of_mem_take he)

theorem take_sum_mono {nd : List ℤ} (h : ∀ e ∈ nd, 0 ≤ e) {k k' : ℕ}
    (hk : k ≤ k') : (nd.take k).sum ≤ (nd.take k').sum := by
  have htk : (nd.take k').take k = nd.take k := by
    rw [List.take_take, min_eq_left hk]
  have hdrop : 0 ≤ ((nd.take k').drop k).sum := by
    apply List.sum_nonneg
    intro e he
    exact h e (List.mem_of_mem_take (List.mem_of_mem_drop he))
  have hsum : (nd.take k).sum + ((nd.take k').drop k).sum = (nd.take k').sum := by
    rw [← htk, ← List.sum_append, List.take_append_drop]
  omega

theorem take_sum_succ {nd : List ℤ} {k : ℕ} (h : k < nd.length) :
    (nd.take (k + 1)).sum = (nd.take k).sum + nd.getD k 0 := by
  rw [List.take_succ, List.sum_append, List.getElem?_eq_getElem h,
    List.getD_eq_getElem nd 0 h]
  simp

/-! ## Lemmas about list updates and donor prefixes -/

theorem getD_set_self {α : Type} {l : List α} {i : ℕ} (h : i < l.length)
    (x d : α) : (l.set i x).getD i d = x := by
  rw [List.getD_eq_getElem _ _ (by rw [List.length_set]; exact h)]
  exact List.getElem_set_self _

theorem getD_set_ne {α : Type} {l : List α} {i j : ℕ} (h : i ≠ j)
    (x d : α) : (l.set i x).getD j d = l.getD j d := by
  rcases lt_or_ge j l.length with hj | hj
  · rw [List.getD_eq_getElem _ _ (by rw [List.length_set]; exact hj),
      List.getD_eq_getElem _ _ hj]
    exact List.getElem_set_ne h _
  · rw [List.getD_eq_getElem?_getD, List.getD_eq_getElem?_getD,
      List.getElem?_eq_none (by rw [List.length_set]; exact hj),
      List.getElem?_eq_none hj]

theorem donorsListOn_append (r : List (List ℤ)) (p : List (List ℚ)) (t : ℕ)
    (l1 l2 : List (ℕ × ℕ)) : donorsListOn r p t (l1 ++ l2) =
      donorsListOn r p t l1 ++ donorsListOn r p t l2 := by
  unfold donorsListOn
  rw [List.filterMap_append]

theorem donorsListOn_singleton_pos (r : List (List ℤ)) (p : List (List ℚ))
    (t : ℕ) {vi : ℕ × ℕ} (h1 : 0 < (p.getD vi.2 []).getD vi.1 0)
    (h2 : (r.getD vi.2 []).getD vi.1 0 = (t : ℤ)) :
    donorsListOn r p t [vi] = [vi.2] := by
  unfold donorsListOn
  rw [List.filterMap_cons, if_pos ⟨h1, h2⟩]
  rfl

theorem donorsListOn_singleton_ne (r : List (List ℤ)) (p : List (List ℚ))
    (t : ℕ) {vi : ℕ × ℕ}
    (h : ¬(0 < (p.getD vi.2 []).getD vi.1 0 ∧
      (r.getD vi.2 []).getD vi.1 0 = (t : ℤ))) :
    donorsListOn r p t [vi] = [] := by
  unfold donorsListOn
  rw [List.filterMap_cons, if_neg h]
  rfl

/-- Summing shifted ranges with cumulative offsets yields one full range. -/
theorem sum_shifted_ranges (c : ℕ → ℕ) :
    ∀ n : ℕ, ∑ t ∈ Finset.range n,
        (Multiset.range (c t)).map
          (fun k => (∑ u ∈ Finset.range t, c u) + k) =
      Multiset.range (∑ u ∈ Finset.range n, c u) := by
  intro n
  induction n with
  | zero => simp
  | succ n ih =>
    rw [Finset.sum_range_succ, Finset.sum_range_succ (fun u => c u),
      Multiset.range_add, ih]

theorem getD_replicate {α : Type} (n : ℕ) (x d : α) (k : ℕ) :
    (List.replicate n x).getD k d = if k < n then x else d := by
  by_cases h : k < n
  · rw [if_pos h, List.getD_eq_getElem _ _ (by simpa using h)]
    exact List.getElem_replicate x _
  · rw [if_neg h, List.getD_eq_getElem?_getD,
      List.getElem?_eq_none (by simpa using h)]
    rfl

theorem take_sum_eq_range_sum (nd : List ℤ) :
    ∀ t ≤ nd.length, (nd.take t).sum = ∑ u ∈ Finset.range t, nd.getD u 0 := by
  intro t
  induction t with
  | zero => intro _; simp
  | succ t ih =>
    intro ht
    rw [take_sum_succ (by omega), Finset.sum_range_succ, ih (by omega)]

/-- Master invariant of the donor-list builder loop.  Starting from zero
cursors, a zero array of length `nt = sum nd` and an empty trace, the fold
over all `(slot, node)` pairs succeeds; at the end each cursor equals its
node's donor count, each receiver's CSR region holds exactly its donor
list, every trace entry is an in-region write, and the write positions
cover `0, ..., nt-1` exactly once. -/
theorem donorFold_inv {r : List (List ℤ)} {p : List (List ℚ)}
    (valid : ValidTables r p) {nd : List ℤ} (hndlen : nd.length = r.length)
    (hndcnt : ∀ v < r.length, nd.getD v 0 = ((donorCountSpec r p v : ℕ) : ℤ))
    {nt : ℕ} (hnt : nt = ∑ u ∈ Finset.range r.length, donorCountSpec r p u) :
    ∃ stf, List.foldlM (donorStep r p (_make_delta_array_to_n nd))
        ⟨List.replicate r.length 0, List.replicate nt 0, []⟩
        (donorPairs (r.getD 0 []).length r.length) = .ok stf ∧
      stf.w.length = r.length ∧ stf.D.length = nt ∧
      (∀ t < r.length, stf.w.getD t 0 = ((donorCountSpec r p t : ℕ) : ℤ)) ∧
      (∀ t < r.length, ∀ k < donorCountSpec r p t,
        stf.D.getD ((∑ u ∈ Finset.range t, donorCountSpec r p u) + k) 0 =
          (donorsListSpec r p t).getD k 0) ∧
      (∀ e ∈ stf.tr, ∃ t, t < r.length ∧ e.1 = ((t : ℕ) : ℤ) ∧
        ∃ k, k < donorCountSpec r p t ∧
          e.2 = (((∑ u ∈ Finset.range t, donorCountSpec r p u) + k : ℕ) : ℤ)) ∧
      ((stf.tr.map (fun e => e.2.toNat) : List ℕ) : Multiset ℕ) =
        Multiset.range nt := by
  have hlen := sameShape_length valid.shape
  have hrows := sameShape_rows valid.shape
  have hcntlen : ∀ t, donorCountSpec r p t =
      (donorsListOn r p t
        (donorPairs (r.getD 0 []).length r.length)).length :=
    fun t => donorCount_eq_length hlen hrows valid.rect t
  have hctn_mono : ∀ a b : ℕ, a ≤ b →
      (∑ u ∈ Finset.range a, donorCountSpec r p u) ≤
        ∑ u ∈ Finset.range b, donorCountSpec r p u := by
    intro a b hab
    exact Finset.sum_le_sum_of_subset (Finset.range_subset.mpr hab)
  have hctn_step : ∀ t : ℕ,
      (∑ u ∈ Finset.range (t + 1), donorCountSpec r p u) =
        (∑ u ∈ Finset.range t, donorCountSpec r p u) + donorCountSpec r p t :=
    fun t => Finset.sum_range_succ _ t
  have hdeltaget : ∀ t ≤ r.length, (_make_delta_array_to_n nd).getD t 0 =
      (((∑ u ∈ Finset.range t, donorCountSpec r p u) : ℕ) : ℤ) := by
    intro t ht
    rw [delta_getD nd (by omega), take_sum_eq_range_sum nd t (by omega),
      Nat.cast_sum]
    apply Finset.sum_congr rfl
    intro u hu
    rw [Finset.mem_range] at hu
    exact hndcnt u (by omega)
  have hdeltalen : (_make_delta_array_to_n nd).length = r.length + 1 := by
    rw [delta_length, hndlen]
  have hpre_le : ∀ (t : ℕ) (pre rest : List (ℕ × ℕ)),
      donorPairs (r.getD 0 []).length r.length = pre ++ rest →
      (donorsListOn r p t pre).length ≤ donorCountSpec r p t := by
    intro t pre rest hsplit
    rw [hcntlen t, hsplit, donorsListOn_append, List.length_append]
    omega
  obtain ⟨stf, hfold, hfin⟩ := foldlM_except_inv
    (donorStep r p (_make_delta_array_to_n nd))
    (fun st rest => ∃ pre,
      donorPairs (r.getD 0 []).length r.length = pre ++ rest ∧
      st.w.length = r.length ∧ st.D.length = nt ∧
      (∀ t < r.length, st.w.getD t 0 =
        (((donorsListOn r p t pre).length : ℕ) : ℤ)) ∧
      (∀ t < r.length, ∀ k < (donorsListOn r p t pre).length,
        st.D.getD ((∑ u ∈ Finset.range t, donorCountSpec r p u) + k) 0 =
          (donorsListOn r p t pre).getD k 0) ∧
      (∀ e ∈ st.tr, ∃ t, t < r.length ∧ e.1 = ((t : ℕ) : ℤ) ∧
        ∃ k, k < donorCountSpec r p t ∧
          e.2 = (((∑ u ∈ Finset.range t, donorCountSpec r p u) + k : ℕ) : ℤ)) ∧
      ((st.tr.map (fun e => e.2.toNat) : List ℕ) : Multiset ℕ) =
        ∑ t ∈ Finset.range r.length,
          (Multiset.range (donorsListOn r p t pre).length).map
            (fun k => (∑ u ∈ Finset.range t, donorCountSpec r p u) + k))
    (donorPairs (r.getD 0 []).length r.length)
    ⟨List.replicate r.length 0, List.replicate nt 0, []⟩
    (by
      refine ⟨[], rfl, by simp, by simp, ?_, ?_, ?_, ?_⟩
      · intro t ht
        simp [donorsListOn, getD_replicate, ht]
      · intro t ht k hk
        simp [donorsListOn] at hk
      · intro e he
        cases he
      · simp [donorsListOn])
    (by
      rintro st' ⟨v, i⟩ rest hsuf ⟨pre, hsplit, hwlen, hDlen, hw, hD, htrb, htrm⟩
      have hmem : ((v, i) : ℕ × ℕ) ∈
          donorPairs (r.getD 0 []).length r.length := by
        rw [hsplit]
        exact List.mem_append_right pre (List.mem_cons_self _ _)
      have hvi : v ∈ List.range (r.getD 0 []).length ∧
          i ∈ List.range r.length := by
        unfold donorPairs at hmem
        exact List.mem_product.mp hmem
      have hvQ : v < (r.getD 0 []).length := by
        have := hvi.1; rwa [List.mem_range] at this
      have hiN : i < r.length := by
        have := hvi.2; rwa [List.mem_range] at this
      have hvrow : v < (r.getD i []).length := by
        rw [valid.rect i hiN]; exact hvQ
      by_cases hpos : 0 < (p.getD i []).getD v 0
      · -- a real write
        obtain ⟨hge0, hltN⟩ := valid.posInRange i hiN v hvrow hpos
        obtain ⟨t, hri, htN⟩ : ∃ t : ℕ,
            (r.getD i []).getD v 0 = ((t : ℕ) : ℤ) ∧ t < r.length :=
          ⟨((r.getD i []).getD v 0).toNat, (Int.toNat_of_nonneg hge0).symm,
            by omega⟩
        obtain ⟨pc, hpcdef⟩ : ∃ pc, (donorsListOn r p t pre).length = pc :=
          ⟨_, rfl⟩
        have hsingle : donorsListOn r p t [(v, i)] = [i] :=
          donorsListOn_singleton_pos r p t hpos hri
        have happ : donorsListOn r p t (pre ++ [(v, i)]) =
            donorsListOn r p t pre ++ [i] := by
          rw [donorsListOn_append, hsingle]
        have happlen : (donorsListOn r p t (pre ++ [(v, i)])).length =
            pc + 1 := by
          rw [happ, List.length_append, hpcdef]
          rfl
        have hpc_lt : pc < donorCountSpec r p t := by
          have h1 := hcntlen t
          rw [hsplit, show ((v, i) :: rest) = [(v, i)] ++ rest from rfl,
            donorsListOn_append, donorsListOn_append, hsingle,
            List.length_append, List.length_append, hpcdef] at h1
          simp only [List.length_cons, List.length_nil] at h1
          omega
        have hflat_lt :
            (∑ u ∈ Finset.range t, donorCountSpec r p u) + pc < nt := by
          have h1 : (∑ u ∈ Finset.range t, donorCountSpec r p u) + pc <
              ∑ u ∈ Finset.range (t + 1), donorCountSpec r p u := by
            rw [hctn_step t]; omega
          have h2 := hctn_mono (t + 1) r.length (by omega)
          omega
        have hg1 : pyGetE (_make_delta_array_to_n nd) 0 ((t : ℕ) : ℤ) =
            .ok (((∑ u ∈ Finset.range t, donorCountSpec r p u) : ℕ) : ℤ) := by
          rw [pyGetE_ok (by positivity)
            (by rw [hdeltalen]; exact_mod_cast by omega)]
          rw [Int.toNat_natCast, hdeltaget t (by omega)]
        have hg2 : pyGetE st'.w 0 ((t : ℕ) : ℤ) = .ok ((pc : ℕ) : ℤ) := by
          rw [pyGetE_ok (by positivity) (by rw [hwlen]; exact_mod_cast htN)]
          rw [Int.toNat_natCast, hw t htN, hpcdef]
        have hs1 : pySetE st'.D
            ((((∑ u ∈ Finset.range t, donorCountSpec r p u) : ℕ) : ℤ) +
              ((pc : ℕ) : ℤ)) i =
            .ok (st'.D.set
              ((∑ u ∈ Finset.range t, donorCountSpec r p u) + pc) i) := by
          rw [show ((((∑ u ∈ Finset.range t, donorCountSpec r p u) : ℕ) : ℤ) +
              ((pc : ℕ) : ℤ)) =
              ((((∑ u ∈ Finset.range t, donorCountSpec r p u) + pc : ℕ)) : ℤ)
            by push_cast; ring]
          rw [pySetE_ok (by positivity)
            (by rw [hDlen]; exact_mod_cast hflat_lt)]
          rw [Int.toNat_natCast]
        have hs2 : pySetE st'.w ((t : ℕ) : ℤ) (((pc : ℕ) : ℤ) + 1) =
            .ok (st'.w.set t (((pc : ℕ) : ℤ) + 1)) := by
          rw [pySetE_ok (by positivity) (by rw [hwlen]; exact_mod_cast htN)]
          rw [Int.toNat_natCast]
        have hstepeq : donorStep r p (_make_delta_array_to_n nd) st' (v, i) =
            .ok ⟨st'.w.set t (((pc : ℕ) : ℤ) + 1),
              st'.D.set ((∑ u ∈ Finset.range t, donorCountSpec r p u) + pc) i,
              st'.tr ++ [(((t : ℕ) : ℤ),
                (((∑ u ∈ Finset.range t, donorCountSpec r p u) : ℕ) : ℤ) +
                  ((pc : ℕ) : ℤ))]⟩ := by
          unfold donorStep
          simp only [hri, if_pos hpos]
          rw [hg1, except_bind_ok, hg2, except_bind_ok, hs1, except_bind_ok,
            hs2, except_bind_ok]
        have hnone : ∀ t', t' ≠ t → donorsListOn r p t' [(v, i)] = [] := by
          intro t' hte
          apply donorsListOn_singleton_ne
          rintro ⟨_, hr⟩
          rw [hri] at hr
          have : t = t' := by exact_mod_cast hr
          exact hte this.symm
        refine ⟨_, hstepeq, pre ++ [(v, i)],
          by rw [hsplit, List.append_assoc]; rfl, ?_, ?_, ?_, ?_, ?_, ?_⟩
        · rw [List.length_set]; exact hwlen
        · rw [List.length_set]; exact hDlen
        · -- cursors
          intro t' ht'
          by_cases hte : t' = t
          · subst hte
            rw [happlen, getD_set_self (by rw [hwlen]; exact ht') _ _]
            push_cast
            ring
          · rw [donorsListOn_append, hnone t' hte, List.append_nil,
              getD_set_ne (fun hc => hte hc.symm) _ _]
            exact hw t' ht'
        · -- CSR region contents
          intro t' ht' k hk
          by_cases hte : t' = t
          · subst hte
            rw [happlen] at hk
            rw [happ]
            rcases lt_or_ge k pc with hkpc | hkpc
            · rw [getD_set_ne (by omega) _ _,
                List.getD_append _ _ _ _ (by omega)]
              exact hD t' ht' k (by omega)
            · have hkeq : k = pc := by omega
              subst hkeq
              rw [getD_set_self (by rw [hDlen]; exact hflat_lt) _ _,
                List.getD_append_right _ _ _ _ (by omega)]
              rw [show k - (donorsListOn r p t' pre).length = 0 by omega]
              rfl
          · rw [donorsListOn_append, hnone t' hte, List.append_nil] at hk ⊢
            have hk_lt : k < donorCountSpec r p t' :=
              lt_of_lt_of_le hk (hpre_le t' pre ((v, i) :: rest) hsplit)
            have hdisj : (∑ u ∈ Finset.range t, donorCountSpec r p u) + pc ≠
                (∑ u ∈ Finset.range t', donorCountSpec r p u) + k := by
              rcases Nat.lt_or_ge t' t with htt | htt
              · have h1 : (∑ u ∈ Finset.range t', donorCountSpec r p u) + k <
                    ∑ u ∈ Finset.range (t' + 1), donorCountSpec r p u := by
                  rw [hctn_step t']; omega
                have h2 := hctn_mono (t' + 1) t (by omega)
                omega
              · have htt' : t < t' := by omega
                have h1 : (∑ u ∈ Finset.range t, donorCountSpec r p u) + pc <
                    ∑ u ∈ Finset.range (t + 1), donorCountSpec r p u := by
                  rw [hctn_step t]; omega
                have h2 := hctn_mono (t + 1) t' (by omega)
                omega
            rw [getD_set_ne hdisj _ _]
            exact hD t' ht' k hk
        · -- trace bounds
          intro e he
          rw [List.mem_append] at he
          rcases he with he | he
          · exact htrb e he
          · rw [List.mem_singleton] at he
            subst he
            refine ⟨t, htN, rfl, pc, hpc_lt, ?_⟩
            push_cast
            ring
        · -- trace multiset
          rw [List.map_append]
          have hm2 : ([(((t : ℕ) : ℤ),
              (((∑ u ∈ Finset.range t, donorCountSpec r p u) : ℕ) : ℤ) +
                ((pc : ℕ) : ℤ))].map (fun e => e.2.toNat)) =
              [(∑ u ∈ Finset.range t, donorCountSpec r p u) + pc] := by
            simp only [List.map_cons, List.map_nil]
            rw [show ((((∑ u ∈ Finset.range t, donorCountSpec r p u) : ℕ) : ℤ) +
                ((pc : ℕ) : ℤ)) =
                ((((∑ u ∈ Finset.range t, donorCountSpec r p u) + pc : ℕ)) : ℤ)
              by push_cast; ring, Int.toNat_natCast]
          rw [hm2, ← Multiset.coe_add, htrm]
          have hsummand : ∀ t' ∈ Finset.range r.length,
              (Multiset.range
                  (donorsListOn r p t' (pre ++ [(v, i)])).length).map
                (fun k => (∑ u ∈ Finset.range t', donorCountSpec r p u) + k) =
              (Multiset.range (donorsListOn r p t' pre).length).map
                (fun k => (∑ u ∈ Finset.range t', donorCountSpec r p u) + k) +
              (if t' = t then
                ({(∑ u ∈ Finset.range t, donorCountSpec r p u) + pc} :
                  Multiset ℕ)
              else 0) := by
            intro t' _
            by_cases hte : t' = t
            · subst hte
              rw [happlen, hpcdef, if_pos rfl, Multiset.range_succ,
                Multiset.map_cons, add_comm
                  ((Multiset.range pc).map
                    (fun k =>
                      (∑ u ∈ Finset.range t', donorCountSpec r p u) + k)) _,
                Multiset.singleton_add]
            · rw [donorsListOn_append, hnone t' hte, List.append_nil,
                if_neg hte, add_zero]
          rw [Finset.sum_congr rfl hsummand, Finset.sum_add_distrib,
            Finset.sum_ite_eq' (Finset.range r.length) t _,
            if_pos (Finset.mem_range.mpr htN)]
          rfl
      · -- inert entry: no write
        have hstepeq : donorStep r p (_make_delta_array_to_n nd) st' (v, i) =
            .ok st' := by
          unfold donorStep
          simp only [if_neg hpos]
        have hnone : ∀ t', donorsListOn r p t' [(v, i)] = [] := by
          intro t'
          apply donorsListOn_singleton_ne
          rintro ⟨hp, _⟩
          exact hpos hp
        refine ⟨st', hstepeq, pre ++ [(v, i)],
          by rw [hsplit, List.append_assoc]; rfl, hwlen, hDlen, ?_, ?_, htrb,
          ?_⟩
        · intro t' ht'
          rw [donorsListOn_append, hnone t', List.append_nil]
          exact hw t' ht'
        · intro t' ht' k hk
          rw [donorsListOn_append, hnone t', List.append_nil] at hk ⊢
          exact hD t' ht' k hk
        · rw [htrm]
          apply Finset.sum_congr rfl
          intro t' _
          rw [donorsListOn_append, hnone t', List.append_nil])
  obtain ⟨pre, hsplit, hwlen, hDlen, hw, hD, htrb, htrm⟩ := hfin
  have hpre : pre = donorPairs (r.getD 0 []).length r.length := by
    rw [hsplit, List.append_nil]
  subst hpre
  refine ⟨stf, hfold, hwlen, hDlen, ?_, ?_, ?_, ?_⟩
  · intro t ht
    rw [hw t ht, ← hcntlen t]
  · intro t ht k hk
    rw [hcntlen t] at hk
    exact hD t ht k hk
  · exact htrb
  · rw [htrm, hnt]
    rw [show (∑ t ∈ Finset.range r.length,
        (Multiset.range (donorsListOn r p t
          (donorPairs (r.getD 0 []).length r.length)).length).map
          (fun k => (∑ u ∈ Finset.range t, donorCountSpec r p u) + k)) =
      ∑ t ∈ Finset.range r.length,
        (Multiset.range (donorCountSpec r p t)).map
          (fun k => (∑ u ∈ Finset.range t, donorCountSpec r p u) + k) by
      apply Finset.sum_congr rfl
      intro t _
      rw [← hcntlen t]]
    exact sum_shifted_ranges (donorCountSpec r p) r.length

theorem donorSlot_lt {r : List (List ℤ)} {p : List (List ℚ)} {u v : ℕ}
    (h : donorSlot r p u v) : u < r.length := by
  by_contra hc
  obtain ⟨j, hj1, _, _, _⟩ := h
  rw [List.getD_eq_getElem?_getD, List.getElem?_eq_none (by omega)] at hj1
  simp at hj1

/-- Membership in the specified donor list is exactly the positive-edge
relation (self-loops included). -/
theorem mem_donorsListSpec {r : List (List ℤ)} {p : List (List ℚ)}
    (valid : ValidTables r p) {u v : ℕ} :
    u ∈ donorsListSpec r p v ↔ donorSlot r p u v := by
  unfold donorsListSpec donorsListOn
  rw [List.mem_filterMap]
  constructor
  · rintro ⟨⟨j, i⟩, hmem, hsome⟩
    by_cases hc : 0 < (p.getD i []).getD j 0 ∧
        (r.getD i []).getD j 0 = ((v : ℕ) : ℤ)
    · rw [if_pos hc] at hsome
      obtain rfl : u = i := (Option.some.inj hsome).symm
      unfold donorPairs at hmem
      have hm := List.mem_product.mp hmem
      have hjQ : j < (r.getD 0 []).length := by
        have := hm.1; rwa [List.mem_range] at this
      have hiN : u < r.length := by
        have := hm.2; rwa [List.mem_range] at this
      refine ⟨j, ?_, ?_, hc.2, hc.1⟩
      · rw [valid.rect u hiN]; exact hjQ
      · rw [← sameShape_rows valid.shape u hiN, valid.rect u hiN]; exact hjQ
    · rw [if_neg hc] at hsome
      cases hsome
  · rintro ⟨j, hj1, hj2, hr, hp⟩
    have huN : u < r.length := donorSlot_lt ⟨j, hj1, hj2, hr, hp⟩
    refine ⟨(j, u), ?_, ?_⟩
    · unfold donorPairs
      refine List.mem_product.mpr ⟨?_, ?_⟩
      · rw [List.mem_range, ← valid.rect u huN]; exact hj1
      · rw [List.mem_range]; exact huN
    · rw [if_pos ⟨hp, hr⟩]

theorem donorsListSpec_entry_lt {r : List (List ℤ)} {p : List (List ℚ)}
    (valid : ValidTables r p) {u v : ℕ} (h : u ∈ donorsListSpec r p v) :
    u < r.length :=
  donorSlot_lt ((mem_donorsListSpec valid).mp h)

/-- Every flat position below the total edge count lies in exactly one
receiver's CSR region. -/
theorem pos_in_region (c : ℕ → ℕ) : ∀ (n pos : ℕ),
    pos < (∑ u ∈ Finset.range n, c u) → ∃ t, t < n ∧
      (∑ u ∈ Finset.range t, c u) ≤ pos ∧
      pos < ∑ u ∈ Finset.range (t + 1), c u := by
  intro n
  induction n with
  | zero => intro pos h; simp at h
  | succ n ih =>
    intro pos h
    rcases lt_or_ge pos (∑ u ∈ Finset.range n, c u) with hlt | hge
    · obtain ⟨t, ht, h1, h2⟩ := ih pos hlt
      exact ⟨t, by omega, h1, h2⟩
    · refine ⟨n, by omega, hge, ?_⟩
      rw [Finset.sum_range_succ] at h
      rw [Finset.sum_range_succ]
      omega

/-- The packaged donor-build correctness: under the input conventions the
builder succeeds; the cursors end at the donor counts, the CSR slices of
`D` hold exactly the per-receiver donor lists, every trace entry is an
in-region write, and the write positions are a permutation of all slots. -/
theorem donorBuild_spec {r : List (List ℤ)} {p : List (List ℚ)}
    (valid : ValidTables r p) {nd : List ℤ}
    (hnd : _make_number_of_donors_array_to_n r p = .ok nd) :
    ∃ stf, donorBuild r p (_make_delta_array_to_n nd) = .ok stf ∧
      stf.w.length = r.length ∧
      stf.D.length = (∑ u ∈ Finset.range r.length, donorCountSpec r p u) ∧
      (∀ t < r.length,
        pySliceList stf.D ((_make_delta_array_to_n nd).getD t 0)
          ((_make_delta_array_to_n nd).getD (t + 1) 0) =
          donorsListSpec r p t) ∧
      (∀ e ∈ stf.tr, ∃ t, t < r.length ∧ e.1 = ((t : ℕ) : ℤ) ∧
        (_make_delta_array_to_n nd).getD t 0 ≤ e.2 ∧
        e.2 < (_make_delta_array_to_n nd).getD (t + 1) 0 ∧
        (_make_delta_array_to_n nd).getD (t + 1) 0 ≤
          (_make_delta_array_to_n nd).getD r.length 0) ∧
      (stf.tr.map Prod.snd).Perm
        ((List.range stf.D.length).map (fun k : ℕ => ((k : ℕ) : ℤ))) ∧
      (∀ u ∈ stf.D, u < r.length) := by
  obtain ⟨nd', hnd', hndlen', hndcnt'⟩ := nd_exact valid
  rw [hnd] at hnd'
  obtain rfl : nd = nd' := Except.ok.inj hnd'
  have hndnn : ∀ e ∈ nd, 0 ≤ e := by
    intro e he
    obtain ⟨k, hk, hek⟩ := List.getElem_of_mem he
    have : nd.getD k 0 = e := by rw [List.getD_eq_getElem _ _ hk, hek]
    rw [← this, hndcnt' k (by omega)]
    positivity
  have hsum : nd.sum =
      (((∑ u ∈ Finset.range r.length, donorCountSpec r p u) : ℕ) : ℤ) := by
    have h1 : nd.sum = (nd.take nd.length).sum := by rw [List.take_length]
    rw [h1, take_sum_eq_range_sum nd nd.length (le_refl _), hndlen',
      Nat.cast_sum]
    apply Finset.sum_congr rfl
    intro u hu
    rw [Finset.mem_range] at hu
    exact hndcnt' u hu
  have hdeltalen : (_make_delta_array_to_n nd).length = r.length + 1 := by
    rw [delta_length, hndlen']
  have hlast : pyGetE (_make_delta_array_to_n nd) 0 (-1) = .ok nd.sum := by
    unfold pyGetE pyIdx
    rw [hdeltalen, if_neg (by omega), if_pos (by constructor <;> omega)]
    have hidx : (((r.length + 1 : ℕ) : ℤ) + (-1)).toNat = r.length := by omega
    rw [hidx]
    show Except.ok ((_make_delta_array_to_n nd).getD r.length 0) =
      Except.ok nd.sum
    rw [← hndlen', delta_last]
  have hctn_mono : ∀ a b : ℕ, a ≤ b →
      (∑ u ∈ Finset.range a, donorCountSpec r p u) ≤
        ∑ u ∈ Finset.range b, donorCountSpec r p u := by
    intro a b hab
    exact Finset.sum_le_sum_of_subset (Finset.range_subset.mpr hab)
  have hctn_step : ∀ t : ℕ,
      (∑ u ∈ Finset.range (t + 1), donorCountSpec r p u) =
        (∑ u ∈ Finset.range t, donorCountSpec r p u) + donorCountSpec r p t :=
    fun t => Finset.sum_range_succ _ t
  have hdeltaget : ∀ t ≤ r.length, (_make_delta_array_to_n nd).getD t 0 =
      (((∑ u ∈ Finset.range t, donorCountSpec r p u) : ℕ) : ℤ) := by
    intro t ht
    rw [delta_getD nd (by omega), take_sum_eq_range_sum nd t (by omega),
      Nat.cast_sum]
    apply Finset.sum_congr rfl
    intro u hu
    rw [Finset.mem_range] at hu
    exact hndcnt' u (by omega)
  obtain ⟨stf, hfold, hwlen, hDlen, hwv, hDv, htrb, htrm⟩ :=
    donorFold_inv valid hndlen' hndcnt' rfl
  have hbuild : donorBuild r p (_make_delta_array_to_n nd) = .ok stf := by
    unfold donorBuild
    rw [hlast, except_bind_ok, if_neg (by rw [hsum]; omega)]
    rw [show nd.sum.toNat =
      (∑ u ∈ Finset.range r.length, donorCountSpec r p u) by
      rw [hsum, Int.toNat_natCast]]
    exact hfold
  have hcntlen : ∀ t, donorCountSpec r p t = (donorsListSpec r p t).length :=
    fun t => donorCount_eq_length (sameShape_length valid.shape)
      (sameShape_rows valid.shape) valid.rect t
  have hslice : ∀ t < r.length,
      pySliceList stf.D ((_make_delta_array_to_n nd).getD t 0)
        ((_make_delta_array_to_n nd).getD (t + 1) 0) = donorsListSpec r p t := by
    intro t ht
    rw [hdeltaget t (by omega), hdeltaget (t + 1) (by omega)]
    unfold pySliceList pySliceEnd
    rw [if_neg (by omega), if_neg (by omega),
      Int.toNat_natCast, Int.toNat_natCast, hDlen]
    rw [min_eq_left (hctn_mono (t + 1) r.length (by omega)),
      min_eq_left (le_trans (hctn_mono t r.length (by omega)) (le_refl _))]
    apply List.ext_getElem
    · rw [List.length_drop, List.length_take]
      rw [min_eq_left (by rw [hDlen]; exact hctn_mono (t + 1) r.length (by omega))]
      have h3 := hctn_step t
      have h4 := hcntlen t
      omega
    · intro k h1 h2
      have hlt1 : k < donorCountSpec r p t := by
        rw [hcntlen t]
        exact h2
      have hpos_lt : (∑ u ∈ Finset.range t, donorCountSpec r p u) + k <
          stf.D.length := by
        rw [hDlen]
        have := hctn_mono (t + 1) r.length (by omega)
        rw [hctn_step t] at this
        omega
      rw [List.getElem_drop, List.getElem_take]
      have hD1 := hDv t ht k hlt1
      rw [List.getD_eq_getElem _ _ hpos_lt,
        List.getD_eq_getElem _ _ h2] at hD1
      exact hD1
  refine ⟨stf, hbuild, hwlen, hDlen, hslice, ?_, ?_, ?_⟩
  · -- trace bounds in offset-table form
    intro e he
    obtain ⟨t, ht, he1, k, hk, he2⟩ := htrb e he
    refine ⟨t, ht, he1, ?_, ?_, ?_⟩
    · rw [hdeltaget t (by omega), he2]
      exact_mod_cast by omega
    · rw [hdeltaget (t + 1) (by omega), he2, hctn_step t]
      exact_mod_cast by omega
    · rw [hdeltaget (t + 1) (by omega), hdeltaget r.length (le_refl _)]
      exact_mod_cast hctn_mono (t + 1) r.length (by omega)
  · -- the write positions are a permutation of all slots
    have hperm0 : (stf.tr.map (fun e => e.2.toNat)).Perm
        (List.range stf.D.length) := by
      rw [← Multiset.coe_eq_coe, htrm, hDlen]
      rfl
    have hmapeq : stf.tr.map Prod.snd =
        (stf.tr.map (fun e => e.2.toNat)).map (fun k : ℕ => ((k : ℕ) : ℤ)) := by
      rw [List.map_map]
      apply List.map_congr_left
      intro e he
      obtain ⟨t, _, _, k, _, he2⟩ := htrb e he
      simp only [Function.comp_apply]
      rw [he2, Int.toNat_natCast]
    rw [hmapeq]
    exact hperm0.map _
  · -- all donor entries are node IDs
    intro u hu
    obtain ⟨k, hk, hek⟩ := List.getElem_of_mem hu
    rw [hDlen] at hk
    obtain ⟨t, ht, h1, h2⟩ := pos_in_region (donorCountSpec r p) r.length k hk
    obtain ⟨k', rfl⟩ : ∃ k', k = (∑ u ∈ Finset.range t, donorCountSpec r p u) + k' :=
      ⟨k - (∑ u ∈ Finset.range t, donorCountSpec r p u), by omega⟩
    have hk' : k' < donorCountSpec r p t := by
      rw [Finset.sum_range_succ] at h2
      omega
    have hD1 := hDv t ht k' hk'
    rw [List.getD_eq_getElem _ _ (by rw [hDlen]; exact hk), hek] at hD1
    have hmem : u ∈ donorsListSpec r p t := by
      rw [hD1, List.getD_eq_getElem _ _ (by rw [← hcntlen t]; exact hk')]
      exact List.getElem_mem _
    exact donorsListSpec_entry_lt valid hmem

/-! ## Round-by-round description of the traversal loop -/

theorem Bseq_succ_eq_Useq_succ (delta : List ℤ) (D : List ℕ) (l : List ℕ)
    (k : ℕ) : Bseq delta D l (k + 1) = Useq delta D l (k + 1) := rfl

theorem stateAt_zero (delta : List ℤ) (D : List ℕ) (l : List ℕ) :
    stateAt delta D l 0 = stackInitState delta D l := rfl

theorem stateAt_succ (delta : List ℤ) (D : List ℕ) (l : List ℕ) (k : ℕ) :
    stackStep delta D (stateAt delta D l k) = stateAt delta D l (k + 1) := by
  unfold stackStep stateAt
  simp only [StackState.mk.injEq]
  refine ⟨by push_cast; ring, ?_, ?_, rfl⟩
  · show assignAt (vtSeq delta D l k)
        (Bseq delta D l k \ dnU delta D (Bseq delta D l k)) ((k : ℤ) + 1) =
      vtSeq delta D l (k + 1)
    have hc : ((k : ℤ) + 1) = (((k + 1 : ℕ)) : ℤ) := by push_cast; ring
    rw [hc]
    rfl
  · show (Bseq delta D l k \
        (Bseq delta D l k \ dnU delta D (Bseq delta D l k))) ∪
        dnU delta D (Bseq delta D l k) = Bseq delta D l (k + 1)
    have h1 : Bseq delta D l k \
        (Bseq delta D l k \ dnU delta D (Bseq delta D l k)) =
        Bseq delta D l k ∩ dnU delta D (Bseq delta D l k) :=
      sdiff_sdiff_right_self
    rw [h1]
    show Bseq delta D l k ∩ Bseq delta D l (k + 1) ∪ Bseq delta D l (k + 1) =
      Bseq delta D l (k + 1)
    rw [Finset.union_eq_right]
    exact Finset.inter_subset_right

theorem Useq_empty_succ {delta : List ℤ} {D : List ℕ} {l : List ℕ} {k : ℕ}
    (h : Useq delta D l k = ∅) : Useq delta D l (k + 1) = ∅ := by
  have hB : Bseq delta D l k = ∅ := by
    cases k with
    | zero =>
      show dnU delta D l.toFinset \ l.toFinset = ∅
      have h0 : dnU delta D l.toFinset = ∅ := h
      rw [h0, Finset.empty_sdiff]
    | succ k' => rw [Bseq_succ_eq_Useq_succ]; exact h
  show dnU delta D (Bseq delta D l k) = ∅
  rw [hB]
  simp [dnU]

theorem vtSeq_stable {delta : List ℤ} {D : List ℕ} {l : List ℕ} {k : ℕ}
    (h : Useq delta D l k = ∅) :
    ∀ m, k ≤ m → vtSeq delta D l m = vtSeq delta D l k := by
  have hB : Bseq delta D l k = ∅ := by
    cases k with
    | zero =>
      show dnU delta D l.toFinset \ l.toFinset = ∅
      have h0 : dnU delta D l.toFinset = ∅ := h
      rw [h0, Finset.empty_sdiff]
    | succ k' => rw [Bseq_succ_eq_Useq_succ]; exact h
  have hBall : ∀ j, k ≤ j → Bseq delta D l j = ∅ := by
    intro j hj
    induction j with
    | zero => rw [Nat.le_zero.mp hj] at hB; exact hB
    | succ j ih =>
      rcases Nat.lt_or_ge k (j + 1) with hk | hk
      · have hBj : Bseq delta D l j = ∅ := ih (by omega)
        show dnU delta D (Bseq delta D l j) = ∅
        rw [hBj]
        simp [dnU]
      · rw [show k = j + 1 by omega] at hB
        exact hB
  intro m hm
  induction m with
  | zero => rw [Nat.le_zero.mp hm]
  | succ m ih =>
    rcases Nat.lt_or_ge k (m + 1) with hk | hk
    · have h1 : vtSeq delta D l (m + 1) = vtSeq delta D l m := by
        show assignAt (vtSeq delta D l m)
          (Bseq delta D l m \ Bseq delta D l (m + 1)) (((m + 1 : ℕ)) : ℤ) =
            vtSeq delta D l m
        rw [hBall m (by omega), Finset.empty_sdiff, assignAt_empty]
      rw [h1]
      exact ih (by omega)
    · rw [show m + 1 = k by omega]

theorem stackRun_of_empty {delta : List ℤ} {D : List ℕ} {l : List ℕ} {j : ℕ}
    (hj : Useq delta D l j = ∅) :
    ∀ (fuel k : ℕ), k ≤ j → j - k ≤ fuel →
      stackRun delta D fuel (stateAt delta D l k) =
        some (vtSeq delta D l j) := by
  intro fuel
  induction fuel with
  | zero =>
    intro k hk hfuel
    have hkj : k = j := by omega
    subst hkj
    unfold stackRun
    rw [show (stateAt delta D l k).upstream = Useq delta D l k from rfl,
      show (stateAt delta D l k).visit_time = vtSeq delta D l k from rfl]
    rw [if_pos hj]
  | succ fuel ih =>
    intro k hk hfuel
    by_cases hUk : Useq delta D l k = ∅
    · unfold stackRun
      rw [show (stateAt delta D l k).upstream = Useq delta D l k from rfl,
        show (stateAt delta D l k).visit_time = vtSeq delta D l k from rfl]
      rw [if_pos hUk]
      rw [vtSeq_stable hUk j hk]
    · have hkj : k < j := by
        rcases Nat.lt_or_ge k j with h | h
        · exact h
        · exact absurd (by rw [show k = j by omega]; exact hj) hUk
      unfold stackRun
      rw [show (stateAt delta D l k).upstream = Useq delta D l k from rfl]
      rw [if_neg hUk, stateAt_succ]
      exact ih (k + 1) (by omega) (by omega)

theorem stackRun_some_elim {delta : List ℤ} {D : List ℕ} {l : List ℕ} :
    ∀ (fuel k : ℕ) (vt : List ℤ),
      stackRun delta D fuel (stateAt delta D l k) = some vt →
      ∃ j, k ≤ j ∧ j ≤ k + fuel ∧ Useq delta D l j = ∅ ∧
        vt = vtSeq delta D l j := by
  intro fuel
  induction fuel with
  | zero =>
    intro k vt h
    unfold stackRun at h
    rw [show (stateAt delta D l k).upstream = Useq delta D l k from rfl,
      show (stateAt delta D l k).visit_time = vtSeq delta D l k from rfl] at h
    by_cases hU : Useq delta D l k = ∅
    · rw [if_pos hU] at h
      exact ⟨k, le_refl _, by omega, hU, (Option.some.inj h).symm⟩
    · rw [if_neg hU] at h
      cases h
  | succ fuel ih =>
    intro k vt h
    unfold stackRun at h
    rw [show (stateAt delta D l k).upstream = Useq delta D l k from rfl,
      show (stateAt delta D l k).visit_time = vtSeq delta D l k from rfl] at h
    by_cases hU : Useq delta D l k = ∅
    · rw [if_pos hU] at h
      exact ⟨k, le_refl _, by omega, hU, (Option.some.inj h).symm⟩
    · rw [if_neg hU, stateAt_succ] at h
      obtain ⟨j, hj1, hj2, hj3, hj4⟩ := ih (k + 1) vt h
      exact ⟨j, by omega, by omega, hj3, hj4⟩

/-- `construct__stack` in terms of the round sequences. -/
theorem construct__stack_eq {delta : List ℤ} {D : List ℕ} {l : List ℕ}
    {fuel : ℕ} {s : List ℕ}
    (h : construct__stack delta D fuel l = some s) :
    ∃ j, j ≤ fuel ∧ Useq delta D l j = ∅ ∧ s = argsort (vtSeq delta D l j) := by
  unfold construct__stack at h
  cases hrun : stackRun delta D fuel (stackInitState delta D l) with
  | none => rw [hrun] at h; cases h
  | some vt =>
    rw [hrun] at h
    rw [← stateAt_zero] at hrun
    obtain ⟨j, _, hj2, hj3, hj4⟩ := stackRun_some_elim fuel 0 vt hrun
    refine ⟨j, by omega, hj3, ?_⟩
    rw [← Option.some.inj h, hj4]

theorem construct__stack_some {delta : List ℤ} {D : List ℕ} {l : List ℕ}
    {j : ℕ} (hj : Useq delta D l j = ∅) {fuel : ℕ} (hfuel : j ≤ fuel) :
    construct__stack delta D fuel l = some (argsort (vtSeq delta D l j)) := by
  unfold construct__stack
  rw [← stateAt_zero, stackRun_of_empty hj fuel 0 (by omega) (by omega)]
  rfl

theorem construct__stack_none {delta : List ℤ} {D : List ℕ} {l : List ℕ}
    (h : ∀ j, Useq delta D l j ≠ ∅) (fuel : ℕ) :
    construct__stack delta D fuel l = none := by
  unfold construct__stack
  cases hrun : stackRun delta D fuel (stackInitState delta D l) with
  | none => rfl
  | some vt =>
    rw [← stateAt_zero] at hrun
    obtain ⟨j, _, _, hj3, _⟩ := stackRun_some_elim fuel 0 vt hrun
    exact absurd hj3 (h j)

/-! ## Properties of the argsort model -/

instance argsortKey_total (a : List ℤ) : IsTotal ℕ (argsortKey a) := by
  constructor
  intro x y
  unfold argsortKey
  rcases lt_trichotomy (a.getD x 0) (a.getD y 0) with h | h | h
  · exact Or.inl (Or.inl h)
  · rcases le_total x y with hxy | hxy
    · exact Or.inl (Or.inr ⟨h, hxy⟩)
    · exact Or.inr (Or.inr ⟨h.symm, hxy⟩)
  · exact Or.inr (Or.inl h)

instance argsortKey_trans (a : List ℤ) : IsTrans ℕ (argsortKey a) := by
  constructor
  intro x y z hxy hyz
  unfold argsortKey at hxy hyz ⊢
  rcases hxy with h1 | ⟨h1, h1'⟩ <;> rcases hyz with h2 | ⟨h2, h2'⟩
  · exact Or.inl (lt_trans h1 h2)
  · exact Or.inl (h2 ▸ h1)
  · exact Or.inl (h1 ▸ h2)
  · exact Or.inr ⟨h1.trans h2, le_trans h1' h2'⟩

theorem argsort_perm (a : List ℤ) : (argsort a).Perm (List.range a.length) :=
  List.perm_insertionSort _ _

theorem argsort_length (a : List ℤ) : (argsort a).length = a.length := by
  rw [(argsort_perm a).length_eq, List.length_range]

theorem argsort_nodup (a : List ℤ) : (argsort a).Nodup :=
  ((argsort_perm a).nodup_iff).mpr (List.nodup_range _)

theorem mem_argsort {a : List ℤ} {x : ℕ} : x ∈ argsort a ↔ x < a.length := by
  rw [(argsort_perm a).mem_iff, List.mem_range]

theorem argsort_sorted (a : List ℤ) : List.Sorted (argsortKey a) (argsort a) :=
  List.sorted_insertionSort _ _

/-- Strictly smaller visit time means a strictly earlier position in the
output of `argsort`. -/
theorem argsort_indexOf_lt {a : List ℤ} {x y : ℕ} (hx : x < a.length)
    (hy : y < a.length) (hlt : a.getD x 0 < a.getD y 0) :
    (argsort a).indexOf x < (argsort a).indexOf y := by
  have hxs : x ∈ argsort a := mem_argsort.mpr hx
  have hys : y ∈ argsort a := mem_argsort.mpr hy
  have hix : (argsort a).indexOf x < (argsort a).length :=
    List.indexOf_lt_length.mpr hxs
  have hiy : (argsort a).indexOf y < (argsort a).length :=
    List.indexOf_lt_length.mpr hys
  by_contra hc
  push_neg at hc
  have hgx : (argsort a)[(argsort a).indexOf x] = x := List.getElem_indexOf hix
  have hgy : (argsort a)[(argsort a).indexOf y] = y := List.getElem_indexOf hiy
  have hne : (argsort a).indexOf y ≠ (argsort a).indexOf x := by
    intro he
    have hxy : y = x := (List.indexOf_inj hys hxs).mp he
    rw [hxy] at hlt
    exact lt_irrefl _ hlt
  have hltidx : (argsort a).indexOf y < (argsort a).indexOf x := by omega
  have hres := List.Sorted.rel_get_of_lt (argsort_sorted a)
    (a := ⟨(argsort a).indexOf y, hiy⟩) (b := ⟨(argsort a).indexOf x, hix⟩)
    hltidx
  rw [List.get_eq_getElem, List.get_eq_getElem] at hres
  simp only [hgx, hgy] at hres
  unfold argsortKey at hres
  rcases hres with h | ⟨h, _⟩
  · exact absurd hlt (not_lt.mpr (le_of_lt h))
  · rw [h] at hlt
    exact lt_irrefl _ hlt

/-- The first element of `argsort` has a minimal value. -/
theorem argsort_head_min {a : List ℤ} {y : ℕ} (hy : y < a.length) :
    a.getD ((argsort a).getD 0 0) 0 ≤ a.getD y 0 := by
  have h0 : 0 < (argsort a).length := by rw [argsort_length]; omega
  have hys : y ∈ argsort a := mem_argsort.mpr hy
  have hiy : (argsort a).indexOf y < (argsort a).length :=
    List.indexOf_lt_length.mpr hys
  have hgy : (argsort a)[(argsort a).indexOf y] = y := List.getElem_indexOf hiy
  rcases Nat.eq_zero_or_pos ((argsort a).indexOf y) with hz | hp
  · have hee : (argsort a)[0] = (argsort a)[(argsort a).indexOf y] := by
      congr 1
      omega
    rw [List.getD_eq_getElem _ _ h0, hee, hgy]
  · have hres := List.Sorted.rel_get_of_lt (argsort_sorted a)
      (a := ⟨0, h0⟩) (b := ⟨(argsort a).indexOf y, hiy⟩) hp
    rw [List.get_eq_getElem, List.get_eq_getElem] at hres
    simp only [hgy] at hres
    rw [List.getD_eq_getElem _ _ h0]
    unfold argsortKey at hres
    rcases hres with h | ⟨h, _⟩
    · exact le_of_lt h
    · exact le_of_eq h

/-! ## Graph-level facts about the traversal -/

theorem mem_pySliceList {α : Type} {l : List α} {a b : ℤ} {x : α}
    (h : x ∈ pySliceList l a b) : x ∈ l := by
  unfold pySliceList at h
  exact List.mem_of_mem_take (List.mem_of_mem_drop h)

theorem mem_dnOf_D {delta : List ℤ} {D : List ℕ} {u v : ℕ}
    (h : u ∈ dnOf delta D v) : u ∈ D := by
  unfold dnOf at h
  rw [List.mem_toFinset] at h
  exact mem_pySliceList h

theorem mem_baselevelList {r : List (List ℤ)} {i : ℕ} :
    i ∈ baselevelList r ↔ isBase r i := by
  unfold baselevelList isBase
  rw [List.mem_filter, List.mem_range]
  constructor
  · rintro ⟨h1, h2⟩
    exact ⟨h1, eq_of_beq h2⟩
  · rintro ⟨h1, h2⟩
    exact ⟨h1, beq_iff_eq.mpr h2⟩

theorem mem_dnOf_iff {r : List (List ℤ)} {p : List (List ℚ)}
    (valid : ValidTables r p) {delta : List ℤ} {D : List ℕ}
    (hdn : ∀ v < r.length, dnOf delta D v = (donorsListSpec r p v).toFinset)
    {u v : ℕ} (hv : v < r.length) :
    u ∈ dnOf delta D v ↔ donorSlot r p u v := by
  rw [hdn v hv, List.mem_toFinset]
  exact mem_donorsListSpec valid

theorem stack_B_lt {r : List (List ℤ)} {delta : List ℤ} {D : List ℕ}
    (hDb : ∀ u ∈ D, u < r.length) :
    ∀ k x, x ∈ Bseq delta D (baselevelList r) k → x < r.length := by
  intro k
  cases k with
  | zero =>
    intro x hx
    have hx' : x ∈ dnU delta D (baselevelList r).toFinset :=
      (Finset.mem_sdiff.mp hx).1
    obtain ⟨b, _, hxb⟩ := Finset.mem_biUnion.mp hx'
    exact hDb x (mem_dnOf_D hxb)
  | succ k =>
    intro x hx
    obtain ⟨b, _, hxb⟩ := Finset.mem_biUnion.mp hx
    exact hDb x (mem_dnOf_D hxb)

theorem stack_B_baseFree {r : List (List ℤ)} {p : List (List ℚ)}
    (sv : StackValid r p) {delta : List ℤ} {D : List ℕ}
    (hdn : ∀ v < r.length, dnOf delta D v = (donorsListSpec r p v).toFinset)
    (hDb : ∀ u ∈ D, u < r.length) :
    ∀ k b, isBase r b → b ∉ Bseq delta D (baselevelList r) k := by
  intro k
  induction k with
  | zero =>
    intro b hb hmem
    have h2 := (Finset.mem_sdiff.mp hmem).2
    exact h2 (List.mem_toFinset.mpr (mem_baselevelList.mpr hb))
  | succ k ih =>
    intro b hb hmem
    obtain ⟨v, hv, hbv⟩ := Finset.mem_biUnion.mp hmem
    have hvN : v < r.length := stack_B_lt hDb k v hv
    have hslot : donorSlot r p b v :=
      (mem_dnOf_iff sv.toValidTables hdn hvN).mp hbv
    obtain ⟨j, hj1, hj2, hr, hp⟩ := hslot
    have hbj := sv.baseOnlySelf b hb j hj1 hp
    rw [hbj] at hr
    have hvb : v = b := by exact_mod_cast hr.symm
    rw [← hvb] at hb
    exact ih v hb hv

theorem stack_B_step {r : List (List ℤ)} {p : List (List ℚ)}
    (valid : ValidTables r p) {delta : List ℤ} {D : List ℕ}
    (hdn : ∀ v < r.length, dnOf delta D v = (donorsListSpec r p v).toFinset)
    (hDb : ∀ u ∈ D, u < r.length) {u v : ℕ} (huv : donorSlot r p u v)
    {k : ℕ} (hv : v ∈ Bseq delta D (baselevelList r) k) :
    u ∈ Bseq delta D (baselevelList r) (k + 1) := by
  have hvN : v < r.length := stack_B_lt hDb k v hv
  show u ∈ dnU delta D (Bseq delta D (baselevelList r) k)
  exact Finset.mem_biUnion.mpr
    ⟨v, hv, (mem_dnOf_iff valid hdn hvN).mpr huv⟩

/-- Every element of the round-`k` frontier starts a `k`-edge chain of
strict positive-proportion edges through the earlier frontiers. -/
theorem stack_chain {r : List (List ℤ)} {p : List (List ℚ)}
    (sv : StackValid r p) {delta : List ℤ} {D : List ℕ}
    (hdn : ∀ v < r.length, dnOf delta D v = (donorsListSpec r p v).toFinset)
    (hDb : ∀ u ∈ D, u < r.length) :
    ∀ k x, x ∈ Bseq delta D (baselevelList r) k →
      ∃ c : ℕ → ℕ, c 0 = x ∧ (∀ j < k, edgeTo r p (c j) (c (j + 1))) ∧
        (∀ j ≤ k, c j ∈ Bseq delta D (baselevelList r) (k - j)) := by
  intro k
  induction k with
  | zero =>
    intro x hx
    exact ⟨fun _ => x, rfl, fun j hj => absurd hj (by omega),
      fun j hj => by rw [Nat.le_zero.mp hj]; exact hx⟩
  | succ k ih =>
    intro x hx
    obtain ⟨v, hv, hxv⟩ := Finset.mem_biUnion.mp hx
    have hvN : v < r.length := stack_B_lt hDb k v hv
    have hslot : donorSlot r p x v :=
      (mem_dnOf_iff sv.toValidTables hdn hvN).mp hxv
    have hxv_ne : x ≠ v := by
      intro he
      subst he
      have hbase := sv.selfOnlyBase x hslot
      exact stack_B_baseFree sv hdn hDb k x hbase hv
    obtain ⟨c', hc0, hce, hcm⟩ := ih v hv
    refine ⟨fun j => if j = 0 then x else c' (j - 1), by simp, ?_, ?_⟩
    · intro j hj
      rcases Nat.eq_zero_or_pos j with hj0 | hjp
      · subst hj0
        simp only [if_pos rfl, if_neg (by omega : ¬ (0 + 1 = 0))]
        rw [show 0 + 1 - 1 = 0 from rfl, hc0]
        exact ⟨hxv_ne, hslot⟩
      · simp only [if_neg (by omega : ¬ (j = 0)),
          if_neg (by omega : ¬ (j + 1 = 0))]
        rw [show j + 1 - 1 = (j - 1) + 1 by omega]
        exact hce (j - 1) (by omega)
    · intro j hj
      rcases Nat.eq_zero_or_pos j with hj0 | hjp
      · subst hj0
        simpa using hx
      · simp only [if_neg (by omega : ¬ (j = 0))]
        rw [show k + 1 - j = k - (j - 1) by omega]
        exact hcm (j - 1) (by omega)

theorem chain_transGen {r : List (List ℤ)} {p : List (List ℚ)} {c : ℕ → ℕ}
    {k : ℕ} (hce : ∀ j < k, edgeTo r p (c j) (c (j + 1))) :
    ∀ a b, a < b → b ≤ k → Relation.TransGen (edgeTo r p) (c a) (c b) := by
  intro a b
  induction b with
  | zero => intro h _; omega
  | succ b ih =>
    intro hab hbk
    rcases Nat.lt_or_ge a b with hab' | hab'
    · exact Relation.TransGen.tail (ih hab' (by omega)) (hce b (by omega))
    · have hab'' : a = b := by omega
      subst hab''
      exact Relation.TransGen.single (hce a (by omega))

/-- Under acyclicity the frontier is empty after `N` rounds. -/
theorem stack_B_terminal {r : List (List ℤ)} {p : List (List ℚ)}
    (sv : StackValid r p) {delta : List ℤ} {D : List ℕ}
    (hdn : ∀ v < r.length, dnOf delta D v = (donorsListSpec r p v).toFinset)
    (hDb : ∀ u ∈ D, u < r.length) :
    Bseq delta D (baselevelList r) r.length = ∅ := by
  by_contra hne
  obtain ⟨x, hx⟩ := Finset.nonempty_iff_ne_empty.mpr hne
  obtain ⟨c, _, hce, hcm⟩ := stack_chain sv hdn hDb r.length x hx
  have hcb : ∀ j : Fin (r.length + 1), c j < r.length := by
    intro ⟨j, hj⟩
    exact stack_B_lt hDb _ _ (hcm j (by omega))
  have hcard : Fintype.card (Fin r.length) < Fintype.card (Fin (r.length + 1)) := by
    simp
  obtain ⟨⟨j1, hj1⟩, ⟨j2, hj2⟩, hne12, heq⟩ :=
    Fintype.exists_ne_map_eq_of_card_lt
      (fun j : Fin (r.length + 1) => (⟨c j, hcb j⟩ : Fin r.length)) hcard
  have heq' : c j1 = c j2 := by
    have := congrArg Fin.val heq
    simpa using this
  have hne' : j1 ≠ j2 := by
    intro he
    exact hne12 (by simp [he])
  rcases Nat.lt_or_ge j1 j2 with hlt | hge
  · have := chain_transGen hce j1 j2 hlt (by omega)
    rw [heq'] at this
    exact sv.acyclic _ this
  · have hlt : j2 < j1 := by omega
    have := chain_transGen hce j2 j1 hlt (by omega)
    rw [heq'] at this
    exact sv.acyclic _ this

theorem Bseq_empty_mono {delta : List ℤ} {D : List ℕ} {l : List ℕ} {j : ℕ}
    (h : Bseq delta D l j = ∅) : ∀ i, j ≤ i → Bseq delta D l i = ∅ := by
  intro i hi
  induction i with
  | zero => rw [Nat.le_zero.mp hi] at h; exact h
  | succ i ih =>
    rcases Nat.lt_or_ge j (i + 1) with hj | hj
    · have hBi := ih (by omega)
      show dnU delta D (Bseq delta D l i) = ∅
      rw [hBi]
      simp [dnU]
    · rw [show j = i + 1 by omega] at h
      exact h

theorem stack_terminates {r : List (List ℤ)} {p : List (List ℚ)}
    (sv : StackValid r p) {delta : List ℤ} {D : List ℕ}
    (hdn : ∀ v < r.length, dnOf delta D v = (donorsListSpec r p v).toFinset)
    (hDb : ∀ u ∈ D, u < r.length) :
    Useq delta D (baselevelList r) (r.length + 1) = ∅ := by
  rw [Bseq_succ_eq_Useq_succ delta D (baselevelList r) r.length |>.symm]
  exact Bseq_empty_mono (stack_B_terminal sv hdn hDb) (r.length + 1)
    (by omega)

/-! ## Values held by `visit_time` -/

theorem vtSeq_length (delta : List ℤ) (D : List ℕ) (l : List ℕ) :
    ∀ k, (vtSeq delta D l k).length = delta.length - 1 := by
  intro k
  induction k with
  | zero =>
    show (assignAt (List.replicate (delta.length - 1) (-1))
      l.toFinset 0).length = delta.length - 1
    rw [assignAt_length, List.length_replicate]
  | succ k ih =>
    show (assignAt (vtSeq delta D l k) _ _).length = delta.length - 1
    rw [assignAt_length, ih]

theorem vt_of_base {delta : List ℤ} {D : List ℕ} {l : List ℕ} {b : ℕ}
    (hb : b ∈ l.toFinset) (hblen : b < delta.length - 1)
    (hnB : ∀ k, b ∉ Bseq delta D l k) :
    ∀ k, (vtSeq delta D l k).getD b 0 = 0 := by
  intro k
  induction k with
  | zero =>
    show (assignAt (List.replicate (delta.length - 1) (-1))
      l.toFinset 0).getD b 0 = 0
    rw [assignAt_getD _ _ _ (by rw [List.length_replicate]; exact hblen)]
    rw [if_pos hb]
  | succ k ih =>
    show (assignAt (vtSeq delta D l k)
      (Bseq delta D l k \ Bseq delta D l (k + 1)) (((k + 1 : ℕ)) : ℤ)).getD b 0
      = 0
    rw [assignAt_getD _ _ _ (by rw [vtSeq_length]; exact hblen)]
    rw [if_neg (fun hmem => hnB k (Finset.mem_sdiff.mp hmem).1)]
    exact ih

theorem vt_of_unvisited {delta : List ℤ} {D : List ℕ} {l : List ℕ} {x : ℕ}
    (hx : x ∉ l.toFinset) (hxlen : x < delta.length - 1)
    (hnB : ∀ k, x ∉ Bseq delta D l k) :
    ∀ k, (vtSeq delta D l k).getD x 0 = -1 := by
  intro k
  induction k with
  | zero =>
    show (assignAt (List.replicate (delta.length - 1) (-1))
      l.toFinset 0).getD x 0 = -1
    rw [assignAt_getD _ _ _ (by rw [List.length_replicate]; exact hxlen)]
    rw [if_neg hx, List.getD_eq_getElem _ _ (by rw [List.length_replicate]; exact hxlen)]
    rw [List.getElem_replicate]
  | succ k ih =>
    show (assignAt (vtSeq delta D l k)
      (Bseq delta D l k \ Bseq delta D l (k + 1)) (((k + 1 : ℕ)) : ℤ)).getD x 0
      = -1
    rw [assignAt_getD _ _ _ (by rw [vtSeq_length]; exact hxlen)]
    rw [if_neg (fun hmem => hnB k (Finset.mem_sdiff.mp hmem).1)]
    exact ih

theorem vt_of_last {delta : List ℤ} {D : List ℕ} {l : List ℕ} {x m : ℕ}
    (hxlen : x < delta.length - 1) (hm : x ∈ Bseq delta D l m)
    (hlast : ∀ i, m < i → x ∉ Bseq delta D l i) :
    ∀ k, m + 1 ≤ k → (vtSeq delta D l k).getD x 0 = (m : ℤ) + 1 := by
  intro k
  induction k with
  | zero => intro h; omega
  | succ k ih =>
    intro hk
    show (assignAt (vtSeq delta D l k)
      (Bseq delta D l k \ Bseq delta D l (k + 1)) (((k + 1 : ℕ)) : ℤ)).getD x 0
      = (m : ℤ) + 1
    rw [assignAt_getD _ _ _ (by rw [vtSeq_length]; exact hxlen)]
    rcases Nat.lt_or_ge m k with hmk | hmk
    · rw [if_neg (fun hmem => hlast k hmk (Finset.mem_sdiff.mp hmem).1)]
      exact ih (by omega)
    · have hkm : k = m := by omega
      subst hkm
      rw [if_pos (Finset.mem_sdiff.mpr ⟨hm, hlast (k + 1) (by omega)⟩)]
      push_cast
      ring

theorem round_lt_length {r : List (List ℤ)} {p : List (List ℚ)}
    (sv : StackValid r p) {delta : List ℤ} {D : List ℕ}
    (hdn : ∀ v < r.length, dnOf delta D v = (donorsListSpec r p v).toFinset)
    (hDb : ∀ u ∈ D, u < r.length) {x i : ℕ}
    (hx : x ∈ Bseq delta D (baselevelList r) i) : i < r.length := by
  by_contra hge
  rw [Bseq_empty_mono (stack_B_terminal sv hdn hDb) i (by omega)] at hx
  exact Finset.not_mem_empty x hx

theorem maxRound_exists {r : List (List ℤ)} {p : List (List ℚ)}
    (sv : StackValid r p) {delta : List ℤ} {D : List ℕ}
    (hdn : ∀ v < r.length, dnOf delta D v = (donorsListSpec r p v).toFinset)
    (hDb : ∀ u ∈ D, u < r.length) {x i : ℕ}
    (hx : x ∈ Bseq delta D (baselevelList r) i) :
    ∃ m, x ∈ Bseq delta D (baselevelList r) m ∧
      ∀ j, m < j → x ∉ Bseq delta D (baselevelList r) j := by
  have hS : ((Finset.range r.length).filter
      (fun k => x ∈ Bseq delta D (baselevelList r) k)).Nonempty := by
    refine ⟨i, Finset.mem_filter.mpr ⟨Finset.mem_range.mpr ?_, hx⟩⟩
    exact round_lt_length sv hdn hDb hx
  refine ⟨((Finset.range r.length).filter
      (fun k => x ∈ Bseq delta D (baselevelList r) k)).max' hS,
    (Finset.mem_filter.mp (Finset.max'_mem _ hS)).2, ?_⟩
  intro j hj hxj
  have hjmem : j ∈ (Finset.range r.length).filter
      (fun k => x ∈ Bseq delta D (baselevelList r) k) := by
    refine Finset.mem_filter.mpr ⟨?_, ?_⟩
    · exact Finset.mem_range.mpr (round_lt_length sv hdn hDb hxj)
    · exact hxj
  have hjS := Finset.le_max' _ j hjmem
  omega

/-- A chain edge out of a reached node: the conclusions used to push
reachability and strict visit-time decrease one edge upstream. -/
theorem vt_edge_lt {r : List (List ℤ)} {p : List (List ℚ)}
    (sv : StackValid r p) {delta : List ℤ} {D : List ℕ}
    (hdn : ∀ v < r.length, dnOf delta D v = (donorsListSpec r p v).toFinset)
    (hDb : ∀ u ∈ D, u < r.length) (hdlen : delta.length = r.length + 1)
    {u v : ℕ} (he : edgeTo r p u v)
    (hv : v ∈ (baselevelList r).toFinset ∨
      ∃ i, v ∈ Bseq delta D (baselevelList r) i) {T : ℕ}
    (hT : r.length ≤ T) :
    (∃ i, u ∈ Bseq delta D (baselevelList r) i) ∧
      (vtSeq delta D (baselevelList r) T).getD v 0 <
        (vtSeq delta D (baselevelList r) T).getD u 0 := by
  obtain ⟨hne, hslot⟩ := he
  have huN : u < r.length := by
    obtain ⟨j, hj1, _, _, _⟩ := hslot
    by_contra hge
    rw [List.getD_eq_default r [] (by omega : r.length ≤ u)] at hj1
    simp at hj1
  have hvN : v < r.length := by
    obtain ⟨j, hj1, hj2, hr, hp⟩ := hslot
    have := (sv.posInRange u huN j hj1 hp).2
    rw [hr] at this
    exact_mod_cast this
  have hunotbase : ¬ isBase r u := by
    intro hub
    obtain ⟨j, hj1, _, hr, hp⟩ := hslot
    rw [sv.baseOnlySelf u hub j hj1 hp] at hr
    exact hne (by exact_mod_cast hr)
  rcases hv with hvb | ⟨i, hvB⟩
  · have hvbase : isBase r v :=
      mem_baselevelList.mp (List.mem_toFinset.mp hvb)
    have hu0 : u ∈ Bseq delta D (baselevelList r) 0 := by
      refine Finset.mem_sdiff.mpr ⟨?_, ?_⟩
      · exact Finset.mem_biUnion.mpr
          ⟨v, hvb, (mem_dnOf_iff sv.toValidTables hdn hvN).mpr hslot⟩
      · intro hmem
        exact hunotbase (mem_baselevelList.mp (List.mem_toFinset.mp hmem))
    obtain ⟨m, hm, hlastm⟩ := maxRound_exists sv hdn hDb hu0
    have hmN : m < r.length := round_lt_length sv hdn hDb hm
    have hvt_v : (vtSeq delta D (baselevelList r) T).getD v 0 = 0 :=
      vt_of_base hvb (by omega)
        (fun k => stack_B_baseFree sv hdn hDb k v hvbase) T
    have hvt_u : (vtSeq delta D (baselevelList r) T).getD u 0 = (m : ℤ) + 1 :=
      vt_of_last (by omega) hm hlastm T (by omega)
    refine ⟨⟨0, hu0⟩, ?_⟩
    rw [hvt_v, hvt_u]
    positivity
  · obtain ⟨mv, hmv, hlastv⟩ := maxRound_exists sv hdn hDb hvB
    have huB : u ∈ Bseq delta D (baselevelList r) (mv + 1) :=
      stack_B_step sv.toValidTables hdn hDb hslot hmv
    obtain ⟨mu, hmu, hlastu⟩ := maxRound_exists sv hdn hDb huB
    have hmvN : mv < r.length := round_lt_length sv hdn hDb hmv
    have hmuN : mu < r.length := round_lt_length sv hdn hDb hmu
    have hle : mv + 1 ≤ mu := by
      by_contra hgt
      exact hlastu (mv + 1) (by omega) huB
    have hvt_v : (vtSeq delta D (baselevelList r) T).getD v 0 = (mv : ℤ) + 1 :=
      vt_of_last (by omega) hmv hlastv T (by omega)
    have hvt_u : (vtSeq delta D (baselevelList r) T).getD u 0 = (mu : ℤ) + 1 :=
      vt_of_last (by omega) hmu hlastu T (by omega)
    refine ⟨⟨mu, hmu⟩, ?_⟩
    rw [hvt_v, hvt_u]
    have : (mv : ℤ) < (mu : ℤ) := by exact_mod_cast (by omega : mv < mu)
    omega

/-- A node that drains to a base-level node is reached by the traversal:
it is a base itself or appears in some round's frontier. -/
theorem reached_of_drains {r : List (List ℤ)} {p : List (List ℚ)}
    (sv : StackValid r p) {delta : List ℤ} {D : List ℕ}
    (hdn : ∀ v < r.length, dnOf delta D v = (donorsListSpec r p v).toFinset)
    (hDb : ∀ u ∈ D, u < r.length) (hdlen : delta.length = r.length + 1)
    {x : ℕ} (hx : DrainsToBase r p x) :
    x ∈ (baselevelList r).toFinset ∨
      ∃ i, x ∈ Bseq delta D (baselevelList r) i := by
  obtain ⟨b, hb, hreach⟩ := hx
  induction hreach using Relation.ReflTransGen.head_induction_on with
  | refl =>
    exact Or.inl (List.mem_toFinset.mpr (mem_baselevelList.mpr hb))
  | head he _ ih =>
    exact Or.inr
      (vt_edge_lt sv hdn hDb hdlen he ih (le_refl r.length)).1

/-- Strict visit-time decrease along every transitive donor path, once the
loop has run to completion. -/
theorem vt_topo {r : List (List ℤ)} {p : List (List ℚ)}
    (sv : StackValid r p) {delta : List ℤ} {D : List ℕ}
    (hdn : ∀ v < r.length, dnOf delta D v = (donorsListSpec r p v).toFinset)
    (hDb : ∀ u ∈ D, u < r.length) (hdlen : delta.length = r.length + 1)
    {u v : ℕ} (huv : Relation.TransGen (edgeTo r p) u v)
    (hv : DrainsToBase r p v) {T : ℕ} (hT : r.length ≤ T) :
    (vtSeq delta D (baselevelList r) T).getD v 0 <
      (vtSeq delta D (baselevelList r) T).getD u 0 := by
  induction huv using Relation.TransGen.head_induction_on with
  | base he =>
    exact (vt_edge_lt sv hdn hDb hdlen he
      (reached_of_drains sv hdn hDb hdlen hv) hT).2
  | @ih a c he hTG ih =>
    have hmid : DrainsToBase r p c := by
      obtain ⟨b, hb, hreach⟩ := hv
      exact ⟨b, hb, Relation.ReflTransGen.trans
        (Relation.TransGen.to_reflTransGen hTG) hreach⟩
    have h1 := (vt_edge_lt sv hdn hDb hdlen he
      (reached_of_drains sv hdn hDb hdlen hmid) hT).2
    omega

/-- Pipeline packaging: under the stack conventions the whole ordering
pipeline succeeds, the CSR arrays record exactly the specified donor lists,
and the returned order is the argsort of the stabilized visit times. -/
theorem pipeline_stack {r : List (List ℤ)} {p : List (List ℚ)}
    (sv : StackValid r p) {fuel : ℕ} (hfuel : r.length + 1 ≤ fuel) :
    ∃ nd D, _make_number_of_donors_array_to_n r p = .ok nd ∧
      _make_array_of_donors_to_n r p (_make_delta_array_to_n nd) = .ok D ∧
      nd.length = r.length ∧
      (∀ v < r.length, dnOf (_make_delta_array_to_n nd) D v =
        (donorsListSpec r p v).toFinset) ∧
      (∀ u ∈ D, u < r.length) ∧
      make_ordered_node_array_to_n fuel r p =
        .ok (argsort (vtSeq (_make_delta_array_to_n nd) D (baselevelList r)
          (r.length + 1))) := by
  obtain ⟨nd, hnd, hndlen, _⟩ := nd_exact sv.toValidTables
  obtain ⟨stf, hbuild, _, _, hslice, _, _, hDb⟩ :=
    donorBuild_spec sv.toValidTables hnd
  have hD : _make_array_of_donors_to_n r p (_make_delta_array_to_n nd) =
      .ok stf.D := by
    unfold _make_array_of_donors_to_n
    rw [hbuild]
    rfl
  have hdn : ∀ v < r.length, dnOf (_make_delta_array_to_n nd) stf.D v =
      (donorsListSpec r p v).toFinset := by
    intro v hv
    unfold dnOf
    rw [hslice v hv]
  have hU : Useq (_make_delta_array_to_n nd) stf.D (baselevelList r)
      (r.length + 1) = ∅ := stack_terminates sv hdn hDb
  refine ⟨nd, stf.D, hnd, hD, hndlen, hdn, hDb, ?_⟩
  unfold make_ordered_node_array_to_n
  rw [hnd, except_bind_ok]
  show (do
      let D ← _make_array_of_donors_to_n r p (_make_delta_array_to_n nd)
      match construct__stack (_make_delta_array_to_n nd) D fuel
          (baselevelList r) with
        | some s => Except.ok s
        | none => Except.error "while loop did not terminate within fuel") =
    Except.ok (argsort (vtSeq (_make_delta_array_to_n nd) stf.D
      (baselevelList r) (r.length + 1)))
  rw [hD, except_bind_ok, construct__stack_some hU hfuel]

/-! ## Decidable bridges for the graph side conditions -/

theorem edgeTo_lt {r : List (List ℤ)} {p : List (List ℚ)}
    (valid : ValidTables r p) {u v : ℕ} (h : edgeTo r p u v) :
    u < r.length ∧ v < r.length := by
  obtain ⟨_, hslot⟩ := h
  have hu : u < r.length := donorSlot_lt hslot
  obtain ⟨j, hj1, _, hr, hp⟩ := hslot
  have := (valid.posInRange u hu j hj1 hp).2
  rw [hr] at this
  exact ⟨hu, by exact_mod_cast this⟩

/-- A rank function that strictly drops along every in-range edge certifies
acyclicity; the bounded hypothesis is decidable on concrete inputs. -/
theorem acyclic_of_rank {r : List (List ℤ)} {p : List (List ℚ)}
    (valid : ValidTables r p) (rank : ℕ → ℕ)
    (h : ∀ u < r.length, ∀ v < r.length, edgeTo r p u v → rank v < rank u) :
    Acyclic r p := by
  have hTG : ∀ u v, Relation.TransGen (edgeTo r p) u v → rank v < rank u := by
    intro u v huv
    induction huv with
    | single he =>
      obtain ⟨hu, hv⟩ := edgeTo_lt valid he
      exact h _ hu _ hv he
    | tail _ he ih =>
      obtain ⟨hu, hv⟩ := edgeTo_lt valid he
      exact lt_trans (h _ hu _ hv he) ih
  intro x hx
  exact lt_irrefl _ (hTG x x hx)

/-- Membership in the iterated reach set certifies draining to a base-level
node; membership is decidable on concrete inputs. -/
theorem drains_of_reachIter {r : List (List ℤ)} {p : List (List ℚ)} :
    ∀ {k : ℕ} {x : ℕ}, x ∈ reachIter r p k → DrainsToBase r p x := by
  intro k
  induction k with
  | zero =>
    intro x hx
    have hb : isBase r x := mem_baselevelList.mp (List.mem_toFinset.mp hx)
    exact ⟨x, hb, Relation.ReflTransGen.refl⟩
  | succ k ih =>
    intro x hx
    rcases Finset.mem_union.mp hx with h1 | h2
    · exact ih h1
    · obtain ⟨w, hw, he⟩ := (Finset.mem_filter.mp h2).2
      obtain ⟨b, hb, hreach⟩ := ih hw
      exact ⟨b, hb, Relation.ReflTransGen.head he hreach⟩

/-- Every node the traversal ever places in `base` drains to a base-level
node. -/
theorem Bseq_drains {r : List (List ℤ)} {p : List (List ℚ)}
    (sv : StackValid r p) {delta : List ℤ} {D : List ℕ}
    (hdn : ∀ v < r.length, dnOf delta D v = (donorsListSpec r p v).toFinset)
    (hDb : ∀ u ∈ D, u < r.length) :
    ∀ k x, x ∈ Bseq delta D (baselevelList r) k → DrainsToBase r p x := by
  intro k
  induction k with
  | zero =>
    intro x hx
    obtain ⟨hx', hxl⟩ := Finset.mem_sdiff.mp hx
    obtain ⟨b, hbl, hxb⟩ := Finset.mem_biUnion.mp hx'
    have hbbase : isBase r b := mem_baselevelList.mp (List.mem_toFinset.mp hbl)
    have hslot : donorSlot r p x b :=
      (mem_dnOf_iff sv.toValidTables hdn hbbase.1).mp hxb
    have hne : x ≠ b := fun he => hxl (he ▸ hbl)
    exact ⟨b, hbbase, Relation.ReflTransGen.single ⟨hne, hslot⟩⟩
  | succ k ih =>
    intro x hx
    obtain ⟨v, hv, hxv⟩ := Finset.mem_biUnion.mp hx
    have hvN : v < r.length := stack_B_lt hDb k v hv
    have hslot : donorSlot r p x v :=
      (mem_dnOf_iff sv.toValidTables hdn hvN).mp hxv
    have hne : x ≠ v := by
      intro he
      subst he
      exact stack_B_baseFree sv hdn hDb k x (sv.selfOnlyBase x hslot) hv
    obtain ⟨b, hb, hreach⟩ := ih v hv
    exact ⟨b, hb, Relation.ReflTransGen.head ⟨hne, hslot⟩ hreach⟩

/-! ## Fail-fast behaviour on out-of-range receivers -/

theorem except_bind_error {α β : Type} (s : String)
    (f : α → Except String β) : (Except.error s >>= f) = .error s := rfl

theorem le_foldl_max_init : ∀ (l : List ℤ) (a : ℤ), a ≤ l.foldl max a := by
  intro l
  induction l with
  | nil => intro a; exact le_refl a
  | cons y t ih =>
    intro a
    calc a ≤ max a y := le_max_left a y
      _ ≤ t.foldl max (max a y) := ih (max a y)

theorem foldl_max_le_mem : ∀ {x : List ℤ} (a : ℤ) {e : ℤ},
    e ∈ x → e ≤ x.foldl max a := by
  intro x
  induction x with
  | nil => intro a e he; cases he
  | cons y t ih =>
    intro a e he
    rcases List.mem_cons.mp he with rfl | ht
    · calc e ≤ max a e := le_max_right a e
        _ ≤ t.foldl max (max a e) := le_foldl_max_init t (max a e)
    · exact ih (max a y) ht

/-- The donor-count builder raises on every equal-shape input in which some
positive-proportion receiver entry lies outside `[0, N)`. -/
theorem nd_fail_fast {r : List (List ℤ)} {p : List (List ℚ)}
    (hshape : sameShape r p = true) {i j : ℕ} (hi : i < r.length)
    (hj : j < (r.getD i []).length) (hpos : 0 < (p.getD i []).getD j 0)
    (hout : (r.getD i []).getD j 0 < 0 ∨
      (r.length : ℤ) ≤ (r.getD i []).getD j 0) :
    ∃ msg, _make_number_of_donors_array_to_n r p = .error msg := by
  have hlen : r.length = p.length := sameShape_length hshape
  have hrows : ∀ i < r.length, (r.getD i []).length = (p.getD i []).length :=
    sameShape_rows hshape
  have hflat : r.flatten.length = p.flatten.length :=
    flatten_length_eq hlen hrows
  have hzip : ((r.getD i []).getD j 0, (p.getD i []).getD j 0) ∈
      r.flatten.zip p.flatten := mem_zip_flatten_of_idx hlen hrows hi hj
  have hmemF : (r.getD i []).getD j 0 ∈ maskFilter r.flatten p.flatten :=
    maskFilter_mem_of hzip hpos
  have hfne : r.flatten ≠ [] := by
    intro hc
    have := List.of_mem_zip hzip
    rw [hc] at this
    cases this.1
  obtain ⟨m, hamax⟩ := npAmax_ok_of_ne hfne
  have hm_ub := (npAmax_ok hamax).2
  unfold _make_number_of_donors_array_to_n
  rw [hamax, except_bind_ok, if_pos hflat]
  by_cases hneg : ∃ f ∈ maskFilter r.flatten p.flatten, f < 0
  · obtain ⟨f, hf, hfneg⟩ := hneg
    obtain ⟨msg, herr⟩ := npBincount_error hf hfneg
    rw [herr, except_bind_error]
    exact ⟨msg, rfl⟩
  · push_neg at hneg
    rw [npBincount_ok (fun e he => hneg e he), except_bind_ok]
    have hge : (r.length : ℤ) ≤ (r.getD i []).getD j 0 := by
      rcases hout with h | h
      · exact absurd h (not_lt.mpr (hneg _ hmemF))
      · exact h
    have hN1 : 1 ≤ r.length := by omega
    have hmF : (r.length : ℤ) ≤
        (maskFilter r.flatten p.flatten).foldl max (-1) :=
      le_trans hge (foldl_max_le_mem (-1) hmemF)
    have hmr : (r.length : ℤ) ≤ m := by
      refine le_trans hge (hm_ub _ ?_)
      exact (List.of_mem_zip hzip).1
    unfold npSliceAssignPrefix
    have hdst : (List.replicate r.length (0 : ℤ)).length = r.length :=
      List.length_replicate r.length 0
    have hE : pySliceEnd (List.replicate r.length (0 : ℤ)).length (m + 1) =
        r.length := by
      unfold pySliceEnd
      rw [if_neg (by omega), hdst]
      have : r.length ≤ (m + 1).toNat := by omega
      omega
    rw [hE]
    have hbcl : ((List.range
        ((maskFilter r.flatten p.flatten).foldl max (-1) + 1).toNat).map
        (fun k : ℕ => ((maskFilter r.flatten p.flatten).count
          ((k : ℕ) : ℤ) : ℤ))).length =
        ((maskFilter r.flatten p.flatten).foldl max (-1) + 1).toNat := by
      rw [List.length_map, List.length_range]
    rw [if_neg (by rw [hbcl]; omega), if_neg (by rw [hbcl]; omega)]
    exact ⟨_, rfl⟩

/-! ## Inertness of non-positive slots, up to the `amax` dependence -/

theorem maskFilter_row_congr : ∀ {x x' : List ℤ} {m : List ℚ},
    x.length = m.length → x'.length = m.length →
    (∀ j < m.length, 0 < m.getD j 0 → x.getD j 0 = x'.getD j 0) →
    maskFilter x m = maskFilter x' m := by
  intro x
  induction x with
  | nil =>
    intro x' m h1 h2 _
    cases m with
    | nil =>
      cases x' with
      | nil => rfl
      | cons c' t' => cases h2
    | cons d ms => cases h1
  | cons c t ih =>
    intro x' m h1 h2 hagree
    cases m with
    | nil => cases h1
    | cons d ms =>
      cases x' with
      | nil => cases h2
      | cons c' t' =>
        have hrec : maskFilter t ms = maskFilter t' ms := by
          apply ih (by simpa using h1) (by simpa using h2)
          intro j hj hpos
          have := hagree (j + 1) (by simpa using hj) (by simpa using hpos)
          simpa using this
        unfold maskFilter at hrec ⊢
        rw [List.zip_cons_cons, List.zip_cons_cons]
        by_cases hd : 0 < d
        · have hc : c = c' := by
            have := hagree 0 (by simp) (by simpa using hd)
            simpa using this
          simp [List.filterMap_cons, hd, hc, hrec]
        · simp [List.filterMap_cons, hd, hrec]

theorem maskFilter_flatten_congr : ∀ {r r' : List (List ℤ)}
    {p : List (List ℚ)}, r.length = r'.length → r.length = p.length →
    (∀ i < r.length, (r.getD i []).length = (p.getD i []).length) →
    (∀ i < r.length, (r'.getD i []).length = (p.getD i []).length) →
    (∀ i < r.length, ∀ j < (p.getD i []).length,
      0 < (p.getD i []).getD j 0 →
      (r.getD i []).getD j 0 = (r'.getD i []).getD j 0) →
    maskFilter r.flatten p.flatten = maskFilter r'.flatten p.flatten := by
  intro r
  induction r with
  | nil =>
    intro r' p h1 h2 _ _ _
    cases r' with
    | nil => rfl
    | cons a' t' => cases h1
  | cons a t ih =>
    intro r' p h1 h2 hrow hrow' hagree
    cases r' with
    | nil => cases h1
    | cons a' t' =>
      cases p with
      | nil => cases h2
      | cons b q =>
        have ha : a.length = b.length := by
          have := hrow 0 (by simp)
          simpa using this
        have ha' : a'.length = b.length := by
          have := hrow' 0 (by simp)
          simpa using this
        simp only [List.flatten_cons]
        rw [maskFilter_append ha, maskFilter_append ha']
        have hhead : maskFilter a b = maskFilter a' b := by
          apply maskFilter_row_congr (by omega) (by omega)
          intro j hj hpos
          have := hagree 0 (by simp) j (by simpa using hj)
            (by simpa using hpos)
          simpa using this
        have htail : maskFilter t.flatten q.flatten =
            maskFilter t'.flatten q.flatten := by
          apply ih (by simpa using h1) (by simpa using h2)
          · intro i hi
            have := hrow (i + 1) (by simpa using hi)
            simpa using this
          · intro i hi
            have := hrow' (i + 1) (by simpa using hi)
            simpa using this
          · intro i hi j hj hpos
            have := hagree (i + 1) (by simpa using hi) j
              (by simpa using hj) (by simpa using hpos)
            simpa using this
        rw [hhead, htail]

/-- The donor-count stage depends only on the positive-proportion entries
and on the overall `amax` of the receiver table. -/
theorem nd_congr {r r' : List (List ℤ)} {p : List (List ℚ)}
    (hshape : sameShape r p = true) (hshape' : sameShape r' p = true)
    (hagree : ∀ i < r.length, ∀ j < (p.getD i []).length,
      0 < (p.getD i []).getD j 0 →
      (r.getD i []).getD j 0 = (r'.getD i []).getD j 0)
    (hamax : npAmax r = npAmax r') :
    _make_number_of_donors_array_to_n r p =
      _make_number_of_donors_array_to_n r' p := by
  have hlen : r.length = p.length := sameShape_length hshape
  have hlen' : r'.length = p.length := sameShape_length hshape'
  have hrow := sameShape_rows hshape
  have hrow' := sameShape_rows hshape'
  have hflat : r.flatten.length = p.flatten.length :=
    flatten_length_eq hlen (fun i hi => hrow i hi)
  have hflat' : r'.flatten.length = p.flatten.length :=
    flatten_length_eq hlen' (fun i hi => hrow' i hi)
  have hF : maskFilter r.flatten p.flatten =
      maskFilter r'.flatten p.flatten := by
    apply maskFilter_flatten_congr (by omega) hlen
    · exact fun i hi => hrow i hi
    · intro i hi
      exact hrow' i (by omega)
    · intro i hi j hj hpos
      exact hagree i hi j hj hpos
  unfold _make_number_of_donors_array_to_n
  rw [← hamax]
  cases hM : npAmax r with
  | error msg => rfl
  | ok m =>
    rw [except_bind_ok, except_bind_ok, if_pos hflat, if_pos hflat', hF]
    have hrl : r.length = r'.length := by omega
    rw [hrl]

/-! ## Row coefficients of the accumulator -/

theorem rowCoefOn_nil (v : ℕ) : rowCoefOn [] v = 0 := rfl

theorem rowCoefOn_cons (e : ℤ × ℚ) (l : List (ℤ × ℚ)) (v : ℕ) :
    rowCoefOn (e :: l) v =
      (if 0 < e.2 ∧ e.1 = (v : ℤ) then e.2 else 0) + rowCoefOn l v := by
  unfold rowCoefOn
  rw [List.filter_cons]
  by_cases h : 0 < e.2 ∧ e.1 = (v : ℤ)
  · have hb : (decide (0 < e.2) && (e.1 == (v : ℤ))) = true := by
      rw [Bool.and_eq_true, decide_eq_true_eq, beq_iff_eq]
      exact h
    rw [if_pos h, if_pos hb, List.map_cons, List.sum_cons]
  · have hb : ¬ ((decide (0 < e.2) && (e.1 == (v : ℤ))) = true) := by
      rw [Bool.and_eq_true, decide_eq_true_eq, beq_iff_eq]
      exact h
    rw [if_neg h, if_neg hb, zero_add]

theorem rowCoefOn_eq_zero {l : List (ℤ × ℚ)} {v : ℕ}
    (h : ∀ e ∈ l, ¬ (0 < e.2 ∧ e.1 = (v : ℤ))) : rowCoefOn l v = 0 := by
  induction l with
  | nil => rfl
  | cons e t ih =>
    rw [rowCoefOn_cons, if_neg (h e (List.mem_cons_self e t)),
      ih (fun e' he' => h e' (List.mem_cons_of_mem e he')), add_zero]

theorem rowCoefOn_sum {N : ℕ} :
    ∀ (l : List (ℤ × ℚ)), (∀ e ∈ l, 0 < e.2 → 0 ≤ e.1 ∧ e.1 < (N : ℤ)) →
    ∑ v ∈ Finset.range N, rowCoefOn l v =
      ((l.filter (fun e => decide (0 < e.2))).map Prod.snd).sum := by
  intro l
  induction l with
  | nil =>
    intro _
    simp [rowCoefOn_nil]
  | cons e t ih =>
    intro h
    have hind : ∑ v ∈ Finset.range N, rowCoefOn (e :: t) v =
        (∑ v ∈ Finset.range N,
          (if 0 < e.2 ∧ e.1 = (v : ℤ) then e.2 else 0)) +
        ∑ v ∈ Finset.range N, rowCoefOn t v := by
      rw [← Finset.sum_add_distrib]
      exact Finset.sum_congr rfl (fun v _ => rowCoefOn_cons e t v)
    rw [hind, ih (fun e' he' => h e' (List.mem_cons_of_mem e he'))]
    rw [List.filter_cons]
    by_cases hpos : 0 < e.2
    · obtain ⟨h0, hN⟩ := h e (List.mem_cons_self e t) hpos
      have hsingle : ∑ v ∈ Finset.range N,
          (if 0 < e.2 ∧ e.1 = (v : ℤ) then e.2 else 0) = e.2 := by
        have hcong : ∀ v ∈ Finset.range N,
            (if 0 < e.2 ∧ e.1 = (v : ℤ) then e.2 else 0) =
            (if v = e.1.toNat then e.2 else 0) := by
          intro v _
          by_cases hv : v = e.1.toNat
          · rw [if_pos hv, if_pos ⟨hpos, by omega⟩]
          · rw [if_neg hv, if_neg]
            rintro ⟨_, he⟩
            exact hv (by omega)
        rw [Finset.sum_congr rfl hcong]
        rw [Finset.sum_ite_eq' (Finset.range N) e.1.toNat (fun _ => e.2)]
        rw [if_pos (Finset.mem_range.mpr (by omega))]
      rw [hsingle, if_pos (by rw [decide_eq_true_eq]; exact hpos),
        List.map_cons, List.sum_cons]
    · have hzero : ∑ v ∈ Finset.range N,
          (if 0 < e.2 ∧ e.1 = (v : ℤ) then e.2 else 0) = 0 := by
        apply Finset.sum_eq_zero
        intro v _
        rw [if_neg (fun hc => hpos hc.1)]
      rw [hzero, if_neg (by rw [decide_eq_true_eq]; exact hpos), zero_add]

theorem filter_zip_snd : ∀ {a : List ℤ} {b : List ℚ}, a.length = b.length →
    (((a.zip b).filter (fun e => decide (0 < e.2))).map Prod.snd) =
      b.filter (fun x => decide (0 < x)) := by
  intro a
  induction a with
  | nil =>
    intro b h
    cases b with
    | nil => rfl
    | cons y q => cases h
  | cons x t ih =>
    intro b h
    cases b with
    | nil => cases h
    | cons y q =>
      rw [List.zip_cons_cons, List.filter_cons, List.filter_cons]
      by_cases hy : 0 < y
      · rw [if_pos (by rw [decide_eq_true_eq]; exact hy),
          if_pos (by rw [decide_eq_true_eq]; exact hy), List.map_cons,
          ih (by simpa using h)]
      · rw [if_neg (by rw [decide_eq_true_eq]; exact hy),
          if_neg (by rw [decide_eq_true_eq]; exact hy),
          ih (by simpa using h)]

/-- The row coefficients of an in-range donor row total its positive
proportions. -/
theorem rowCoef_total {r : List (List ℤ)} {p : List (List ℚ)}
    (valid : ValidTables r p) {d : ℕ} (hd : d < r.length) :
    ∑ v ∈ Finset.range r.length, rowCoef r p d v = posRowSum p d := by
  unfold rowCoef posRowSum
  have hrows : (r.getD d []).length = (p.getD d []).length :=
    sameShape_rows valid.shape d hd
  have hslots : ∀ e ∈ (r.getD d []).zip (p.getD d []), 0 < e.2 →
      0 ≤ e.1 ∧ e.1 < (r.length : ℤ) := by
    intro e he hpos
    obtain ⟨j, hj1, hj2, hg1, hg2⟩ := mem_zip_idx he
    have he1 : (r.getD d []).getD j 0 = e.1 := by
      rw [List.getD_eq_getElem _ _ hj1]
      exact Option.some.inj (by rw [← List.getElem?_eq_getElem hj1, hg1])
    have he2 : (p.getD d []).getD j 0 = e.2 := by
      rw [List.getD_eq_getElem _ _ hj2]
      exact Option.some.inj (by rw [← List.getElem?_eq_getElem hj2, hg2])
    have := valid.posInRange d hd j hj1 (by rw [he2]; exact hpos)
    rw [he1] at this
    exact this
  rw [rowCoefOn_sum _ hslots, filter_zip_snd hrows]

/-- A positive row coefficient names an actual positive slot. -/
theorem donorSlot_of_rowCoef {r : List (List ℤ)} {p : List (List ℚ)}
    {d v : ℕ} (h : rowCoef r p d v ≠ 0) : donorSlot r p d v := by
  by_contra hc
  apply h
  unfold rowCoef
  apply rowCoefOn_eq_zero
  rintro e he ⟨hpos, hrecv⟩
  apply hc
  obtain ⟨j, hj1, hj2, hg1, hg2⟩ := mem_zip_idx he
  refine ⟨j, hj1, hj2, ?_, ?_⟩
  · rw [List.getD_eq_getElem _ _ hj1, ← hrecv]
    exact Option.some.inj (by rw [← List.getElem?_eq_getElem hj1, hg1])
  · have he2 : (p.getD d []).getD j 0 = e.2 := by
      rw [List.getD_eq_getElem _ _ hj2]
      exact Option.some.inj (by rw [← List.getElem?_eq_getElem hj2, hg2])
    rw [he2]
    exact hpos

/-! ## The accumulator inner loop -/

theorem getD_set {l : List ℚ} {k : ℕ} {x : ℚ} (hk : k < l.length) (v : ℕ) :
    (l.set k x).getD v 0 = if v = k then x else l.getD v 0 := by
  by_cases hv : v < l.length
  · have hv' : v < (l.set k x).length := by rw [List.length_set]; exact hv
    rw [List.getD_eq_getElem _ _ hv', List.getD_eq_getElem _ _ hv,
      List.getElem_set]
    by_cases hvk : v = k
    · rw [if_pos hvk, if_pos hvk.symm]
    · rw [if_neg hvk, if_neg (fun hc => hvk hc.symm)]
  · have hvk : ¬ v = k := fun hc => hv (hc ▸ hk)
    rw [if_neg hvk,
      List.getD_eq_default _ _
        (show (l.set k x).length ≤ v by rw [List.length_set]; omega),
      List.getD_eq_default _ _ (show l.length ≤ v by omega)]

theorem accumSlot_fold_id {donor : ℕ} :
    ∀ (l : List (ℤ × ℚ)) (st : List ℚ × List ℚ),
    (∀ e ∈ l, 0 < e.2 → (donor : ℤ) = e.1) →
    List.foldlM (accumSlot donor) st l = .ok st := by
  intro l
  induction l with
  | nil => intro st _; rfl
  | cons e t ih =>
    intro st h
    have hstep : accumSlot donor st e = .ok st := by
      unfold accumSlot
      by_cases hpos : 0 < e.2
      · rw [if_pos hpos,
          if_neg (not_not_intro (h e (List.mem_cons_self e t) hpos))]
      · rw [if_neg hpos]
    rw [List.foldlM_cons, hstep, except_bind_ok]
    exact ih st (fun e' he' => h e' (List.mem_cons_of_mem e he'))

/-- Exact effect of one donor row on the running totals when every positive
slot is an in-range receiver different from the donor. -/
theorem accumSlot_fold {N : ℕ} {donor : ℕ} :
    ∀ (l : List (ℤ × ℚ)) (st : List ℚ × List ℚ),
    st.1.length = N → st.2.length = N →
    (∀ e ∈ l, 0 < e.2 → 0 ≤ e.1 ∧ e.1 < (N : ℤ) ∧ (donor : ℤ) ≠ e.1) →
    ∃ st', List.foldlM (accumSlot donor) st l = .ok st' ∧
      st'.1.length = N ∧ st'.2.length = N ∧
      (∀ v, st'.1.getD v 0 =
        st.1.getD v 0 + rowCoefOn l v * st.1.getD donor 0) ∧
      (∀ v, st'.2.getD v 0 =
        st.2.getD v 0 + rowCoefOn l v * st.2.getD donor 0) := by
  intro l
  induction l with
  | nil =>
    intro st h1 h2 _
    exact ⟨st, rfl, h1, h2, fun v => by rw [rowCoefOn_nil, zero_mul, add_zero],
      fun v => by rw [rowCoefOn_nil, zero_mul, add_zero]⟩
  | cons e t ih =>
    intro st h1 h2 h
    by_cases hpos : 0 < e.2
    · obtain ⟨h0, hN, hne⟩ := h e (List.mem_cons_self e t) hpos
      have hkN : e.1.toNat < N := by omega
      have hcast : ((e.1.toNat : ℕ) : ℤ) = e.1 := by omega
      have hdk : donor ≠ e.1.toNat := by
        intro hc
        exact hne (by omega)
      have hstep : accumSlot donor st e = .ok
          (st.1.set e.1.toNat
            (st.1.getD e.1.toNat 0 + e.2 * st.1.getD donor 0),
           st.2.set e.1.toNat
            (st.2.getD e.1.toNat 0 + e.2 * st.2.getD donor 0)) := by
        unfold accumSlot
        rw [if_pos hpos, if_pos hne, pyIdx_ok h0 (by omega),
          except_bind_ok, pyIdx_ok h0 (by omega), except_bind_ok]
      rw [List.foldlM_cons, hstep, except_bind_ok]
      set st1 : List ℚ × List ℚ :=
        (st.1.set e.1.toNat
          (st.1.getD e.1.toNat 0 + e.2 * st.1.getD donor 0),
         st.2.set e.1.toNat
          (st.2.getD e.1.toNat 0 + e.2 * st.2.getD donor 0)) with hst1
      have h1' : st1.1.length = N := by rw [hst1, List.length_set]; exact h1
      have h2' : st1.2.length = N := by rw [hst1, List.length_set]; exact h2
      have hk1 : e.1.toNat < st.1.length := by omega
      have hk2 : e.1.toNat < st.2.length := by omega
      have hd1 : st1.1.getD donor 0 = st.1.getD donor 0 := by
        rw [hst1, getD_set hk1, if_neg hdk]
      have hd2 : st1.2.getD donor 0 = st.2.getD donor 0 := by
        rw [hst1, getD_set hk2, if_neg hdk]
      obtain ⟨st', hfold, hl1, hl2, hv1, hv2⟩ := ih st1 h1' h2'
        (fun e' he' hp => h e' (List.mem_cons_of_mem e he') hp)
      refine ⟨st', hfold, hl1, hl2, ?_, ?_⟩
      · intro v
        rw [hv1 v, hd1, hst1, getD_set hk1, rowCoefOn_cons]
        by_cases hvk : v = e.1.toNat
        · rw [if_pos hvk, if_pos ⟨hpos, by omega⟩, hvk]
          ring
        · rw [if_neg hvk, if_neg]
          · ring
          · rintro ⟨_, hc⟩
            exact hvk (by omega)
      · intro v
        rw [hv2 v, hd2, hst1, getD_set hk2, rowCoefOn_cons]
        by_cases hvk : v = e.1.toNat
        · rw [if_pos hvk, if_pos ⟨hpos, by omega⟩, hvk]
          ring
        · rw [if_neg hvk, if_neg]
          · ring
          · rintro ⟨_, hc⟩
            exact hvk (by omega)
    · have hstep : accumSlot donor st e = .ok st := by
        unfold accumSlot
        rw [if_neg hpos]
      rw [List.foldlM_cons, hstep, except_bind_ok]
      obtain ⟨st', hfold, hl1, hl2, hv1, hv2⟩ := ih st h1 h2
        (fun e' he' hp => h e' (List.mem_cons_of_mem e he') hp)
      refine ⟨st', hfold, hl1, hl2, ?_, ?_⟩
      · intro v
        rw [hv1 v, rowCoefOn_cons, if_neg (fun hc => hpos hc.1)]
        ring
      · intro v
        rw [hv2 v, rowCoefOn_cons, if_neg (fun hc => hpos hc.1)]
        ring

/-- Monotone effect of one donor row: the totals never decrease and stay
non-negative. -/
theorem accumSlot_fold_mono {N : ℕ} {donor : ℕ} :
    ∀ (l : List (ℤ × ℚ)) (st : List ℚ × List ℚ),
    st.1.length = N → st.2.length = N →
    (∀ e ∈ l, 0 < e.2 → (donor : ℤ) ≠ e.1 → 0 ≤ e.1 ∧ e.1 < (N : ℤ)) →
    (∀ v, 0 ≤ st.1.getD v 0) → (∀ v, 0 ≤ st.2.getD v 0) →
    ∃ st', List.foldlM (accumSlot donor) st l = .ok st' ∧
      st'.1.length = N ∧ st'.2.length = N ∧
      (∀ v, 0 ≤ st'.1.getD v 0) ∧ (∀ v, 0 ≤ st'.2.getD v 0) ∧
      (∀ v, st.1.getD v 0 ≤ st'.1.getD v 0) ∧
      (∀ v, st.2.getD v 0 ≤ st'.2.getD v 0) := by
  intro l
  induction l with
  | nil =>
    intro st h1 h2 _ hn1 hn2
    exact ⟨st, rfl, h1, h2, hn1, hn2, fun v => le_refl _, fun v => le_refl _⟩
  | cons e t ih =>
    intro st h1 h2 h hn1 hn2
    by_cases hpos : 0 < e.2
    · by_cases hne : (donor : ℤ) ≠ e.1
      · obtain ⟨h0, hN⟩ := h e (List.mem_cons_self e t) hpos hne
        have hstep : accumSlot donor st e = .ok
            (st.1.set e.1.toNat
              (st.1.getD e.1.toNat 0 + e.2 * st.1.getD donor 0),
             st.2.set e.1.toNat
              (st.2.getD e.1.toNat 0 + e.2 * st.2.getD donor 0)) := by
          unfold accumSlot
          rw [if_pos hpos, if_pos hne, pyIdx_ok h0 (by omega),
            except_bind_ok, pyIdx_ok h0 (by omega), except_bind_ok]
        rw [List.foldlM_cons, hstep, except_bind_ok]
        have hk1 : e.1.toNat < st.1.length := by omega
        have hk2 : e.1.toNat < st.2.length := by omega
        obtain ⟨st', hfold, hl1, hl2, hn1', hn2', hm1, hm2⟩ := ih
          (st.1.set e.1.toNat
            (st.1.getD e.1.toNat 0 + e.2 * st.1.getD donor 0),
           st.2.set e.1.toNat
            (st.2.getD e.1.toNat 0 + e.2 * st.2.getD donor 0))
          (by rw [List.length_set]; exact h1)
          (by rw [List.length_set]; exact h2)
          (fun e' he' hp hd => h e' (List.mem_cons_of_mem e he') hp hd)
          (by
            intro v
            rw [getD_set hk1]
            by_cases hvk : v = e.1.toNat
            · rw [if_pos hvk]
              have ha := mul_nonneg (le_of_lt hpos) (hn1 donor)
              have hb := hn1 e.1.toNat
              linarith
            · rw [if_neg hvk]
              exact hn1 v)
          (by
            intro v
            rw [getD_set hk2]
            by_cases hvk : v = e.1.toNat
            · rw [if_pos hvk]
              have ha := mul_nonneg (le_of_lt hpos) (hn2 donor)
              have hb := hn2 e.1.toNat
              linarith
            · rw [if_neg hvk]
              exact hn2 v)
        refine ⟨st', hfold, hl1, hl2, hn1', hn2', ?_, ?_⟩
        · intro v
          refine le_trans ?_ (hm1 v)
          rw [getD_set hk1]
          by_cases hvk : v = e.1.toNat
          · rw [if_pos hvk, hvk]
            have ha := mul_nonneg (le_of_lt hpos) (hn1 donor)
            linarith
          · rw [if_neg hvk]
        · intro v
          refine le_trans ?_ (hm2 v)
          rw [getD_set hk2]
          by_cases hvk : v = e.1.toNat
          · rw [if_pos hvk, hvk]
            have ha := mul_nonneg (le_of_lt hpos) (hn2 donor)
            linarith
          · rw [if_neg hvk]
      · have hstep : accumSlot donor st e = .ok st := by
          unfold accumSlot
          rw [if_pos hpos, if_neg hne]
        rw [List.foldlM_cons, hstep, except_bind_ok]
        exact ih st h1 h2
          (fun e' he' hp hd => h e' (List.mem_cons_of_mem e he') hp hd)
          hn1 hn2
    · have hstep : accumSlot donor st e = .ok st := by
        unfold accumSlot
        rw [if_neg hpos]
      rw [List.foldlM_cons, hstep, except_bind_ok]
      exact ih st h1 h2
        (fun e' he' hp hd => h e' (List.mem_cons_of_mem e he') hp hd)
        hn1 hn2

/-- Rows of base-level nodes are skipped entirely by the accumulator when
base-level nodes only send flow to themselves. -/
theorem accumDonor_of_base {r : List (List ℤ)} {p : List (List ℚ)}
    (hbos : ∀ i, isBase r i → ∀ j < (r.getD i []).length,
      0 < (p.getD i []).getD j 0 → (r.getD i []).getD j 0 = (i : ℤ))
    {d : ℕ} (hd : isBase r d) (st : List ℚ × List ℚ) :
    accumDonor r p st d = .ok st := by
  unfold accumDonor
  rw [if_pos hd.1]
  apply accumSlot_fold_id
  intro e he hpos
  obtain ⟨j, hj1, hj2, hg1, hg2⟩ := mem_zip_idx he
  have he1 : (r.getD d []).getD j 0 = e.1 := by
    rw [List.getD_eq_getElem _ _ hj1]
    exact Option.some.inj (by rw [← List.getElem?_eq_getElem hj1, hg1])
  have he2 : (p.getD d []).getD j 0 = e.2 := by
    rw [List.getD_eq_getElem _ _ hj2]
    exact Option.some.inj (by rw [← List.getElem?_eq_getElem hj2, hg2])
  have := hbos d hd j hj1 (by rw [he2]; exact hpos)
  rw [he1] at this
  rw [← this]

/-- A non-base donor row adds `rowCoef d v` times the donor's running value
to every node `v`, and leaves the donor's own value unchanged. -/
theorem accumDonor_of_nonbase {r : List (List ℤ)} {p : List (List ℚ)}
    (valid : ValidTables r p)
    (hsob : ∀ i, donorSlot r p i i → isBase r i)
    {d : ℕ} (hd : d < r.length) (hnb : ¬ isBase r d)
    (st : List ℚ × List ℚ) (h1 : st.1.length = r.length)
    (h2 : st.2.length = r.length) :
    ∃ st', accumDonor r p st d = .ok st' ∧
      st'.1.length = r.length ∧ st'.2.length = r.length ∧
      (∀ v, st'.1.getD v 0 =
        st.1.getD v 0 + rowCoef r p d v * st.1.getD d 0) ∧
      (∀ v, st'.2.getD v 0 =
        st.2.getD v 0 + rowCoef r p d v * st.2.getD d 0) := by
  unfold accumDonor
  rw [if_pos hd]
  apply accumSlot_fold _ _ h1 h2
  intro e he hpos
  obtain ⟨j, hj1, hj2, hg1, hg2⟩ := mem_zip_idx he
  have he1 : (r.getD d []).getD j 0 = e.1 := by
    rw [List.getD_eq_getElem _ _ hj1]
    exact Option.some.inj (by rw [← List.getElem?_eq_getElem hj1, hg1])
  have he2 : (p.getD d []).getD j 0 = e.2 := by
    rw [List.getD_eq_getElem _ _ hj2]
    exact Option.some.inj (by rw [← List.getElem?_eq_getElem hj2, hg2])
  have hin := valid.posInRange d hd j hj1 (by rw [he2]; exact hpos)
  rw [he1] at hin
  refine ⟨hin.1, hin.2, ?_⟩
  intro hc
  apply hnb
  apply hsob d
  exact ⟨j, hj1, by rw [← sameShape_rows valid.shape d hd]; exact hj1,
    by rw [he1, ← hc], by rw [he2]; exact hpos⟩

theorem indexOf_append_right {α : Type} [DecidableEq α] {a : α} :
    ∀ {xs : List α} (ys : List α), a ∉ xs →
      (xs ++ ys).indexOf a = xs.length + ys.indexOf a := by
  intro xs
  induction xs with
  | nil => intro ys _; simp
  | cons b t ih =>
    intro ys h
    have hne : b ≠ a := fun hc => h (hc ▸ List.mem_cons_self b t)
    rw [List.cons_append, List.indexOf_cons_ne _ hne,
      ih ys (fun hc => h (List.mem_cons_of_mem b hc)), List.length_cons]
    omega

/-- In a duplicate-free list decomposed as `s.reverse = pre ++ d :: l`, any
element placed strictly before `d` in `s` lies in `l`. -/
theorem mem_suffix_of_indexOf_lt {α : Type} [DecidableEq α]
    {s pre l : List α} {d x : α} (hdec : s.reverse = pre ++ d :: l)
    (hnds : s.Nodup) (hlt : s.indexOf x < s.indexOf d) : x ∈ l := by
  have hs : s = l.reverse ++ (d :: pre.reverse) := by
    have h1 := congrArg List.reverse hdec
    rw [List.reverse_reverse] at h1
    rw [h1, List.reverse_append, List.reverse_cons, List.append_assoc]
    rfl
  have hnodup : (l.reverse ++ (d :: pre.reverse)).Nodup := by rw [← hs]; exact hnds
  have hdisj := (List.nodup_append.mp hnodup).2.2
  have hdl : d ∉ l.reverse :=
    fun hc => hdisj hc (List.mem_cons_self d pre.reverse)
  have hid : s.indexOf d = l.length := by
    rw [hs, indexOf_append_right _ hdl, List.indexOf_cons_self,
      List.length_reverse, add_zero]
  by_contra hxl
  have hxrev : x ∉ l.reverse := fun hc => hxl (List.mem_reverse.mp hc)
  have hix : s.indexOf x = l.length + (d :: pre.reverse).indexOf x := by
    rw [hs, indexOf_append_right _ hxrev, List.length_reverse]
  omega

/-- The conservation invariant of the accumulator: folding the remaining
donors moves exactly the active (base or still unprocessed) totals onto the
base-level nodes, provided base-level rows only point at themselves and
every processed row distributes a total proportion of `1`. -/
theorem accum_conserve_fold {r : List (List ℤ)} {p : List (List ℚ)}
    (valid : ValidTables r p)
    (hsob : ∀ i, donorSlot r p i i → isBase r i)
    (hbos : ∀ i, isBase r i → ∀ j < (r.getD i []).length,
      0 < (p.getD i []).getD j 0 → (r.getD i []).getD j 0 = (i : ℤ))
    (hsum1 : ∀ i < r.length, posRowSum p i = 1) {s : List ℕ}
    (hperm : s.Perm (List.range r.length))
    (horder : ∀ u < r.length, ∀ v < r.length, edgeTo r p u v →
      s.indexOf v < s.indexOf u) :
    ∀ (l : List ℕ) (st : List ℚ × List ℚ),
    (∃ pre, s.reverse = pre ++ l) →
    st.1.length = r.length → st.2.length = r.length →
    ∃ st', List.foldlM (accumDonor r p) st l = .ok st' ∧
      st'.1.length = r.length ∧ st'.2.length = r.length ∧
      ∑ b ∈ baseSet r, st'.1.getD b 0 =
        ∑ v ∈ baseSet r ∪ l.toFinset.filter (fun v => ¬ isBase r v),
          st.1.getD v 0 := by
  have hnds : s.Nodup := hperm.nodup_iff.mpr (List.nodup_range _)
  have hmemN : ∀ x ∈ s, x < r.length := by
    intro x hx
    have := hperm.mem_iff.mp hx
    rwa [List.mem_range] at this
  intro l
  induction l with
  | nil =>
    intro st _ h1 h2
    refine ⟨st, rfl, h1, h2, ?_⟩
    simp
  | cons d l ih =>
    intro st hpre h1 h2
    obtain ⟨pre, hdec⟩ := hpre
    have hd_s : d ∈ s := by
      rw [← List.mem_reverse, hdec]
      exact List.mem_append_right pre (List.mem_cons_self d l)
    have hdN : d < r.length := hmemN d hd_s
    have hl_s : ∀ x ∈ l, x ∈ s := by
      intro x hx
      rw [← List.mem_reverse, hdec]
      exact List.mem_append_right pre (List.mem_cons_of_mem d hx)
    have hd_l : d ∉ l := by
      have hnodup : (d :: l).Nodup := by
        have hsl : (d :: l).Sublist s.reverse := by
          rw [hdec]
          exact List.sublist_append_right pre (d :: l)
        exact hsl.nodup (List.nodup_reverse.mpr hnds)
      exact (List.nodup_cons.mp hnodup).1
    have hpre' : ∃ pre', s.reverse = pre' ++ l :=
      ⟨pre ++ [d], by rw [hdec, List.append_assoc]; rfl⟩
    by_cases hb : isBase r d
    · have hstep : accumDonor r p st d = .ok st := accumDonor_of_base hbos hb st
      rw [List.foldlM_cons, hstep, except_bind_ok]
      obtain ⟨st', hfold, hl1, hl2, hsum⟩ := ih st hpre' h1 h2
      refine ⟨st', hfold, hl1, hl2, ?_⟩
      rw [hsum]
      have hfe : (d :: l).toFinset.filter (fun v => ¬ isBase r v) =
          l.toFinset.filter (fun v => ¬ isBase r v) := by
        rw [List.toFinset_cons, Finset.filter_insert, if_neg (not_not_intro hb)]
      rw [hfe]
    · obtain ⟨st1, hstep, h1', h2', hv1, _⟩ :=
        accumDonor_of_nonbase valid hsob hdN hb st h1 h2
      rw [List.foldlM_cons, hstep, except_bind_ok]
      obtain ⟨st', hfold, hl1, hl2, hsum⟩ := ih st1 hpre' h1' h2'
      refine ⟨st', hfold, hl1, hl2, ?_⟩
      rw [hsum]
      have hS'sub : baseSet r ∪ l.toFinset.filter (fun v => ¬ isBase r v) ⊆
          Finset.range r.length := by
        intro v hv
        rcases Finset.mem_union.mp hv with hv | hv
        · exact Finset.mem_filter.mp hv |>.1
        · rw [Finset.mem_filter, List.mem_toFinset] at hv
          exact Finset.mem_range.mpr (hmemN v (hl_s v hv.1))
      have hd_not : d ∉ baseSet r ∪ l.toFinset.filter (fun v => ¬ isBase r v) := by
        intro hc
        rcases Finset.mem_union.mp hc with hc | hc
        · exact hb (Finset.mem_filter.mp hc).2
        · exact hd_l (List.mem_toFinset.mp (Finset.mem_filter.mp hc).1)
      have hcoef : ∑ v ∈ baseSet r ∪ l.toFinset.filter (fun v => ¬ isBase r v),
          rowCoef r p d v = 1 := by
        rw [Finset.sum_subset hS'sub]
        · rw [rowCoef_total valid hdN]
          exact hsum1 d hdN
        · intro v hvr hvS
          by_contra hc
          have hslot := donorSlot_of_rowCoef hc
          by_cases hvd : v = d
          · subst hvd
            exact hb (hsob v hslot)
          · have hvN : v < r.length := Finset.mem_range.mp hvr
            have hedge : edgeTo r p d v := ⟨fun hc' => hvd hc'.symm, hslot⟩
            have hlt := horder d hdN v hvN hedge
            by_cases hvb : isBase r v
            · exact hvS (Finset.mem_union_left _
                (Finset.mem_filter.mpr ⟨hvr, hvb⟩))
            · have hvl : v ∈ l := mem_suffix_of_indexOf_lt hdec hnds hlt
              exact hvS (Finset.mem_union_right _
                (Finset.mem_filter.mpr ⟨List.mem_toFinset.mpr hvl, hvb⟩))
      have hsum2 : ∑ v ∈ baseSet r ∪ l.toFinset.filter (fun v => ¬ isBase r v),
          st1.1.getD v 0 =
          (∑ v ∈ baseSet r ∪ l.toFinset.filter (fun v => ¬ isBase r v),
            st.1.getD v 0) + st.1.getD d 0 := by
        have hpt : ∀ v ∈ baseSet r ∪ l.toFinset.filter (fun v => ¬ isBase r v),
            st1.1.getD v 0 = st.1.getD v 0 + rowCoef r p d v * st.1.getD d 0 :=
          fun v _ => hv1 v
        rw [Finset.sum_congr rfl hpt, Finset.sum_add_distrib,
          ← Finset.sum_mul, hcoef, one_mul]
      rw [hsum2]
      have hins : (d :: l).toFinset.filter (fun v => ¬ isBase r v) =
          insert d (l.toFinset.filter (fun v => ¬ isBase r v)) := by
        rw [List.toFinset_cons, Finset.filter_insert, if_pos hb]
      rw [hins, Finset.union_insert, Finset.sum_insert hd_not]
      ring

theorem zeroAt_length (l : List ℚ) (bl : List ℕ) :
    (zeroAt l bl).length = l.length := by
  simp [zeroAt]

theorem zeroAt_getD {l : List ℚ} {bl : List ℕ} {v : ℕ} (hv : v < l.length) :
    (zeroAt l bl).getD v 0 = if v ∈ bl then 0 else l.getD v 0 := by
  have hv' : v < (zeroAt l bl).length := by rw [zeroAt_length]; exact hv
  rw [List.getD_eq_getElem _ _ hv', List.getD_eq_getElem _ _ hv]
  simp only [zeroAt]
  rw [List.getElem_zipWith]
  simp

theorem range_map_getD {n : ℕ} {f : ℕ → ℚ} {v : ℕ} (hv : v < n) :
    ((List.range n).map f).getD v 0 = f v := by
  have hv' : v < ((List.range n).map f).length := by
    rw [List.length_map, List.length_range]; exact hv
  rw [List.getD_eq_getElem _ _ hv', List.getElem_map, List.getElem_range]

theorem accumStart_length (np : ℕ) (nca runoff : List ℚ)
    (bn : Option (List ℕ)) : (accumStart np nca runoff bn).1.length = np ∧
      (accumStart np nca runoff bn).2.length = np := by
  unfold accumStart
  cases bn with
  | none => constructor <;> simp
  | some bl => constructor <;> simp [zeroAt_length]

theorem accumStart_getD {np : ℕ} {nca runoff : List ℚ}
    {bn : Option (List ℕ)} {v : ℕ} (hv : v < np) :
    (accumStart np nca runoff bn).1.getD v 0 = seedOf nca bn v := by
  unfold accumStart seedOf
  cases bn with
  | none => exact range_map_getD hv
  | some bl =>
    show (zeroAt ((List.range np).map (fun i => nca.getD i 0)) bl).getD v 0 =
      if v ∈ bl then 0 else nca.getD v 0
    rw [zeroAt_getD (by rw [List.length_map, List.length_range]; exact hv)]
    by_cases hvb : v ∈ bl
    · rw [if_pos hvb, if_pos hvb]
    · rw [if_neg hvb, if_neg hvb, range_map_getD hv]

theorem find_drainage_eq_fold {s : List ℕ} {r : List (List ℤ)}
    {p : List (List ℚ)} {nca runoff : List ℚ} {bn : Option (List ℕ)}
    (hlen : r.length ≤ s.length) :
    find_drainage_area_and_discharge_to_n s r p nca runoff bn =
      List.foldlM (accumDonor r p) (accumStart r.length nca runoff bn)
        ((s.take r.length).reverse) := by
  unfold find_drainage_area_and_discharge_to_n accumStart
  rw [if_pos hlen]

/-- One donor step never decreases any total and keeps them non-negative. -/
theorem accumDonor_mono {r : List (List ℤ)} {p : List (List ℚ)}
    (valid : ValidTables r p) {d : ℕ} (hd : d < r.length)
    (st : List ℚ × List ℚ) (h1 : st.1.length = r.length)
    (h2 : st.2.length = r.length) (hn1 : ∀ v, 0 ≤ st.1.getD v 0)
    (hn2 : ∀ v, 0 ≤ st.2.getD v 0) :
    ∃ st', accumDonor r p st d = .ok st' ∧
      st'.1.length = r.length ∧ st'.2.length = r.length ∧
      (∀ v, 0 ≤ st'.1.getD v 0) ∧ (∀ v, 0 ≤ st'.2.getD v 0) ∧
      (∀ v, st.1.getD v 0 ≤ st'.1.getD v 0) ∧
      (∀ v, st.2.getD v 0 ≤ st'.2.getD v 0) := by
  unfold accumDonor
  rw [if_pos hd]
  apply accumSlot_fold_mono _ _ h1 h2 _ hn1 hn2
  intro e he hpos _
  obtain ⟨j, hj1, hj2, hg1, hg2⟩ := mem_zip_idx he
  have he1 : (r.getD d []).getD j 0 = e.1 := by
    rw [List.getD_eq_getElem _ _ hj1]
    exact Option.some.inj (by rw [← List.getElem?_eq_getElem hj1, hg1])
  have he2 : (p.getD d []).getD j 0 = e.2 := by
    rw [List.getD_eq_getElem _ _ hj2]
    exact Option.some.inj (by rw [← List.getElem?_eq_getElem hj2, hg2])
  have hin := valid.posInRange d hd j hj1 (by rw [he2]; exact hpos)
  rw [he1] at hin
  exact hin

/-- The monotone outer fold of the accumulator. -/
theorem accum_mono_fold {r : List (List ℤ)} {p : List (List ℚ)}
    (valid : ValidTables r p) :
    ∀ (l : List ℕ) (st : List ℚ × List ℚ), (∀ x ∈ l, x < r.length) →
    st.1.length = r.length → st.2.length = r.length →
    (∀ v, 0 ≤ st.1.getD v 0) → (∀ v, 0 ≤ st.2.getD v 0) →
    ∃ st', List.foldlM (accumDonor r p) st l = .ok st' ∧
      st'.1.length = r.length ∧ st'.2.length = r.length ∧
      (∀ v, 0 ≤ st'.1.getD v 0) ∧ (∀ v, 0 ≤ st'.2.getD v 0) ∧
      (∀ v, st.1.getD v 0 ≤ st'.1.getD v 0) ∧
      (∀ v, st.2.getD v 0 ≤ st'.2.getD v 0) := by
  intro l
  induction l with
  | nil =>
    intro st _ h1 h2 hn1 hn2
    exact ⟨st, rfl, h1, h2, hn1, hn2, fun v => le_refl _, fun v => le_refl _⟩
  | cons d t ih =>
    intro st hmem h1 h2 hn1 hn2
    obtain ⟨st1, hstep, h1', h2', hn1', hn2', hm1, hm2⟩ :=
      accumDonor_mono valid (hmem d (List.mem_cons_self d t)) st h1 h2 hn1 hn2
    rw [List.foldlM_cons, hstep, except_bind_ok]
    obtain ⟨st', hfold, hl1, hl2, hn1'', hn2'', hm1', hm2'⟩ := ih st1
      (fun x hx => hmem x (List.mem_cons_of_mem d hx)) h1' h2' hn1' hn2'
    exact ⟨st', hfold, hl1, hl2, hn1'', hn2'',
      fun v => le_trans (hm1 v) (hm1' v), fun v => le_trans (hm2 v) (hm2' v)⟩

/-- Packaged conservation result for the accumulator: under the stack
conventions, row-stochastic proportions and a downstream-first order, the
final base-level totals hold exactly the total seeded mass. -/
theorem find_drainage_conserve {r : List (List ℤ)} {p : List (List ℚ)}
    (valid : ValidTables r p)
    (hsob : ∀ i, donorSlot r p i i → isBase r i)
    (hbos : ∀ i, isBase r i → ∀ j < (r.getD i []).length,
      0 < (p.getD i []).getD j 0 → (r.getD i []).getD j 0 = (i : ℤ))
    (hsum1 : ∀ i < r.length, posRowSum p i = 1) {s : List ℕ}
    (hperm : s.Perm (List.range r.length))
    (horder : ∀ u < r.length, ∀ v < r.length, edgeTo r p u v →
      s.indexOf v < s.indexOf u) (nca runoff : List ℚ)
    (bn : Option (List ℕ)) :
    ∃ aq, find_drainage_area_and_discharge_to_n s r p nca runoff bn =
      .ok aq ∧ aq.1.length = r.length ∧
      ∑ b ∈ baseSet r, aq.1.getD b 0 =
        ∑ v ∈ Finset.range r.length, seedOf nca bn v := by
  have hslen : s.length = r.length := by
    rw [hperm.length_eq, List.length_range]
  have htake : s.take r.length = s := List.take_of_length_le (by omega)
  obtain ⟨hst1, hst2⟩ := accumStart_length r.length nca runoff bn
  obtain ⟨st', hfold, hl1, _, hsum⟩ := accum_conserve_fold valid hsob hbos
    hsum1 hperm horder s.reverse (accumStart r.length nca runoff bn)
    ⟨[], rfl⟩ hst1 hst2
  refine ⟨st', ?_, hl1, ?_⟩
  · rw [find_drainage_eq_fold (by omega), htake]
    exact hfold
  · rw [hsum]
    have hset : baseSet r ∪
        s.reverse.toFinset.filter (fun v => ¬ isBase r v) =
        Finset.range r.length := by
      apply Finset.ext
      intro x
      constructor
      · intro hx
        rcases Finset.mem_union.mp hx with hx | hx
        · exact (Finset.mem_filter.mp hx).1
        · rw [Finset.mem_filter, List.mem_toFinset, List.mem_reverse] at hx
          rw [Finset.mem_range]
          have := hperm.mem_iff.mp hx.1
          rwa [List.mem_range] at this
      · intro hx
        by_cases hb : isBase r x
        · exact Finset.mem_union_left _ (Finset.mem_filter.mpr ⟨hx, hb⟩)
        · refine Finset.mem_union_right _ (Finset.mem_filter.mpr ⟨?_, hb⟩)
          rw [List.mem_toFinset, List.mem_reverse]
          exact hperm.mem_iff.mpr
            (List.mem_range.mpr (Finset.mem_range.mp hx))
    rw [hset]
    apply Finset.sum_congr rfl
    intro v hv
    exact accumStart_getD (Finset.mem_range.mp hv)

/-- Packaged monotonicity result for the accumulator: every total ends at
or above its seeded start value. -/
theorem find_drainage_mono {r : List (List ℤ)} {p : List (List ℚ)}
    (valid : ValidTables r p) {s : List ℕ} (hsN : ∀ x ∈ s, x < r.length)
    (hslen : r.length ≤ s.length) {nca runoff : List ℚ}
    (hnca : ∀ x ∈ nca, 0 ≤ x) (hro : ∀ x ∈ runoff, 0 ≤ x)
    (bn : Option (List ℕ)) :
    ∃ aq, find_drainage_area_and_discharge_to_n s r p nca runoff bn =
      .ok aq ∧ aq.1.length = r.length ∧
      ∀ v < r.length, seedOf nca bn v ≤ aq.1.getD v 0 := by
  have hgetD : ∀ (l : List ℚ), (∀ x ∈ l, (0:ℚ) ≤ x) → ∀ v, 0 ≤ l.getD v 0 := by
    intro l hl v
    by_cases hv : v < l.length
    · rw [List.getD_eq_getElem _ _ hv]
      exact hl _ (List.getElem_mem hv)
    · rw [List.getD_eq_default _ _ (by omega)]
  obtain ⟨hst1, hst2⟩ := accumStart_length r.length nca runoff bn
  have hsn1 : ∀ v, 0 ≤ (accumStart r.length nca runoff bn).1.getD v 0 := by
    intro v
    by_cases hv : v < r.length
    · rw [accumStart_getD hv]
      unfold seedOf
      cases bn with
      | none => exact hgetD nca hnca v
      | some bl =>
        show (0:ℚ) ≤ if v ∈ bl then 0 else nca.getD v 0
        by_cases hvb : v ∈ bl
        · rw [if_pos hvb]
        · rw [if_neg hvb]
          exact hgetD nca hnca v
    · rw [List.getD_eq_default _ _ (by omega)]
  have hsn2 : ∀ v, 0 ≤ (accumStart r.length nca runoff bn).2.getD v 0 := by
    intro v
    by_cases hv : v < r.length
    · have hv2 : v < (accumStart r.length nca runoff bn).2.length := by omega
      unfold accumStart
      cases bn with
      | none =>
        show 0 ≤ ((List.range r.length).map
          (fun i => nca.getD i 0 * runoff.getD i 0)).getD v 0
        rw [range_map_getD hv]
        exact mul_nonneg (hgetD nca hnca v) (hgetD runoff hro v)
      | some bl =>
        show 0 ≤ (zeroAt ((List.range r.length).map
          (fun i => nca.getD i 0 * runoff.getD i 0)) bl).getD v 0
        rw [zeroAt_getD (by rw [List.length_map, List.length_range]; exact hv)]
        by_cases hvb : v ∈ bl
        · rw [if_pos hvb]
        · rw [if_neg hvb, range_map_getD hv]
          exact mul_nonneg (hgetD nca hnca v) (hgetD runoff hro v)
    · rw [List.getD_eq_default _ _ (by omega)]
  obtain ⟨st', hfold, hl1, _, _, _, hm1, _⟩ := accum_mono_fold valid
    ((s.take r.length).reverse) (accumStart r.length nca runoff bn)
    (by
      intro x hx
      rw [List.mem_reverse] at hx
      exact hsN x (List.mem_of_mem_take hx)) hst1 hst2 hsn1 hsn2
  refine ⟨st', ?_, hl1, ?_⟩
  · rw [find_drainage_eq_fold hslen]
    exact hfold
  · intro v hv
    have := hm1 v
    rwa [accumStart_getD hv] at this

/-! ## Helpers for the concrete instantiations -/

theorem donorTrans_lt {r : List (List ℤ)} {p : List (List ℚ)}
    (valid : ValidTables r p) {u v : ℕ} (h : donorTrans r p u v) :
    u < r.length ∧ v < r.length := by
  unfold donorTrans at h
  induction h with
  | single he => exact edgeTo_lt valid he
  | tail _ he ih => exact ⟨ih.1, (edgeTo_lt valid he).2⟩

/-- Assembling `make_ordered_node_array_to_n` from pre-evaluated stages. -/
theorem make_ordered_concrete {r : List (List ℤ)} {p : List (List ℚ)}
    {nd : List ℤ} {D : List ℕ} {fuel : ℕ}
    (hnd : _make_number_of_donors_array_to_n r p = .ok nd)
    (hD : _make_array_of_donors_to_n r p (_make_delta_array_to_n nd) = .ok D)
    {res : Option (List ℕ)}
    (hcs : construct__stack (_make_delta_array_to_n nd) D fuel
      (baselevelList r) = res) :
    make_ordered_node_array_to_n fuel r p =
      res.elim (.error "while loop did not terminate within fuel") .ok := by
  unfold make_ordered_node_array_to_n
  rw [hnd, except_bind_ok]
  show (do
      let D ← _make_array_of_donors_to_n r p (_make_delta_array_to_n nd)
      match construct__stack (_make_delta_array_to_n nd) D fuel
          (baselevelList r) with
        | some s => Except.ok s
        | none => Except.error "while loop did not terminate within fuel") = _
  rw [hD, except_bind_ok]
  subst hcs
  cases construct__stack (_make_delta_array_to_n nd) D fuel
    (baselevelList r) with
  | none => rfl
  | some s => rfl

unseal Rat.add Rat.mul Rat.inv Rat.sub in
theorem validTables_rEx : ValidTables rEx pEx :=
  ⟨by decide, by decide, by decide, by decide, by decide, by decide⟩

unseal Rat.add Rat.mul Rat.inv Rat.sub in
theorem stackValid_rEx : StackValid rEx pEx := by
  refine ⟨validTables_rEx, ?_, ?_, ?_⟩
  · intro i hslot
    exact (by decide : ∀ i < 10, donorSlot rEx pEx i i → isBase rEx i) i
      (donorSlot_lt hslot) hslot
  · intro i hb
    exact (by decide : ∀ i < 10, isBase rEx i →
      ∀ j < (rEx.getD i []).length, 0 < (pEx.getD i []).getD j 0 →
        (rEx.getD i []).getD j 0 = (i : ℤ)) i hb.1 hb
  · exact acyclic_of_rank validTables_rEx
      (fun u => [4, 2, 3, 4, 0, 1, 3, 2, 4, 5].getD u 0) (by decide)

unseal Rat.add Rat.mul Rat.inv Rat.sub in
theorem drains_rEx : ∀ v < rEx.length, DrainsToBase rEx pEx v :=
  fun v hv => drains_of_reachIter
    ((by decide : ∀ v < 10, v ∈ reachIter rEx pEx 4) v hv)

unseal Rat.add Rat.mul Rat.inv Rat.sub in
theorem validTables_rBaseOut : ValidTables rBaseOut pBaseOut :=
  ⟨by decide, by decide, by decide, by decide, by decide, by decide⟩

unseal Rat.add Rat.mul Rat.inv Rat.sub in
theorem acyclic_rBaseOut : Acyclic rBaseOut pBaseOut :=
  acyclic_of_rank validTables_rBaseOut
    (fun u => [2, 1, 0].getD u 0) (by decide)

unseal Rat.add Rat.mul Rat.inv Rat.sub in
theorem drains_rBaseOut : ∀ v < rBaseOut.length, DrainsToBase rBaseOut pBaseOut v :=
  fun v hv => drains_of_reachIter
    ((by decide : ∀ v < 3, v ∈ reachIter rBaseOut pBaseOut 2) v hv)

unseal Rat.add Rat.mul Rat.inv Rat.sub in
theorem validTables_rNoBase : ValidTables rNoBase pNoBase :=
  ⟨by decide, by decide, by decide, by decide, by decide, by decide⟩

unseal Rat.add Rat.mul Rat.inv Rat.sub in
theorem acyclic_rNoBase : Acyclic rNoBase pNoBase :=
  acyclic_of_rank validTables_rNoBase (fun u => [1, 0].getD u 0) (by decide)

unseal Rat.add Rat.mul Rat.inv Rat.sub in
theorem validTables_rIso : ValidTables rIso pIso :=
  ⟨by decide, by decide, by decide, by decide, by decide, by decide⟩

unseal Rat.add Rat.mul Rat.inv Rat.sub in
theorem stackValid_rIso : StackValid rIso pIso := by
  refine ⟨validTables_rIso, ?_, ?_, ?_⟩
  · intro i hslot
    exact (by decide : ∀ i < 2, donorSlot rIso pIso i i → isBase rIso i) i
      (donorSlot_lt hslot) hslot
  · intro i hb
    exact (by decide : ∀ i < 2, isBase rIso i →
      ∀ j < (rIso.getD i []).length, 0 < (pIso.getD i []).getD j 0 →
        (rIso.getD i []).getD j 0 = (i : ℤ)) i hb.1 hb
  · exact acyclic_of_rank validTables_rIso (fun _ => 0) (by decide)

/-! ## The claims -/

/-- C1 (amended): under the module's input conventions (valid tables, the
positive-proportion graph acyclic apart from base-level self-loops) *and
the additional hypothesis that every node drains to a base-level node*,
the order returned by `make_ordered_node_array_to_n` places every receiver
strictly before each of its direct or transitive donors. -/
theorem C1_downstream_before_upstream {r : List (List ℤ)}
    {p : List (List ℚ)} (sv : StackValid r p)
    (hdr : ∀ v < r.length, DrainsToBase r p v) {fuel : ℕ}
    (hfuel : r.length + 1 ≤ fuel) :
    ∃ s, make_ordered_node_array_to_n fuel r p = .ok s ∧
      ∀ v u, u ≠ v → donorTrans r p u v → s.indexOf v < s.indexOf u := by
  obtain ⟨nd, D, hnd, hD, hndlen, hdn, hDb, hmo⟩ := pipeline_stack sv hfuel
  have hdlen : (_make_delta_array_to_n nd).length = r.length + 1 := by
    rw [delta_length, hndlen]
  refine ⟨_, hmo, ?_⟩
  intro v u hne hTG
  have hvN : v < r.length := (donorTrans_lt sv.toValidTables hTG).2
  have huN : u < r.length := (donorTrans_lt sv.toValidTables hTG).1
  have hvt := vt_topo sv hdn hDb hdlen hTG (hdr v hvN)
    (show r.length ≤ r.length + 1 by omega)
  have hlen : (vtSeq (_make_delta_array_to_n nd) D (baselevelList r)
      (r.length + 1)).length = r.length := by
    rw [vtSeq_length, hdlen]
    omega
  exact argsort_indexOf_lt (by rw [hlen]; exact hvN)
    (by rw [hlen]; exact huN) hvt

unseal Rat.add Rat.mul Rat.inv Rat.sub in
/-- Witness for C1 on the 10-node reference input. -/
theorem C1_downstream_before_upstream_witness :
    StackValid rEx pEx ∧ (∀ v < rEx.length, DrainsToBase rEx pEx v) ∧
    rEx.length + 1 ≤ 11 ∧
    (∃ s, make_ordered_node_array_to_n 11 rEx pEx = .ok s ∧
      ∀ v u, u ≠ v → donorTrans rEx pEx u v → s.indexOf v < s.indexOf u) :=
  ⟨stackValid_rEx, drains_rEx, by decide,
    C1_downstream_before_upstream stackValid_rEx drains_rEx (by decide)⟩

unseal Rat.add Rat.mul Rat.inv Rat.sub in
/-- Counterexample to C1 as stated: the two-node input `rNoBase`/`pNoBase`
meets every stated hypothesis (equal shapes, in-range positive receivers,
acyclic positive graph, self-loops only at bases — vacuously, as there is
no base), yet the traversal visits nothing, the returned order is `[0, 1]`,
and the donor `0` of node `1` comes first. -/
theorem C1_downstream_before_upstream_counterexample :
    sameShape rNoBase pNoBase = true ∧
    (∀ i < rNoBase.length, ∀ j < 2, 0 < (pNoBase.getD i []).getD j 0 →
      0 ≤ (rNoBase.getD i []).getD j 0 ∧
      (rNoBase.getD i []).getD j 0 < (rNoBase.length : ℤ)) ∧
    (∀ i < rNoBase.length, donorSlot rNoBase pNoBase i i →
      isBase rNoBase i) ∧
    Acyclic rNoBase pNoBase ∧
    make_ordered_node_array_to_n 3 rNoBase pNoBase = .ok [0, 1] ∧
    (0 : ℕ) ≠ 1 ∧ donorTrans rNoBase pNoBase 0 1 ∧
    ¬ ([0, 1].indexOf 1 < [0, 1].indexOf 0) :=
  ⟨by decide, by decide, by decide, acyclic_rNoBase, by decide, by decide,
    Relation.TransGen.single (by decide), by decide⟩

/-- C2: on every input satisfying the module's conventions the returned
order is a permutation of `0 .. N-1`. -/
theorem C2_order_is_permutation {r : List (List ℤ)} {p : List (List ℚ)}
    (sv : StackValid r p) {fuel : ℕ} (hfuel : r.length + 1 ≤ fuel) :
    ∃ s, make_ordered_node_array_to_n fuel r p = .ok s ∧
      s.Perm (List.range r.length) := by
  obtain ⟨nd, D, hnd, hD, hndlen, hdn, hDb, hmo⟩ := pipeline_stack sv hfuel
  refine ⟨_, hmo, ?_⟩
  have hperm := argsort_perm (vtSeq (_make_delta_array_to_n nd) D
    (baselevelList r) (r.length + 1))
  have hlen : (vtSeq (_make_delta_array_to_n nd) D (baselevelList r)
      (r.length + 1)).length = r.length := by
    rw [vtSeq_length, delta_length, hndlen]
    omega
  rwa [hlen] at hperm

unseal Rat.add Rat.mul Rat.inv Rat.sub in
/-- Witness for C2 on the 10-node reference input. -/
theorem C2_order_is_permutation_witness :
    StackValid rEx pEx ∧ rEx.length + 1 ≤ 11 ∧
    (∃ s, make_ordered_node_array_to_n 11 rEx pEx = .ok s ∧
      s.Perm (List.range rEx.length)) :=
  ⟨stackValid_rEx, by decide,
    C2_order_is_permutation stackValid_rEx (by decide)⟩

unseal Rat.add Rat.mul Rat.inv Rat.sub in
/-- C3: the full pipeline on the 10-node reference input produces the
documented donor counts, offsets, order shape and exact drainage areas
(discharge identical under unit runoff). -/
theorem C3_reference_example :
    _make_number_of_donors_array_to_n rEx pEx = .ok ndEx ∧
    _make_delta_array_to_n ndEx = [0, 0, 2, 4, 4, 8, 12, 14, 17, 18, 18] ∧
    make_ordered_node_array_to_n 11 rEx pEx = .ok sEx ∧
    sEx.getD 0 0 = 4 ∧ sEx.getD 1 0 = 5 ∧ sEx.getD 9 0 = 9 ∧
    ({sEx.indexOf 1, sEx.indexOf 7} : Finset ℕ) = {2, 3} ∧
    ({sEx.indexOf 2, sEx.indexOf 6} : Finset ℕ) = {4, 5} ∧
    (∀ x ∈ [0, 3, 8], 5 < sEx.indexOf x) ∧
    find_drainage_area_and_discharge_to_n sEx rEx pEx
      (List.replicate 10 1) (List.replicate 10 1) none =
      .ok (areaEx, areaEx) :=
  ⟨by decide, by decide,
    make_ordered_concrete (by decide) (by decide)
      (by decide : construct__stack (_make_delta_array_to_n ndEx) DEx 11
        (baselevelList rEx) = some sEx),
    by decide, by decide, by decide, by decide, by decide, by decide,
    by decide⟩

/-- C4 (amended): mass conservation holds for `find_drainage_area_and_discharge_to_n`
under the claim's hypotheses (row-stochastic positive proportions, acyclicity,
draining to bases, a downstream-first order) *plus the additional hypothesis
that base-level nodes send positive flow only to themselves*. -/
theorem C4_mass_conservation {r : List (List ℤ)} {p : List (List ℚ)}
    (valid : ValidTables r p)
    (hsob : ∀ i, donorSlot r p i i → isBase r i)
    (hbos : ∀ i, isBase r i → ∀ j < (r.getD i []).length,
      0 < (p.getD i []).getD j 0 → (r.getD i []).getD j 0 = (i : ℤ))
    (hacyc : Acyclic r p) (hdr : ∀ v < r.length, DrainsToBase r p v)
    (hsum1 : ∀ i < r.length, posRowSum p i = 1) {s : List ℕ}
    (hperm : s.Perm (List.range r.length))
    (horder : ∀ u < r.length, ∀ v < r.length, edgeTo r p u v →
      s.indexOf v < s.indexOf u) (nca runoff : List ℚ)
    (bn : Option (List ℕ)) :
    ∃ aq, find_drainage_area_and_discharge_to_n s r p nca runoff bn =
      .ok aq ∧
      ∑ b ∈ baseSet r, aq.1.getD b 0 =
        ∑ v ∈ Finset.range r.length, seedOf nca bn v := by
  obtain ⟨aq, hok, _, hsum⟩ := find_drainage_conserve valid hsob hbos hsum1
    hperm horder nca runoff bn
  exact ⟨aq, hok, hsum⟩

unseal Rat.add Rat.mul Rat.inv Rat.sub in
/-- Witness for C4 on the 10-node reference input. -/
theorem C4_mass_conservation_witness :
    ValidTables rEx pEx ∧
    (∀ i, donorSlot rEx pEx i i → isBase rEx i) ∧
    (∀ i, isBase rEx i → ∀ j < (rEx.getD i []).length,
      0 < (pEx.getD i []).getD j 0 → (rEx.getD i []).getD j 0 = (i : ℤ)) ∧
    Acyclic rEx pEx ∧ (∀ v < rEx.length, DrainsToBase rEx pEx v) ∧
    (∀ i < rEx.length, posRowSum pEx i = 1) ∧
    sEx.Perm (List.range rEx.length) ∧
    (∀ u < rEx.length, ∀ v < rEx.length, edgeTo rEx pEx u v →
      sEx.indexOf v < sEx.indexOf u) ∧
    (∃ aq, find_drainage_area_and_discharge_to_n sEx rEx pEx
        (List.replicate 10 1) (List.replicate 10 1) none = .ok aq ∧
      ∑ b ∈ baseSet rEx, aq.1.getD b 0 =
        ∑ v ∈ Finset.range rEx.length,
          seedOf (List.replicate 10 1) none v) :=
  ⟨stackValid_rEx.toValidTables, stackValid_rEx.selfOnlyBase,
    stackValid_rEx.baseOnlySelf, stackValid_rEx.acyclic, drains_rEx,
    by decide, by decide, by decide,
    C4_mass_conservation stackValid_rEx.toValidTables
      stackValid_rEx.selfOnlyBase stackValid_rEx.baseOnlySelf
      stackValid_rEx.acyclic drains_rEx (by decide) (by decide) (by decide)
      (List.replicate 10 1) (List.replicate 10 1) none⟩

unseal Rat.add Rat.mul Rat.inv Rat.sub in
/-- Counterexample to C4 as stated: on `rBaseOut`/`pBaseOut` every stated
hypothesis holds (row sums `1`, acyclic apart from base self-loops, all
nodes drain to a base, `[2, 1, 0]` is a downstream-first order), but
base-level node `0` also sends half its flow to node `1`, so the mass
collected at the bases is `7/2`, not the seeded total `3`. -/
theorem C4_mass_conservation_counterexample :
    sameShape rBaseOut pBaseOut = true ∧
    (∀ i < rBaseOut.length, donorSlot rBaseOut pBaseOut i i →
      isBase rBaseOut i) ∧
    Acyclic rBaseOut pBaseOut ∧
    (∀ v < rBaseOut.length, DrainsToBase rBaseOut pBaseOut v) ∧
    (∀ i < rBaseOut.length, posRowSum pBaseOut i = 1) ∧
    [2, 1, 0].Perm (List.range rBaseOut.length) ∧
    (∀ u < rBaseOut.length, ∀ v < rBaseOut.length,
      edgeTo rBaseOut pBaseOut u v →
      [2, 1, 0].indexOf v < [2, 1, 0].indexOf u) ∧
    find_drainage_area_and_discharge_to_n [2, 1, 0] rBaseOut pBaseOut
      (List.replicate 3 1) (List.replicate 3 1) none =
      .ok ([1, 3/2, 5/2], [1, 3/2, 5/2]) ∧
    ¬ (∑ b ∈ baseSet rBaseOut, ([1, 3/2, 5/2] : List ℚ).getD b 0 =
        ∑ v ∈ Finset.range rBaseOut.length,
          seedOf (List.replicate 3 1) none v) :=
  ⟨by decide, by decide, acyclic_rBaseOut, drains_rBaseOut, by decide,
    by decide, by decide, by decide, by decide⟩

/-- C5 (amended): the donor-count stage is inert in the non-positive slots
*up to the receiver table's `amax`*: two receiver tables agreeing on all
positive-proportion slots and on `amax` give identical results; and under
the full input conventions (in particular the `-1` sentinel in every inert
slot) the result holds exactly the positive-edge counts. -/
theorem C5_inert_slots (r r' : List (List ℤ)) (p : List (List ℚ)) :
    (sameShape r p = true → sameShape r' p = true →
      (∀ i < r.length, ∀ j < (p.getD i []).length,
        0 < (p.getD i []).getD j 0 →
        (r.getD i []).getD j 0 = (r'.getD i []).getD j 0) →
      npAmax r = npAmax r' →
      _make_number_of_donors_array_to_n r p =
        _make_number_of_donors_array_to_n r' p) ∧
    (ValidTables r p →
      ∃ nd, _make_number_of_donors_array_to_n r p = .ok nd ∧
        nd.length = r.length ∧
        ∀ v < r.length, nd.getD v 0 = ((donorCountSpec r p v : ℕ) : ℤ)) :=
  ⟨fun h1 h2 h3 h4 => nd_congr h1 h2 h3 h4, fun valid => nd_exact valid⟩

unseal Rat.add Rat.mul Rat.inv Rat.sub in
/-- Witness for C5 on a sentinel-conforming two-node input. -/
theorem C5_inert_slots_witness :
    (sameShape rInertConv pInert = true ∧ sameShape rInertConv pInert = true ∧
      (∀ i < rInertConv.length, ∀ j < (pInert.getD i []).length,
        0 < (pInert.getD i []).getD j 0 →
        (rInertConv.getD i []).getD j 0 = (rInertConv.getD i []).getD j 0) ∧
      npAmax rInertConv = npAmax rInertConv ∧
      _make_number_of_donors_array_to_n rInertConv pInert =
        _make_number_of_donors_array_to_n rInertConv pInert) ∧
    (ValidTables rInertConv pInert ∧
      ∃ nd, _make_number_of_donors_array_to_n rInertConv pInert = .ok nd ∧
        nd.length = rInertConv.length ∧
        ∀ v < rInertConv.length,
          nd.getD v 0 = ((donorCountSpec rInertConv pInert v : ℕ) : ℤ)) :=
  ⟨⟨by decide, by decide, by decide, rfl,
      (C5_inert_slots rInertConv rInertConv pInert).1 (by decide) (by decide)
        (by decide) rfl⟩,
    ⟨⟨by decide, by decide, by decide, by decide, by decide, by decide⟩,
      (C5_inert_slots rInertConv rInertConv pInert).2
        ⟨by decide, by decide, by decide, by decide, by decide, by decide⟩⟩⟩

unseal Rat.add Rat.mul Rat.inv Rat.sub in
/-- Counterexample to C5 as stated: `rInert` and `rInertConv` agree on all
positive-proportion slots (they differ only in an inert slot holding `1`
instead of the `-1` sentinel), yet the donor-count stage returns `[2, 2]`
for one and `[2, 0]` for the other, and the `[2, 2]` result wrongly
credits node `1` with two donors when it has none. -/
theorem C5_inert_slots_counterexample :
    sameShape rInert pInert = true ∧ sameShape rInertConv pInert = true ∧
    (∀ i < rInert.length, ∀ j < (pInert.getD i []).length,
      0 < (pInert.getD i []).getD j 0 →
      (rInert.getD i []).getD j 0 = (rInertConv.getD i []).getD j 0) ∧
    _make_number_of_donors_array_to_n rInert pInert = .ok [2, 2] ∧
    _make_number_of_donors_array_to_n rInertConv pInert = .ok [2, 0] ∧
    donorCountSpec rInert pInert 1 = 0 ∧
    ([2, 2] : List ℤ).getD 1 0 ≠ ((donorCountSpec rInert pInert 1 : ℕ) : ℤ) :=
  ⟨by decide, by decide, by decide, by decide, by decide, by decide,
    by decide⟩

/-- C6: whenever a positive-proportion slot names a receiver outside
`[0, N)`, the donor-count stage raises instead of clamping or ignoring. -/
theorem C6_out_of_range_fails {r : List (List ℤ)} {p : List (List ℚ)}
    (hshape : sameShape r p = true) {i j : ℕ} (hi : i < r.length)
    (hj : j < (r.getD i []).length) (hpos : 0 < (p.getD i []).getD j 0)
    (hout : (r.getD i []).getD j 0 < 0 ∨
      (r.length : ℤ) ≤ (r.getD i []).getD j 0) :
    ∃ msg, _make_number_of_donors_array_to_n r p = .error msg :=
  nd_fail_fast hshape hi hj hpos hout

unseal Rat.add Rat.mul Rat.inv Rat.sub in
/-- Witness for C6: the one-row table pointing at the non-existent node
`5`. -/
theorem C6_out_of_range_fails_witness :
    sameShape rOut pOut = true ∧ 0 < rOut.length ∧
    0 < (rOut.getD 0 []).length ∧ 0 < (pOut.getD 0 []).getD 0 0 ∧
    ((rOut.getD 0 []).getD 0 0 < 0 ∨
      (rOut.length : ℤ) ≤ (rOut.getD 0 []).getD 0 0) ∧
    (∃ msg, _make_number_of_donors_array_to_n rOut pOut = .error msg) :=
  ⟨by decide, by decide, by decide, by decide, by decide,
    C6_out_of_range_fails (by decide) (by decide : (0:ℕ) < rOut.length)
      (by decide : (0:ℕ) < (rOut.getD 0 []).length)
      (by decide : 0 < (pOut.getD 0 []).getD 0 0)
      (by decide : (rOut.getD 0 []).getD 0 0 < 0 ∨
        (rOut.length : ℤ) ≤ (rOut.getD 0 []).getD 0 0)⟩

/-- C7 (amended): under the full input conventions — including the
additional hypothesis that base-level nodes send positive flow only to
themselves — the traversal terminates within `N + 1` rounds, so
`make_ordered_node_array_to_n` succeeds. -/
theorem C7_traversal_terminates {r : List (List ℤ)} {p : List (List ℚ)}
    (sv : StackValid r p) {fuel : ℕ} (hfuel : r.length + 1 ≤ fuel) :
    ∃ s, make_ordered_node_array_to_n fuel r p = .ok s := by
  obtain ⟨nd, D, _, _, _, _, _, hmo⟩ := pipeline_stack sv hfuel
  exact ⟨_, hmo⟩

unseal Rat.add Rat.mul Rat.inv Rat.sub in
/-- Witness for C7 on the 10-node reference input. -/
theorem C7_traversal_terminates_witness :
    StackValid rEx pEx ∧ rEx.length + 1 ≤ 11 ∧
    (∃ s, make_ordered_node_array_to_n 11 rEx pEx = .ok s) :=
  ⟨stackValid_rEx, by decide,
    C7_traversal_terminates stackValid_rEx (by decide)⟩

unseal Rat.add Rat.mul Rat.inv Rat.sub in
/-- Counterexample to C7 as stated: `rBaseOut`/`pBaseOut` is acyclic apart
from base-level self-loops and satisfies all table conventions, but
base-level node `0` also feeds node `1`, so `0` re-enters `base` on every
round and the `while` loop never terminates: the run fails for every fuel
bound. -/
theorem C7_traversal_terminates_counterexample :
    sameShape rBaseOut pBaseOut = true ∧
    (∀ i < rBaseOut.length, ∀ j < 2,
      0 < (pBaseOut.getD i []).getD j 0 →
      0 ≤ (rBaseOut.getD i []).getD j 0 ∧
      (rBaseOut.getD i []).getD j 0 < (rBaseOut.length : ℤ)) ∧
    (∀ i < rBaseOut.length, donorSlot rBaseOut pBaseOut i i →
      isBase rBaseOut i) ∧
    Acyclic rBaseOut pBaseOut ∧
    ∀ fuel, make_ordered_node_array_to_n fuel rBaseOut pBaseOut =
      .error "while loop did not terminate within fuel" := by
  refine ⟨by decide, by decide, by decide, acyclic_rBaseOut, ?_⟩
  intro fuel
  have hB : ∀ k, 1 ≤ k → Bseq (_make_delta_array_to_n [1, 1, 2])
      [0, 0, 1, 2] (baselevelList rBaseOut) k = {0} := by
    intro k
    induction k with
    | zero => intro h; omega
    | succ k ih =>
      intro _
      rcases Nat.eq_zero_or_pos k with hk0 | hkp
      · subst hk0
        decide
      · show dnU (_make_delta_array_to_n [1, 1, 2]) [0, 0, 1, 2]
          (Bseq (_make_delta_array_to_n [1, 1, 2]) [0, 0, 1, 2]
            (baselevelList rBaseOut) k) = {0}
        rw [ih (by omega)]
        decide
  have hU : ∀ j, Useq (_make_delta_array_to_n [1, 1, 2]) [0, 0, 1, 2]
      (baselevelList rBaseOut) j ≠ ∅ := by
    intro j
    cases j with
    | zero => decide
    | succ j =>
      rw [← Bseq_succ_eq_Useq_succ, hB (j + 1) (by omega)]
      decide
  exact make_ordered_concrete (by decide) (by decide)
    (construct__stack_none hU fuel)

theorem seedOf_of_not_boundary {nca : List ℚ} {bn : Option (List ℕ)}
    {v : ℕ} (h : ∀ bl, bn = some bl → v ∉ bl) :
    seedOf nca bn v = nca.getD v 0 := by
  unfold seedOf
  cases bn with
  | none => rfl
  | some bl =>
    show (if v ∈ bl then 0 else nca.getD v 0) = nca.getD v 0
    rw [if_neg (h bl rfl)]

/-- C8: with valid tables, an in-range order and non-negative cell areas,
runoff and proportions, every non-boundary node's final drainage area is
at least its seeded cell area. -/
theorem C8_area_monotone {r : List (List ℤ)} {p : List (List ℚ)}
    (valid : ValidTables r p) {s : List ℕ} (hsN : ∀ x ∈ s, x < r.length)
    (hslen : r.length ≤ s.length) {nca runoff : List ℚ}
    (hnca : ∀ x ∈ nca, 0 ≤ x) (hro : ∀ x ∈ runoff, 0 ≤ x)
    (hp : ∀ i < r.length, ∀ j < (p.getD i []).length,
      0 ≤ (p.getD i []).getD j 0) (bn : Option (List ℕ)) :
    ∃ aq, find_drainage_area_and_discharge_to_n s r p nca runoff bn =
      .ok aq ∧
      ∀ v < r.length, (∀ bl, bn = some bl → v ∉ bl) →
        nca.getD v 0 ≤ aq.1.getD v 0 := by
  obtain ⟨aq, hok, _, hmono⟩ := find_drainage_mono valid hsN hslen hnca hro bn
  refine ⟨aq, hok, ?_⟩
  intro v hv hnb
  have h := hmono v hv
  rwa [seedOf_of_not_boundary hnb] at h

unseal Rat.add Rat.mul Rat.inv Rat.sub in
/-- Witness for C8 on the 10-node reference input. -/
theorem C8_area_monotone_witness :
    ValidTables rEx pEx ∧ (∀ x ∈ sEx, x < rEx.length) ∧
    rEx.length ≤ sEx.length ∧
    (∀ x ∈ List.replicate 10 (1 : ℚ), 0 ≤ x) ∧
    (∀ x ∈ List.replicate 10 (1 : ℚ), 0 ≤ x) ∧
    (∀ i < rEx.length, ∀ j < (pEx.getD i []).length,
      0 ≤ (pEx.getD i []).getD j 0) ∧
    (∃ aq, find_drainage_area_and_discharge_to_n sEx rEx pEx
        (List.replicate 10 1) (List.replicate 10 1) none = .ok aq ∧
      ∀ v < rEx.length, (∀ bl, (none : Option (List ℕ)) = some bl → v ∉ bl) →
        (List.replicate 10 (1 : ℚ)).getD v 0 ≤ aq.1.getD v 0) :=
  ⟨stackValid_rEx.toValidTables, by decide, by decide, by decide, by decide,
    by decide,
    C8_area_monotone stackValid_rEx.toValidTables (by decide) (by decide)
      (by decide) (by decide) (by decide) none⟩

/-- C9: nodes with no positive-proportion path to a base-level node keep
visit time `-1`, hence they occupy the very front of the returned order, in
particular before every draining node; and when any such node exists the
first element of the order is not a base-level node. -/
theorem C9_unreachable_placed_first {r : List (List ℤ)}
    {p : List (List ℚ)} (sv : StackValid r p) {fuel : ℕ}
    (hfuel : r.length + 1 ≤ fuel) :
    ∃ s, make_ordered_node_array_to_n fuel r p = .ok s ∧
      (∀ x, NoDrain r p x → ∀ y < r.length, DrainsToBase r p y →
        s.indexOf x < s.indexOf y) ∧
      ((∃ x, NoDrain r p x) → ¬ isBase r (s.getD 0 0)) := by
  obtain ⟨nd, D, hnd, hD, hndlen, hdn, hDb, hmo⟩ := pipeline_stack sv hfuel
  have hdlen : (_make_delta_array_to_n nd).length = r.length + 1 := by
    rw [delta_length, hndlen]
  have hlen : (vtSeq (_make_delta_array_to_n nd) D (baselevelList r)
      (r.length + 1)).length = r.length := by
    rw [vtSeq_length, hdlen]
    omega
  have hvt_nodrain : ∀ x, NoDrain r p x →
      (vtSeq (_make_delta_array_to_n nd) D (baselevelList r)
        (r.length + 1)).getD x 0 = -1 := by
    intro x hx
    have hxb : ¬ isBase r x := fun hb => hx.2 x hb Relation.ReflTransGen.refl
    have hxl : x ∉ (baselevelList r).toFinset := fun hc =>
      hxb (mem_baselevelList.mp (List.mem_toFinset.mp hc))
    have hxB : ∀ k, x ∉ Bseq (_make_delta_array_to_n nd) D
        (baselevelList r) k := by
      intro k hk
      obtain ⟨b, hb, hreach⟩ := Bseq_drains sv hdn hDb k x hk
      exact hx.2 b hb hreach
    exact vt_of_unvisited hxl
      (by rw [hdlen]; have h1 := hx.1; omega) hxB (r.length + 1)
  have hvt_drain : ∀ y, y < r.length → DrainsToBase r p y →
      -1 < (vtSeq (_make_delta_array_to_n nd) D (baselevelList r)
        (r.length + 1)).getD y 0 := by
    intro y hy hdr
    rcases reached_of_drains sv hdn hDb hdlen hdr with hyl | ⟨i, hyB⟩
    · have hybase : isBase r y :=
        mem_baselevelList.mp (List.mem_toFinset.mp hyl)
      rw [vt_of_base hyl (by omega)
        (fun k => stack_B_baseFree sv hdn hDb k y hybase) (r.length + 1)]
      omega
    · obtain ⟨m, hm, hlast⟩ := maxRound_exists sv hdn hDb hyB
      rw [vt_of_last (by omega) hm hlast (r.length + 1)
        (by have := round_lt_length sv hdn hDb hm; omega)]
      have : (0 : ℤ) ≤ (m : ℤ) := by positivity
      omega
  refine ⟨_, hmo, ?_, ?_⟩
  · intro x hx y hy hdr
    apply argsort_indexOf_lt (by rw [hlen]; exact hx.1)
      (by rw [hlen]; exact hy)
    rw [hvt_nodrain x hx]
    exact hvt_drain y hy hdr
  · rintro ⟨x, hx⟩ hbase0
    have hb0N : (argsort (vtSeq (_make_delta_array_to_n nd) D
        (baselevelList r) (r.length + 1))).getD 0 0 < r.length := hbase0.1
    have hb0l : (argsort (vtSeq (_make_delta_array_to_n nd) D
        (baselevelList r) (r.length + 1))).getD 0 0 ∈
        (baselevelList r).toFinset :=
      List.mem_toFinset.mpr (mem_baselevelList.mpr hbase0)
    have hvt0 : (vtSeq (_make_delta_array_to_n nd) D (baselevelList r)
        (r.length + 1)).getD
        ((argsort (vtSeq (_make_delta_array_to_n nd) D (baselevelList r)
          (r.length + 1))).getD 0 0) 0 = 0 :=
      vt_of_base hb0l (by omega)
        (fun k => stack_B_baseFree sv hdn hDb k _ hbase0) (r.length + 1)
    have hmin := argsort_head_min
      (show x < (vtSeq (_make_delta_array_to_n nd) D (baselevelList r)
        (r.length + 1)).length by rw [hlen]; exact hx.1)
    rw [hvt0, hvt_nodrain x hx] at hmin
    omega

unseal Rat.add Rat.mul Rat.inv Rat.sub in
/-- Witness for C9 on a two-node input with an isolated node. -/
theorem C9_unreachable_placed_first_witness :
    StackValid rIso pIso ∧ rIso.length + 1 ≤ 3 ∧
    (∃ s, make_ordered_node_array_to_n 3 rIso pIso = .ok s ∧
      (∀ x, NoDrain rIso pIso x → ∀ y < rIso.length,
        DrainsToBase rIso pIso y → s.indexOf x < s.indexOf y) ∧
      ((∃ x, NoDrain rIso pIso x) → ¬ isBase rIso (s.getD 0 0))) :=
  ⟨stackValid_rIso, by decide,
    C9_unreachable_placed_first stackValid_rIso (by decide)⟩

/-- C10 (amended): under the full input conventions — in particular the
`-1` sentinel in every inert slot, so that the donor counts are exact —
every write of the donor-list builder lands inside its receiver's CSR
region (hence in bounds), and the write positions cover every slot of `D`
exactly once. -/
theorem C10_donor_writes_in_bounds {r : List (List ℤ)}
    {p : List (List ℚ)} (valid : ValidTables r p) {nd : List ℤ}
    (hnd : _make_number_of_donors_array_to_n r p = .ok nd) :
    ∃ stf, donorBuild r p (_make_delta_array_to_n nd) = .ok stf ∧
      (∀ e ∈ stf.tr, ∃ t, t < r.length ∧ e.1 = ((t : ℕ) : ℤ) ∧
        (_make_delta_array_to_n nd).getD t 0 ≤ e.2 ∧
        e.2 < (_make_delta_array_to_n nd).getD (t + 1) 0 ∧
        (_make_delta_array_to_n nd).getD (t + 1) 0 ≤
          (_make_delta_array_to_n nd).getD r.length 0) ∧
      (stf.tr.map Prod.snd).Perm
        ((List.range stf.D.length).map (fun k : ℕ => ((k : ℕ) : ℤ))) := by
  obtain ⟨stf, h1, _, _, _, h5, h6, _⟩ := donorBuild_spec valid hnd
  exact ⟨stf, h1, h5, h6⟩

unseal Rat.add Rat.mul Rat.inv Rat.sub in
/-- Witness for C10 on the 10-node reference input. -/
theorem C10_donor_writes_in_bounds_witness :
    ValidTables rEx pEx ∧
    _make_number_of_donors_array_to_n rEx pEx = .ok ndEx ∧
    (∃ stf, donorBuild rEx pEx (_make_delta_array_to_n ndEx) = .ok stf ∧
      (∀ e ∈ stf.tr, ∃ t, t < rEx.length ∧ e.1 = ((t : ℕ) : ℤ) ∧
        (_make_delta_array_to_n ndEx).getD t 0 ≤ e.2 ∧
        e.2 < (_make_delta_array_to_n ndEx).getD (t + 1) 0 ∧
        (_make_delta_array_to_n ndEx).getD (t + 1) 0 ≤
          (_make_delta_array_to_n ndEx).getD rEx.length 0) ∧
      (stf.tr.map Prod.snd).Perm
        ((List.range stf.D.length).map (fun k : ℕ => ((k : ℕ) : ℤ)))) :=
  ⟨stackValid_rEx.toValidTables, by decide,
    C10_donor_writes_in_bounds stackValid_rEx.toValidTables (by decide)⟩

unseal Rat.add Rat.mul Rat.inv Rat.sub in
/-- Counterexample to C10 as stated: on `rInert`/`pInert` every positive
receiver is in range and `delta` is built from this stage's own donor-count
output, yet that output (corrupted by a broadcast over an inert slot) makes
`D` four slots long while only two writes happen, so not every slot of `D`
is written. -/
theorem C10_donor_writes_in_bounds_counterexample :
    (∀ i < rInert.length, ∀ j < 2, 0 < (pInert.getD i []).getD j 0 →
      0 ≤ (rInert.getD i []).getD j 0 ∧
      (rInert.getD i []).getD j 0 < (rInert.length : ℤ)) ∧
    _make_number_of_donors_array_to_n rInert pInert = .ok [2, 2] ∧
    donorBuild rInert pInert (_make_delta_array_to_n [2, 2]) =
      .ok ⟨[2, 0], [0, 1, 0, 0], [(0, 0), (0, 1)]⟩ ∧
    ¬ (([((0 : ℤ), (0 : ℤ)), (0, 1)].map Prod.snd).Perm
        ((List.range ([0, 1, 0, 0] : List ℕ).length).map
          (fun k : ℕ => ((k : ℕ) : ℤ)))) :=
  ⟨by decide, by decide, by decide, by decide⟩

end FlowAccumToN
